import Mathlib

/-!
# Verification of the social-network graph algorithms engine

Shallow embedding of the `GraphAlgorithms` class (`src/utils/graphAlgorithms.ts`):
construction of the adjacency index, BFS shortest path, DFS community detection,
union-find community detection, and mutual-friend suggestions, together with
proofs and refutations of the specification's claims.

JavaScript `Map` and `Set` are modelled as association lists / duplicate-free
lists preserving insertion order; unbounded loops are modelled with an explicit
fuel that provably never runs out on the states reachable from the entry points.
-/

namespace SNGA

/-- Node identifiers are strings, as in the TypeScript source. -/
abbrev NodeId := String

/-- The `User` interface of `@/types/graph` (its source is appended to
`src/shadcn-ui/src/components/GraphVisualization.tsx`): `id: string`,
`name: string`.  The interface's optional layout fields `x?: number` and
`y?: number` are omitted here: no algorithm of `GraphAlgorithms` reads them. -/
structure User where
  id : NodeId
  name : String
deriving DecidableEq, Repr

/-- The `Friendship` interface of `@/types/graph`: `source: string`,
`target: string`. -/
structure Friendship where
  source : NodeId
  target : NodeId
deriving DecidableEq, Repr

/-- The `PathResult` interface of `@/types/graph`: `path: string[]` and
`distance: number`.  `findShortestPath` sets `distance` to `path.length - 1`,
a JavaScript number that can be `-1` when the reconstructed path is empty,
hence `Int`. -/
structure PathResult where
  path : List NodeId
  distance : Int
deriving DecidableEq, Repr

/-- The `Community` interface of `@/types/graph`: numeric id, member node
ids, display color. -/
structure Community where
  id : Nat
  users : List NodeId
  color : String
deriving DecidableEq, Repr

/-- A friend suggestion returned by `findMutualFriends`. -/
structure Suggestion where
  userId : NodeId
  mutualCount : Nat
  mutualFriends : List NodeId
deriving DecidableEq, Repr

/-- The node-id list of a user list. -/
def idsOf (users : List User) : List NodeId := users.map User.id

/-! ## Association-list model of JavaScript `Map` -/

/-- First-match lookup, the semantics of `Map.get`. -/
def alookup {β : Type} : List (NodeId × β) → NodeId → Option β
  | [], _ => none
  | (k, v) :: rest, x => if k = x then some v else alookup rest x

/-- `Map.set`: overwrite an existing key, otherwise append (JS maps keep
insertion order). -/
def aset {β : Type} (m : List (NodeId × β)) (x : NodeId) (v : β) : List (NodeId × β) :=
  if (alookup m x).isSome then m.map (fun p => if p.1 = x then (x, v) else p)
  else m ++ [(x, v)]

theorem alookup_map_ne {β : Type} (m : List (NodeId × β)) (x z : NodeId) (v : β)
    (h : z ≠ x) :
    alookup (m.map (fun p => if p.1 = x then (x, v) else p)) z = alookup m z := by
  induction m with
  | nil => rfl
  | cons p rest ih =>
    simp only [List.map_cons]
    by_cases hpx : p.1 = x
    · rw [if_pos hpx]
      have hxz : ¬ (x = z) := fun hh => h hh.symm
      have hpz : ¬ (p.1 = z) := by rw [hpx]; exact hxz
      show alookup ((x, v) :: _) z = alookup (p :: rest) z
      rw [alookup, alookup, if_neg hxz, if_neg hpz, ih]
    · rw [if_neg hpx]
      by_cases hpz : p.1 = z
      · rw [alookup, alookup, if_pos hpz, if_pos hpz]
      · rw [alookup, alookup, if_neg hpz, if_neg hpz, ih]

theorem alookup_map_eq {β : Type} (m : List (NodeId × β)) (x : NodeId) (v : β)
    (h : (alookup m x).isSome) :
    alookup (m.map (fun p => if p.1 = x then (x, v) else p)) x = some v := by
  induction m with
  | nil => simp [alookup] at h
  | cons p rest ih =>
    simp only [List.map_cons]
    by_cases hpx : p.1 = x
    · rw [if_pos hpx]
      show alookup ((x, v) :: _) x = some v
      rw [alookup, if_pos rfl]
    · rw [if_neg hpx]
      have h' : (alookup rest x).isSome := by
        rw [alookup, if_neg hpx] at h; exact h
      rw [alookup, if_neg hpx, ih h']

theorem alookup_append_single {β : Type} (m : List (NodeId × β)) (x z : NodeId) (v : β) :
    alookup (m ++ [(x, v)]) z =
      match alookup m z with
      | some w => some w
      | none => if x = z then some v else none := by
  induction m with
  | nil => simp [alookup]
  | cons p rest ih =>
    by_cases hpz : p.1 = z
    · simp [alookup, hpz]
    · simp [alookup, hpz, ih]

theorem alookup_aset {β : Type} (m : List (NodeId × β)) (x : NodeId) (v : β) (z : NodeId) :
    alookup (aset m x v) z = if z = x then some v else alookup m z := by
  unfold aset
  by_cases hsome : (alookup m x).isSome
  · rw [if_pos hsome]
    by_cases hzx : z = x
    · subst hzx; rw [if_pos rfl]; exact alookup_map_eq m z v hsome
    · rw [if_neg hzx]; exact alookup_map_ne m x z v hzx
  · rw [if_neg hsome]
    rw [alookup_append_single]
    by_cases hzx : z = x
    · subst hzx
      have : alookup m z = none := by
        cases h : alookup m z with
        | none => rfl
        | some w => exact absurd (by rw [h]; rfl) hsome
      simp [this]
    · have hxz : ¬ (x = z) := fun hh => hzx hh.symm
      cases h : alookup m z with
      | none => simp [hxz, hzx]
      | some w => simp [hzx]

theorem alookup_isSome_iff_mem_keys {β : Type} (m : List (NodeId × β)) (x : NodeId) :
    (alookup m x).isSome ↔ x ∈ m.map Prod.fst := by
  induction m with
  | nil => simp [alookup]
  | cons p rest ih =>
    by_cases h : p.1 = x
    · simp [alookup, h]
    · have h' : ¬ (x = p.1) := fun hh => h hh.symm
      simp [alookup, h, h', ih]

/-! ## Adjacency index (`buildAdjacencyList`) -/

/-- `Map<string, Set<string>>`: per-node neighbor lists in insertion order. -/
abbrev Adj := List (NodeId × List NodeId)

/-- `Set.add`: append unless already present. -/
def setAdd (s : List NodeId) (y : NodeId) : List NodeId :=
  if y ∈ s then s else s ++ [y]

/-- `adj.get(k)?.add(v)`: add `v` to the neighbor set of `k` when `k` has an
entry; silently do nothing otherwise (the optional-chaining semantics). -/
def adjAdd (adj : Adj) (k v : NodeId) : Adj :=
  adj.map (fun p => if p.1 = k then (p.1, setAdd p.2 v) else p)

/-- `buildAdjacencyList`: every user gets an (initially empty) entry, then each
friendship adds both directed neighbor records. -/
def buildAdjacencyList (users : List User) (friendships : List Friendship) : Adj :=
  friendships.foldl
    (fun adj f => adjAdd (adjAdd adj f.source f.target) f.target f.source)
    (users.map (fun u => (u.id, ([] : List NodeId))))

/-- The neighbor set consulted by every query:
`this.adjacencyList.get(x) || new Set()`. -/
def nbrs (adj : Adj) (x : NodeId) : List NodeId := (alookup adj x).getD []

/-- The engine object: the constructor stores both inputs and builds the
adjacency index once. -/
structure GraphAlgorithms where
  users : List User
  friendships : List Friendship
  adjacencyList : Adj
deriving DecidableEq, Repr

/-- `new GraphAlgorithms(users, friendships)`: total, performs no validation. -/
def mkGraphAlgorithms (users : List User) (friendships : List Friendship) :
    GraphAlgorithms :=
  { users := users, friendships := friendships,
    adjacencyList := buildAdjacencyList users friendships }

/-- One friendship's effect on the adjacency list. -/
def adjStep (adj : Adj) (f : Friendship) : Adj :=
  adjAdd (adjAdd adj f.source f.target) f.target f.source

theorem buildAdjacencyList_eq_foldl (users : List User) (friendships : List Friendship) :
    buildAdjacencyList users friendships =
      friendships.foldl adjStep (users.map (fun u => (u.id, ([] : List NodeId)))) := rfl

theorem mem_setAdd (s : List NodeId) (v y : NodeId) :
    y ∈ setAdd s v ↔ y ∈ s ∨ y = v := by
  unfold setAdd
  by_cases h : v ∈ s
  · simp only [if_pos h]
    constructor
    · exact Or.inl
    · rintro (hy | rfl) <;> assumption
  · simp [if_neg h]

theorem setAdd_nodup {s : List NodeId} (h : s.Nodup) (v : NodeId) : (setAdd s v).Nodup := by
  unfold setAdd
  by_cases hv : v ∈ s
  · simpa [hv]
  · simp [hv, List.nodup_append, h]

theorem setAdd_length (s : List NodeId) (v : NodeId) :
    (setAdd s v).length ≤ s.length + 1 := by
  unfold setAdd
  by_cases hv : v ∈ s <;> simp [hv]

theorem alookup_adjAdd (adj : Adj) (k v x : NodeId) :
    alookup (adjAdd adj k v) x =
      if x = k then (alookup adj k).map (fun s => setAdd s v) else alookup adj x := by
  unfold adjAdd
  induction adj with
  | nil => by_cases h : x = k <;> simp [alookup, h]
  | cons p rest ih =>
    simp only [List.map_cons]
    by_cases hpk : p.1 = k
    · rw [if_pos hpk]
      by_cases hxk : x = k
      · subst hxk
        show alookup ((p.1, setAdd p.2 v) :: _) x = _
        rw [alookup, if_pos hpk, if_pos rfl, alookup, if_pos hpk]
        rfl
      · have hpx : ¬ (p.1 = x) := by rw [hpk]; exact fun hh => hxk hh.symm
        show alookup ((p.1, setAdd p.2 v) :: _) x = _
        rw [alookup, if_neg hpx, ih, if_neg hxk]
        simp [alookup, hpx, hxk]
    · rw [if_neg hpk]
      by_cases hpx : p.1 = x
      · have hxk : ¬ (x = k) := fun hh => hpk (hpx.trans hh)
        rw [alookup, if_pos hpx, if_neg hxk, alookup, if_pos hpx]
      · rw [alookup, if_neg hpx, ih]
        by_cases hxk : x = k
        · rw [if_pos hxk, if_pos hxk, alookup, if_neg hpk]
        · rw [if_neg hxk, if_neg hxk, alookup, if_neg hpx]

theorem nbrs_adjAdd_mem (adj : Adj) (k v x y : NodeId) :
    y ∈ nbrs (adjAdd adj k v) x ↔
      y ∈ nbrs adj x ∨ (x = k ∧ y = v ∧ (alookup adj k).isSome) := by
  unfold nbrs
  rw [alookup_adjAdd]
  by_cases hxk : x = k
  · subst hxk
    cases h : alookup adj x with
    | none => simp [h]
    | some s => simp [h, mem_setAdd]
  · simp [hxk]

theorem nbrs_adjAdd_length (adj : Adj) (k v x : NodeId) :
    (nbrs (adjAdd adj k v) x).length ≤ (nbrs adj x).length + 1 := by
  unfold nbrs
  rw [alookup_adjAdd]
  by_cases hxk : x = k
  · subst hxk
    cases h : alookup adj x with
    | none => simp [h]
    | some s => simpa [h] using setAdd_length s v
  · simp [hxk]

theorem adjAdd_keys (adj : Adj) (k v x : NodeId) :
    (alookup (adjAdd adj k v) x).isSome = (alookup adj x).isSome := by
  rw [alookup_adjAdd]
  by_cases hxk : x = k
  · subst hxk; cases h : alookup adj x <;> simp [h]
  · simp [hxk]

theorem adjStep_keys (adj : Adj) (f : Friendship) (x : NodeId) :
    (alookup (adjStep adj f) x).isSome = (alookup adj x).isSome := by
  unfold adjStep
  rw [adjAdd_keys, adjAdd_keys]

theorem foldl_adjStep_keys (fs : List Friendship) (adj : Adj) (x : NodeId) :
    (alookup (fs.foldl adjStep adj) x).isSome = (alookup adj x).isSome := by
  induction fs generalizing adj with
  | nil => rfl
  | cons f rest ih => rw [List.foldl_cons, ih, adjStep_keys]

theorem alookup_init_users (users : List User) (x : NodeId) :
    (alookup (users.map (fun u => (u.id, ([] : List NodeId)))) x).isSome ↔
      x ∈ idsOf users := by
  rw [alookup_isSome_iff_mem_keys]
  unfold idsOf
  simp [Function.comp]

/-- The keys of the built adjacency index are exactly the user ids. -/
theorem buildAdjacencyList_keys (users : List User) (friendships : List Friendship)
    (x : NodeId) :
    (alookup (buildAdjacencyList users friendships) x).isSome ↔ x ∈ idsOf users := by
  rw [buildAdjacencyList_eq_foldl, foldl_adjStep_keys, alookup_init_users]

theorem nbrs_init_users (users : List User) (x : NodeId) :
    nbrs (users.map (fun u => (u.id, ([] : List NodeId)))) x = [] := by
  unfold nbrs
  induction users with
  | nil => rfl
  | cons u rest ih =>
    simp only [List.map_cons]
    by_cases h : u.id = x
    · rw [alookup, if_pos h]; rfl
    · rw [alookup, if_neg h]; exact ih

theorem nbrs_adjStep_mem (adj : Adj) (f : Friendship) (x y : NodeId) :
    y ∈ nbrs (adjStep adj f) x ↔
      y ∈ nbrs adj x ∨
        (x = f.source ∧ y = f.target ∧ (alookup adj f.source).isSome) ∨
        (x = f.target ∧ y = f.source ∧ (alookup adj f.target).isSome) := by
  unfold adjStep
  rw [nbrs_adjAdd_mem, nbrs_adjAdd_mem]
  rw [adjAdd_keys]
  tauto

theorem mem_nbrs_foldl (fs : List Friendship) (adj : Adj) (x y : NodeId) :
    y ∈ nbrs (fs.foldl adjStep adj) x ↔
      y ∈ nbrs adj x ∨
        ∃ f ∈ fs, (x = f.source ∧ y = f.target ∧ (alookup adj f.source).isSome) ∨
          (x = f.target ∧ y = f.source ∧ (alookup adj f.target).isSome) := by
  induction fs generalizing adj with
  | nil => simp
  | cons f rest ih =>
    rw [List.foldl_cons, ih]
    have hkeys : ∀ z, (alookup (adjStep adj f) z).isSome = (alookup adj z).isSome :=
      fun z => adjStep_keys adj f z
    rw [nbrs_adjStep_mem]
    constructor
    · rintro ((h | h) | ⟨g, hg, hcase⟩)
      · exact Or.inl h
      · exact Or.inr ⟨f, List.mem_cons_self f rest, h⟩
      · rw [hkeys, hkeys] at hcase
        exact Or.inr ⟨g, List.mem_cons_of_mem f hg, hcase⟩
    · rintro (h | ⟨g, hg, hcase⟩)
      · exact Or.inl (Or.inl h)
      · rcases List.mem_cons.mp hg with rfl | hg'
        · exact Or.inl (Or.inr hcase)
        · rw [← hkeys, ← hkeys] at hcase
          exact Or.inr ⟨g, hg', hcase⟩

/-- Membership in a built neighbor set, characterized by the friendship list. -/
theorem mem_nbrs_build (users : List User) (friendships : List Friendship) (x y : NodeId) :
    y ∈ nbrs (buildAdjacencyList users friendships) x ↔
      ∃ f ∈ friendships,
        (x = f.source ∧ y = f.target ∧ f.source ∈ idsOf users) ∨
        (x = f.target ∧ y = f.source ∧ f.target ∈ idsOf users) := by
  rw [buildAdjacencyList_eq_foldl, mem_nbrs_foldl]
  rw [nbrs_init_users]
  simp only [List.not_mem_nil, false_or]
  constructor
  · rintro ⟨f, hf, hcase⟩
    refine ⟨f, hf, ?_⟩
    rcases hcase with ⟨h1, h2, h3⟩ | ⟨h1, h2, h3⟩
    · exact Or.inl ⟨h1, h2, (alookup_init_users users f.source).mp h3⟩
    · exact Or.inr ⟨h1, h2, (alookup_init_users users f.target).mp h3⟩
  · rintro ⟨f, hf, hcase⟩
    refine ⟨f, hf, ?_⟩
    rcases hcase with ⟨h1, h2, h3⟩ | ⟨h1, h2, h3⟩
    · exact Or.inl ⟨h1, h2, (alookup_init_users users f.source).mpr h3⟩
    · exact Or.inr ⟨h1, h2, (alookup_init_users users f.target).mpr h3⟩

/-- Values stored in the adjacency index are duplicate-free (they model JS sets). -/
theorem nbrs_build_nodup (users : List User) (friendships : List Friendship) (x : NodeId) :
    (nbrs (buildAdjacencyList users friendships) x).Nodup := by
  rw [buildAdjacencyList_eq_foldl]
  have main : ∀ (fs : List Friendship) (adj : Adj),
      (∀ z, (nbrs adj z).Nodup) → ∀ z, (nbrs (fs.foldl adjStep adj) z).Nodup := by
    intro fs
    induction fs with
    | nil => intro adj h z; exact h z
    | cons f rest ih =>
      intro adj h z
      rw [List.foldl_cons]
      refine ih (adjStep adj f) ?_ z
      intro w
      have hstep : ∀ (a : Adj) (k v w : NodeId),
          (∀ z, (nbrs a z).Nodup) → (nbrs (adjAdd a k v) w).Nodup := by
        intro a k v w ha
        unfold nbrs
        rw [alookup_adjAdd]
        by_cases hwk : w = k
        · subst hwk
          cases hl : alookup a w with
          | none => simp
          | some s =>
            have : s.Nodup := by have := ha w; rwa [nbrs, hl] at this
            simpa using setAdd_nodup this v
        · rw [if_neg hwk]; exact ha w
      unfold adjStep
      exact hstep (adjAdd adj f.source f.target) f.target f.source w
        (fun z2 => hstep adj f.source f.target z2 h)
  refine main friendships _ ?_ x
  intro z
  rw [nbrs_init_users]
  exact List.nodup_nil

theorem nbrs_build_length (users : List User) (friendships : List Friendship) (x : NodeId) :
    (nbrs (buildAdjacencyList users friendships) x).length ≤ 2 * friendships.length := by
  rw [buildAdjacencyList_eq_foldl]
  have main : ∀ (fs : List Friendship) (adj : Adj) (z : NodeId),
      (nbrs (fs.foldl adjStep adj) z).length ≤ (nbrs adj z).length + 2 * fs.length := by
    intro fs
    induction fs with
    | nil => intro adj z; simp
    | cons f rest ih =>
      intro adj z
      rw [List.foldl_cons]
      calc (nbrs (rest.foldl adjStep (adjStep adj f)) z).length
          ≤ (nbrs (adjStep adj f) z).length + 2 * rest.length := ih _ z
        _ ≤ ((nbrs adj z).length + 2) + 2 * rest.length := by
            have h1 := nbrs_adjAdd_length (adjAdd adj f.source f.target) f.target f.source z
            have h2 := nbrs_adjAdd_length adj f.source f.target z
            unfold adjStep
            omega
        _ = (nbrs adj z).length + 2 * (rest.length + 1) := by ring
  have := main friendships (users.map (fun u => (u.id, ([] : List NodeId)))) x
  rw [nbrs_init_users] at this
  simpa using this

/-! ## Graph validity (the data-model invariant of §3 of the spec) -/

/-- The §3 invariant on graph snapshots: distinct node ids, each edge joins two
distinct nodes that are present in the node list. -/
structure ValidGraph (users : List User) (friendships : List Friendship) : Prop where
  ids_nodup : (idsOf users).Nodup
  src_mem : ∀ f ∈ friendships, f.source ∈ idsOf users
  tgt_mem : ∀ f ∈ friendships, f.target ∈ idsOf users
  src_ne_tgt : ∀ f ∈ friendships, f.source ≠ f.target

instance (users : List User) (friendships : List Friendship) :
    Decidable (ValidGraph users friendships) := by
  refine decidable_of_iff ((idsOf users).Nodup ∧
    (∀ f ∈ friendships, f.source ∈ idsOf users) ∧
    (∀ f ∈ friendships, f.target ∈ idsOf users) ∧
    (∀ f ∈ friendships, f.source ≠ f.target)) ?_
  constructor
  · rintro ⟨a, b, c, d⟩; exact ⟨a, b, c, d⟩
  · rintro ⟨a, b, c, d⟩; exact ⟨a, b, c, d⟩

/-- An edge of the graph between `x` and `y`, in either orientation. -/
def EdgeBetween (friendships : List Friendship) (x y : NodeId) : Prop :=
  ∃ f ∈ friendships, (f.source = x ∧ f.target = y) ∨ (f.source = y ∧ f.target = x)

instance (friendships : List Friendship) (x y : NodeId) :
    Decidable (EdgeBetween friendships x y) := by
  unfold EdgeBetween; infer_instance

/-- When every edge references present nodes, the adjacency relation is exactly
the edge relation. -/
theorem mem_nbrs_build_valid {users : List User} {friendships : List Friendship}
    (hsrc : ∀ f ∈ friendships, f.source ∈ idsOf users)
    (htgt : ∀ f ∈ friendships, f.target ∈ idsOf users) (x y : NodeId) :
    y ∈ nbrs (buildAdjacencyList users friendships) x ↔ EdgeBetween friendships x y := by
  rw [mem_nbrs_build]
  constructor
  · rintro ⟨f, hf, ⟨h1, h2, _⟩ | ⟨h1, h2, _⟩⟩
    · exact ⟨f, hf, Or.inl ⟨h1.symm, h2.symm⟩⟩
    · exact ⟨f, hf, Or.inr ⟨h2.symm, h1.symm⟩⟩
  · rintro ⟨f, hf, ⟨h1, h2⟩ | ⟨h1, h2⟩⟩
    · exact ⟨f, hf, Or.inl ⟨h1.symm, h2.symm, hsrc f hf⟩⟩
    · exact ⟨f, hf, Or.inr ⟨h2.symm, h1.symm, htgt f hf⟩⟩

theorem nbrs_build_mem_ids {users : List User} {friendships : List Friendship}
    (hsrc : ∀ f ∈ friendships, f.source ∈ idsOf users)
    (htgt : ∀ f ∈ friendships, f.target ∈ idsOf users) {x y : NodeId}
    (h : y ∈ nbrs (buildAdjacencyList users friendships) x) :
    x ∈ idsOf users ∧ y ∈ idsOf users := by
  rw [mem_nbrs_build] at h
  rcases h with ⟨f, hf, ⟨h1, h2, _⟩ | ⟨h1, h2, _⟩⟩
  · exact ⟨h1 ▸ hsrc f hf, h2 ▸ htgt f hf⟩
  · exact ⟨h1 ▸ htgt f hf, h2 ▸ hsrc f hf⟩

/-- When every edge references present nodes, the adjacency index is symmetric. -/
theorem nbrs_build_symm {users : List User} {friendships : List Friendship}
    (hsrc : ∀ f ∈ friendships, f.source ∈ idsOf users)
    (htgt : ∀ f ∈ friendships, f.target ∈ idsOf users) (x y : NodeId) :
    y ∈ nbrs (buildAdjacencyList users friendships) x ↔
      x ∈ nbrs (buildAdjacencyList users friendships) y := by
  rw [mem_nbrs_build_valid hsrc htgt, mem_nbrs_build_valid hsrc htgt]
  unfold EdgeBetween
  constructor
  · rintro ⟨f, hf, h | h⟩
    · exact ⟨f, hf, Or.inr h⟩
    · exact ⟨f, hf, Or.inl h⟩
  · rintro ⟨f, hf, h | h⟩
    · exact ⟨f, hf, Or.inr h⟩
    · exact ⟨f, hf, Or.inl h⟩

/-! ## `findMutualFriends` -/

/-- `findMutualFriends(userId)`: for every user other than `userId` and its
friends, collect the shared neighbors; keep the non-empty ones; sort by
`mutualCount` descending (JS `sort` with comparator `b.mutualCount - a.mutualCount`,
a stable descending sort). -/
def findMutualFriends (users : List User) (friendships : List Friendship)
    (userId : NodeId) : List Suggestion :=
  (users.filterMap (fun u =>
    if u.id = userId ∨ u.id ∈ nbrs (buildAdjacencyList users friendships) userId then
      none
    else
      if 0 < ((nbrs (buildAdjacencyList users friendships) userId).filter
          (fun fr => fr ∈ nbrs (buildAdjacencyList users friendships) u.id)).length then
        some ⟨u.id,
          ((nbrs (buildAdjacencyList users friendships) userId).filter
            (fun fr => fr ∈ nbrs (buildAdjacencyList users friendships) u.id)).length,
          (nbrs (buildAdjacencyList users friendships) userId).filter
            (fun fr => fr ∈ nbrs (buildAdjacencyList users friendships) u.id)⟩
      else none)).mergeSort (fun a b => decide (b.mutualCount ≤ a.mutualCount))

/-- The property claimed for `findMutualFriends` on a present user id: no
self-suggestion, no suggestion of an existing friend, each suggestion's shared
list is exactly the (non-empty, duplicate-free) intersection of the two neighbor
sets with `mutualCount` its size, candidates with empty intersection are absent,
and the output is sorted by `mutualCount` descending. -/
def MutualFriendsSpec (users : List User) (friendships : List Friendship)
    (userId : NodeId) : Prop :=
  (∀ s ∈ findMutualFriends users friendships userId,
      s.userId ≠ userId ∧
      s.userId ∉ nbrs (buildAdjacencyList users friendships) userId ∧
      s.userId ∈ idsOf users ∧
      s.mutualFriends = (nbrs (buildAdjacencyList users friendships) userId).filter
        (fun z => z ∈ nbrs (buildAdjacencyList users friendships) s.userId) ∧
      (∀ z, z ∈ s.mutualFriends ↔
        z ∈ nbrs (buildAdjacencyList users friendships) userId ∧
        z ∈ nbrs (buildAdjacencyList users friendships) s.userId) ∧
      s.mutualFriends.Nodup ∧
      s.mutualCount = s.mutualFriends.length ∧
      s.mutualFriends ≠ []) ∧
  (∀ u ∈ users, u.id ≠ userId →
      u.id ∉ nbrs (buildAdjacencyList users friendships) userId →
      (nbrs (buildAdjacencyList users friendships) userId).filter
        (fun z => z ∈ nbrs (buildAdjacencyList users friendships) u.id) = [] →
      ∀ s ∈ findMutualFriends users friendships userId, s.userId ≠ u.id) ∧
  (findMutualFriends users friendships userId).Pairwise
    (fun a b => b.mutualCount ≤ a.mutualCount)

theorem mem_findMutualFriends (users : List User) (friendships : List Friendship)
    (userId : NodeId) (s : Suggestion) :
    s ∈ findMutualFriends users friendships userId ↔
      ∃ u ∈ users,
        ¬ (u.id = userId ∨ u.id ∈ nbrs (buildAdjacencyList users friendships) userId) ∧
        0 < ((nbrs (buildAdjacencyList users friendships) userId).filter
              (fun fr => fr ∈ nbrs (buildAdjacencyList users friendships) u.id)).length ∧
        s = ⟨u.id,
              ((nbrs (buildAdjacencyList users friendships) userId).filter
                (fun fr => fr ∈ nbrs (buildAdjacencyList users friendships) u.id)).length,
              (nbrs (buildAdjacencyList users friendships) userId).filter
                (fun fr => fr ∈ nbrs (buildAdjacencyList users friendships) u.id)⟩ := by
  unfold findMutualFriends
  rw [List.mem_mergeSort, List.mem_filterMap]
  constructor
  · rintro ⟨u, hu, hsome⟩
    by_cases hskip : u.id = userId ∨
        u.id ∈ nbrs (buildAdjacencyList users friendships) userId
    · rw [if_pos hskip] at hsome; exact absurd hsome (by simp)
    · rw [if_neg hskip] at hsome
      by_cases hlen : 0 <
          ((nbrs (buildAdjacencyList users friendships) userId).filter
            (fun fr => fr ∈ nbrs (buildAdjacencyList users friendships) u.id)).length
      · rw [if_pos hlen] at hsome
        exact ⟨u, hu, hskip, hlen, (Option.some_inj.mp hsome).symm⟩
      · rw [if_neg hlen] at hsome; exact absurd hsome (by simp)
  · rintro ⟨u, hu, hskip, hlen, rfl⟩
    refine ⟨u, hu, ?_⟩
    show (if _ then _ else _) = _
    rw [if_neg hskip, if_pos hlen]

/-- **C4**: for every graph and present `userId`, `findMutualFriends(userId)`
returns only non-adjacent non-self candidates whose shared-friend list equals
the non-empty intersection of neighbor sets, with `mutualCount` its size,
omits empty intersections, and is sorted by `mutualCount` descending. -/
theorem findMutualFriends_correct (users : List User) (friendships : List Friendship)
    (userId : NodeId) (hmem : userId ∈ idsOf users) :
    MutualFriendsSpec users friendships userId := by
  unfold MutualFriendsSpec
  refine ⟨?_, ?_, ?_⟩
  · intro s hs
    rw [mem_findMutualFriends] at hs
    obtain ⟨u, hu, hskip, hlen, rfl⟩ := hs
    push_neg at hskip
    obtain ⟨hne, hnadj⟩ := hskip
    refine ⟨hne, hnadj, ?_, rfl, ?_, ?_, rfl, ?_⟩
    · unfold idsOf
      exact List.mem_map.mpr ⟨u, hu, rfl⟩
    · intro z
      simp [List.mem_filter]
    · exact List.Nodup.filter _ (nbrs_build_nodup users friendships userId)
    · intro hnil
      have hnil' : (nbrs (buildAdjacencyList users friendships) userId).filter
          (fun fr => fr ∈ nbrs (buildAdjacencyList users friendships) u.id) = [] := hnil
      rw [hnil'] at hlen
      simp at hlen
  · intro u hu hne hnadj hfil s hs
    rw [mem_findMutualFriends] at hs
    obtain ⟨u', hu', hskip', hlen', rfl⟩ := hs
    intro heq
    have heq' : u'.id = u.id := heq
    rw [heq'] at hlen'
    rw [hfil] at hlen'
    simp at hlen'
  · have hsort : ∀ l : List Suggestion,
        (l.mergeSort (fun a b => decide (b.mutualCount ≤ a.mutualCount))).Pairwise
          (fun a b => b.mutualCount ≤ a.mutualCount) := by
      intro l
      have hs := @List.sorted_mergeSort Suggestion
        (fun a b => decide (b.mutualCount ≤ a.mutualCount))
        (fun a b c hab hbc => by
          simp only [decide_eq_true_eq] at *
          omega)
        (fun a b => by
          simp only [Bool.or_eq_true, decide_eq_true_eq]
          omega) l
      refine List.Pairwise.imp ?_ hs
      intro a b h
      simpa using h
    exact hsort _

/-! ## Concrete example graphs (used by witnesses and counterexamples) -/

/-- The six-user scenario of §8 of the spec. -/
def exUsers : List User :=
  [⟨"alice", "Alice"⟩, ⟨"bob", "Bob"⟩, ⟨"charlie", "Charlie"⟩,
   ⟨"diana", "Diana"⟩, ⟨"eve", "Eve"⟩, ⟨"frank", "Frank"⟩]

/-- Alice–Bob, Bob–Charlie, Charlie–Diana, Alice–Eve, Eve–Frank. -/
def exFriendships : List Friendship :=
  [⟨"alice", "bob"⟩, ⟨"bob", "charlie"⟩, ⟨"charlie", "diana"⟩,
   ⟨"alice", "eve"⟩, ⟨"eve", "frank"⟩]

/-- Witness for C4 at the §8 scenario, query user Bob. -/
theorem findMutualFriends_correct_witness :
    "bob" ∈ idsOf exUsers ∧ MutualFriendsSpec exUsers exFriendships "bob" :=
  ⟨by decide, findMutualFriends_correct exUsers exFriendships "bob" (by decide)⟩

/-! ## C5: construction performs no validation -/

/-- An input violating every §3 edge invariant at once: a self-loop `a–a`,
a duplicated pair `a–b`, and an edge `a–x` to the absent node `x`. -/
def c5Users : List User := [⟨"a", "A"⟩, ⟨"b", "B"⟩]

def c5Friendships : List Friendship :=
  [⟨"a", "a"⟩, ⟨"a", "b"⟩, ⟨"a", "b"⟩, ⟨"a", "x"⟩]

/-- Counterexample to C5: on an input containing a self-loop, a duplicate edge
and an edge to a missing node, the constructor does not fail with `InvalidEdge`
or `DuplicateEdge` — it returns an ordinary engine whose adjacency index simply
records the self-loop and the dangling endpoint. -/
theorem mkGraphAlgorithms_accepts_invalid :
    (∃ f ∈ c5Friendships, f.source = f.target) ∧
    (∃ f ∈ c5Friendships, f.target ∉ idsOf c5Users) ∧
    c5Friendships.count ⟨"a", "b"⟩ = 2 ∧
    mkGraphAlgorithms c5Users c5Friendships =
      ⟨c5Users, c5Friendships, [("a", ["a", "b", "x"]), ("b", ["a"])]⟩ := by
  decide

/-- Amended C5: construction never fails.  It is a total function that accepts
every node list and edge list — including self-loops, duplicate pairs and edges
to absent nodes — and the resulting adjacency index has an entry exactly for
each input node id. -/
theorem mkGraphAlgorithms_total (users : List User) (friendships : List Friendship) :
    (mkGraphAlgorithms users friendships).adjacencyList =
      buildAdjacencyList users friendships ∧
    ∀ x, (alookup (mkGraphAlgorithms users friendships).adjacencyList x).isSome ↔
      x ∈ idsOf users :=
  ⟨rfl, fun x => buildAdjacencyList_keys users friendships x⟩

/-! ## C7: `findMutualFriends` on an unknown user id -/

theorem findMutualFriends_absent (users : List User)
    (friendships : List Friendship) (userId : NodeId)
    (h : userId ∉ idsOf users) :
    findMutualFriends users friendships userId = [] := by
  have hnb : nbrs (buildAdjacencyList users friendships) userId = [] := by
    unfold nbrs
    cases hl : alookup (buildAdjacencyList users friendships) userId with
    | none => rfl
    | some s =>
      exfalso
      exact h ((buildAdjacencyList_keys users friendships userId).mp (by rw [hl]; rfl))
  unfold findMutualFriends
  have hfm : users.filterMap (fun u =>
      if u.id = userId ∨ u.id ∈ nbrs (buildAdjacencyList users friendships) userId then
        none
      else
        if 0 < ((nbrs (buildAdjacencyList users friendships) userId).filter
            (fun fr => fr ∈ nbrs (buildAdjacencyList users friendships) u.id)).length then
          some (⟨u.id,
            ((nbrs (buildAdjacencyList users friendships) userId).filter
              (fun fr => fr ∈ nbrs (buildAdjacencyList users friendships) u.id)).length,
            (nbrs (buildAdjacencyList users friendships) userId).filter
              (fun fr => fr ∈ nbrs (buildAdjacencyList users friendships) u.id)⟩ :
            Suggestion)
        else none) = [] := by
    refine List.filterMap_eq_nil_iff.mpr ?_
    intro u hu
    by_cases hskip : u.id = userId ∨
        u.id ∈ nbrs (buildAdjacencyList users friendships) userId
    · rw [if_pos hskip]
    · rw [if_neg hskip, hnb]
      simp
  rw [hfm, List.mergeSort_nil]

/-- Counterexample to C7: querying mutual friends of an id absent from the node
set does not fail with `UnknownNode`; it returns the empty suggestion list, an
ordinary value. -/
theorem findMutualFriends_unknown_no_error :
    "zed" ∉ idsOf exUsers ∧ findMutualFriends exUsers exFriendships "zed" = [] :=
  ⟨by decide, findMutualFriends_absent exUsers exFriendships "zed" (by decide)⟩

/-- Amended C7: for an absent `userId` the query returns the empty list (no
error is raised; the JS lookup falls back to an empty neighbor set, every
candidate's intersection with it is empty, so every candidate is omitted). -/
theorem findMutualFriends_unknown_eq_nil (users : List User)
    (friendships : List Friendship) (userId : NodeId)
    (h : userId ∉ idsOf users) :
    findMutualFriends users friendships userId = [] :=
  findMutualFriends_absent users friendships userId h

/-- Witness for the amended C7 on a concrete graph. -/
theorem findMutualFriends_unknown_eq_nil_witness :
    "nobody" ∉ idsOf exUsers ∧ findMutualFriends exUsers exFriendships "nobody" = [] :=
  ⟨by decide, findMutualFriends_unknown_eq_nil exUsers exFriendships "nobody" (by decide)⟩

/-! ## C9: adjacency symmetry -/

/-- Counterexample to C9: with node list `[a]` and edge list `[a–x]` (an edge to
the absent node `x`), the built index is **not** symmetric: `x` is recorded as a
neighbor of `a`, but `a` is not a neighbor of `x`. -/
theorem buildAdjacencyList_not_symm :
    "x" ∈ nbrs (buildAdjacencyList [⟨"a", "A"⟩] [⟨"a", "x"⟩]) "a" ∧
    "a" ∉ nbrs (buildAdjacencyList [⟨"a", "A"⟩] [⟨"a", "x"⟩]) "x" := by
  decide

/-- Amended C9: whenever every edge references nodes present in the node list,
the built adjacency index is symmetric: each edge `{a,b}` yields
`b ∈ neighbors(a)` and `a ∈ neighbors(b)`, and membership is symmetric for all
pairs of ids. -/
theorem buildAdjacencyList_symm (users : List User) (friendships : List Friendship)
    (hsrc : ∀ f ∈ friendships, f.source ∈ idsOf users)
    (htgt : ∀ f ∈ friendships, f.target ∈ idsOf users) :
    (∀ f ∈ friendships,
       f.target ∈ nbrs (buildAdjacencyList users friendships) f.source ∧
       f.source ∈ nbrs (buildAdjacencyList users friendships) f.target) ∧
    (∀ x y, y ∈ nbrs (buildAdjacencyList users friendships) x ↔
       x ∈ nbrs (buildAdjacencyList users friendships) y) := by
  constructor
  · intro f hf
    constructor
    · exact (mem_nbrs_build_valid hsrc htgt f.source f.target).mpr
        ⟨f, hf, Or.inl ⟨rfl, rfl⟩⟩
    · exact (mem_nbrs_build_valid hsrc htgt f.target f.source).mpr
        ⟨f, hf, Or.inr ⟨rfl, rfl⟩⟩
  · exact nbrs_build_symm hsrc htgt

/-- Witness for the amended C9 on the §8 scenario. -/
theorem buildAdjacencyList_symm_witness :
    (∀ f ∈ exFriendships, f.source ∈ idsOf exUsers) ∧
    (∀ f ∈ exFriendships,
       f.target ∈ nbrs (buildAdjacencyList exUsers exFriendships) f.source ∧
       f.source ∈ nbrs (buildAdjacencyList exUsers exFriendships) f.target) ∧
    (∀ x y, y ∈ nbrs (buildAdjacencyList exUsers exFriendships) x ↔
       x ∈ nbrs (buildAdjacencyList exUsers exFriendships) y) :=
  ⟨by decide,
   (buildAdjacencyList_symm exUsers exFriendships (by decide) (by decide)).1,
   (buildAdjacencyList_symm exUsers exFriendships (by decide) (by decide)).2⟩

/-! ## `findShortestPath` (BFS)

The `while (queue.length > 0)` loop and the path reconstruction loop are
modelled with explicit fuel; the chosen fuels provably never run out on states
reachable from the entry point (see `BfsInv.fuel_big` and the reconstruction
lemma below). -/

/-- Path reconstruction:
`while (node) { path.unshift(node); node = parent.get(node); }`.
The walk stops when the lookup fails (JS `undefined`) — and, because a JS
string is falsy exactly when it is empty, it also stops at the id `""` without
pushing it. -/
def reconstruct (parent : List (NodeId × NodeId)) :
    Nat → Option NodeId → List NodeId → List NodeId
  | _, none, acc => acc
  | 0, some _, acc => acc
  | fuel + 1, some node, acc =>
      if node = "" then acc
      else reconstruct parent fuel (alookup parent node) (node :: acc)

/-- The `PathResult` built when `end` is discovered:
`{ path, distance: path.length - 1 }`. -/
def bfsFound (parent : List (NodeId × NodeId)) (endId : NodeId) : PathResult :=
  ⟨reconstruct parent (parent.length + 1) (some endId) [],
   ((reconstruct parent (parent.length + 1) (some endId) []).length : Int) - 1⟩

/-- The `for (const neighbor of neighbors)` body: skip visited neighbors; mark,
record the parent and enqueue new ones; return the reconstructed result the
instant `end` is discovered. -/
def bfsVisitNbrs (adj : Adj) (endId current : NodeId) :
    List NodeId → List NodeId → List NodeId → List (NodeId × NodeId) →
    (List NodeId × List NodeId × List (NodeId × NodeId)) ⊕ PathResult
  | [], queue, visited, parent => Sum.inl (queue, visited, parent)
  | n :: pending, queue, visited, parent =>
      if n ∈ visited then bfsVisitNbrs adj endId current pending queue visited parent
      else
        if n = endId then
          Sum.inr (bfsFound (parent ++ [(n, current)]) endId)
        else
          bfsVisitNbrs adj endId current pending
            (queue ++ [n]) (n :: visited) (parent ++ [(n, current)])

/-- The `while (queue.length > 0)` loop of `findShortestPath`. -/
def bfsLoop (adj : Adj) (endId : NodeId) :
    Nat → List NodeId → List NodeId → List (NodeId × NodeId) → Option PathResult
  | 0, _, _, _ => none
  | _ + 1, [], _, _ => none
  | fuel + 1, current :: queue, visited, parent =>
      match bfsVisitNbrs adj endId current (nbrs adj current) queue visited parent with
      | Sum.inr r => some r
      | Sum.inl (q, v, p) => bfsLoop adj endId fuel q v p

/-- Fuel for the BFS loop; provably sufficient for every input (each loop
iteration pops one queue entry and every node is enqueued at most once). -/
def bfsFuel (users : List User) (friendships : List Friendship) : Nat :=
  2 * users.length + 4 * friendships.length + 3

/-- `findShortestPath(startId, endId)`. -/
def findShortestPath (users : List User) (friendships : List Friendship)
    (startId endId : NodeId) : Option PathResult :=
  if startId = endId then some ⟨[startId], 0⟩
  else
    bfsLoop (buildAdjacencyList users friendships) endId
      (bfsFuel users friendships) [startId] [startId] []

/-! ## Reachability over the adjacency index -/

/-- `ReachN adj x y n`: `y` is reachable from `x` in exactly `n` adjacency
steps. -/
inductive ReachN (adj : Adj) (x : NodeId) : NodeId → Nat → Prop
  | refl : ReachN adj x x 0
  | step {y z : NodeId} {n : Nat} :
      ReachN adj x y n → z ∈ nbrs adj y → ReachN adj x z (n + 1)

/-- Reachability over the adjacency index. -/
def Reach (adj : Adj) (x y : NodeId) : Prop := ∃ n, ReachN adj x y n

/-- All endpoint ids of a friendship list. -/
def endpoints (friendships : List Friendship) : List NodeId :=
  friendships.flatMap (fun f => [f.source, f.target])

theorem nbrs_build_sub_endpoints (users : List User) (friendships : List Friendship)
    {x y : NodeId} (h : y ∈ nbrs (buildAdjacencyList users friendships) x) :
    y ∈ endpoints friendships := by
  rw [mem_nbrs_build] at h
  rcases h with ⟨f, hf, ⟨_, h2, _⟩ | ⟨_, h2, _⟩⟩
  · subst h2
    exact List.mem_flatMap.mpr ⟨f, hf, by simp⟩
  · subst h2
    exact List.mem_flatMap.mpr ⟨f, hf, by simp⟩

theorem endpoints_length (friendships : List Friendship) :
    (endpoints friendships).length = 2 * friendships.length := by
  unfold endpoints
  induction friendships with
  | nil => rfl
  | cons f rest ih =>
    simp only [List.flatMap_cons, List.length_append, ih, List.length_cons]
    simp
    ring

/-- A chain whose consecutive elements are adjacency steps witnesses `ReachN`
with the edge count. -/
theorem chain_reachN (adj : Adj) :
    ∀ (c : List NodeId) (x y : NodeId),
      List.Chain' (fun a b => b ∈ nbrs adj a) c →
      c.head? = some x → c.getLast? = some y → ReachN adj x y (c.length - 1) := by
  intro c
  induction c using List.reverseRecOn with
  | nil => intro x y _ hh _; simp at hh
  | append_singleton c' z ih =>
    intro x y hchain hh hl
    have hlz : y = z := by
      rw [List.getLast?_append_cons] at hl
      simp only [List.getLast?_singleton] at hl
      exact (Option.some_inj.mp hl).symm
    subst hlz
    cases c' with
    | nil =>
      simp only [List.nil_append, List.head?_cons] at hh
      obtain rfl := Option.some_inj.mp hh
      exact ReachN.refl
    | cons a c'' =>
      rw [List.chain'_append] at hchain
      obtain ⟨hc1, _, hlast⟩ := hchain
      have hne : (a :: c'') ≠ [] := by simp
      have hsome : ((a :: c'').getLast?).isSome := by
        rw [List.getLast?_isSome]; exact hne
      obtain ⟨w, hw⟩ := Option.isSome_iff_exists.mp hsome
      have hstep : y ∈ nbrs adj w := hlast w hw y (by simp)
      have hh' : (a :: c'').head? = some x := by
        rw [List.head?_append_of_ne_nil _ hne] at hh
        exact hh
      have hrn := ih x w hc1 hh' hw
      have hlen : ((a :: c'') ++ [y]).length - 1 = ((a :: c'').length - 1) + 1 := by
        simp
      rw [hlen]
      exact ReachN.step hrn hstep

/-- Conversely, `ReachN` produces a chain of the corresponding length. -/
theorem reachN_chain (adj : Adj) {x y : NodeId} {n : Nat} (h : ReachN adj x y n) :
    ∃ c : List NodeId, List.Chain' (fun a b => b ∈ nbrs adj a) c ∧
      c.head? = some x ∧ c.getLast? = some y ∧ c.length = n + 1 := by
  induction h with
  | refl => exact ⟨[x], by simp, rfl, rfl, rfl⟩
  | step hr hstep ih =>
    rename_i y' z' n'
    obtain ⟨c, hchain, hh, hl, hlen⟩ := ih
    refine ⟨c ++ [z'], ?_, ?_, ?_, ?_⟩
    · rw [List.chain'_append]
      refine ⟨hchain, by simp, ?_⟩
      intro a ha b hb
      rw [hl] at ha
      obtain rfl := Option.some_inj.mp ha
      simp only [List.head?_cons] at hb
      obtain rfl := Option.some_inj.mp hb
      exact hstep
    · rw [List.head?_append_of_ne_nil]
      · exact hh
      · intro hc; subst hc; simp at hh
    · simp
    · simp [hlen]


/-! ## Closed form of the inner neighbor loop -/

/-- The neighbors that get newly discovered while scanning `pending`. -/
def newNodes (visited pending : List NodeId) : List NodeId :=
  pending.filter (fun n => n ∉ visited)

theorem newNodes_cons_mem {visited : List NodeId} {n : NodeId} (l : List NodeId)
    (h : n ∈ visited) : newNodes visited (n :: l) = newNodes visited l := by
  unfold newNodes
  rw [List.filter_cons]
  simp [h]

theorem newNodes_cons_not_mem {visited : List NodeId} {n : NodeId} (l : List NodeId)
    (h : n ∉ visited) : newNodes visited (n :: l) = n :: newNodes visited l := by
  unfold newNodes
  rw [List.filter_cons]
  simp [h]

theorem newNodes_shift {n : NodeId} {l : List NodeId} (visited : List NodeId)
    (h : n ∉ l) : newNodes (n :: visited) l = newNodes visited l := by
  unfold newNodes
  refine List.filter_congr ?_
  intro x hx
  have hxn : x ≠ n := fun hh => h (hh ▸ hx)
  simp [List.mem_cons, hxn]

theorem mem_newNodes {visited pending : List NodeId} {x : NodeId} :
    x ∈ newNodes visited pending ↔ x ∈ pending ∧ x ∉ visited := by
  unfold newNodes
  rw [List.mem_filter]
  simp

theorem newNodes_nodup {visited pending : List NodeId} (h : pending.Nodup) :
    (newNodes visited pending).Nodup :=
  List.Nodup.filter _ h

theorem newNodes_length_le (visited pending : List NodeId) :
    (newNodes visited pending).length ≤ pending.length :=
  List.length_filter_le _ _

/-- If `end` is not among the unvisited pending neighbors, the scan returns the
updated frontier: new nodes appended to the queue, marked visited, and given
`current` as parent. -/
theorem bfsVisitNbrs_inl (adj : Adj) (endId current : NodeId) :
    ∀ (pending queue visited : List NodeId) (parent : List (NodeId × NodeId)),
      pending.Nodup → (endId ∈ visited ∨ endId ∉ pending) →
      bfsVisitNbrs adj endId current pending queue visited parent =
        Sum.inl (queue ++ newNodes visited pending,
                 (newNodes visited pending).reverse ++ visited,
                 parent ++ (newNodes visited pending).map (fun n => (n, current))) := by
  intro pending
  induction pending with
  | nil =>
    intro queue visited parent _ _
    simp [bfsVisitNbrs, newNodes]
  | cons n pending ih =>
    intro queue visited parent hnd hend
    have hnd' : pending.Nodup := (List.nodup_cons.mp hnd).2
    have hnp : n ∉ pending := (List.nodup_cons.mp hnd).1
    by_cases hv : n ∈ visited
    · rw [newNodes_cons_mem pending hv]
      show (if n ∈ visited then _ else _) = _
      rw [if_pos hv]
      refine ih queue visited parent hnd' ?_
      rcases hend with h | h
      · exact Or.inl h
      · exact Or.inr (fun hc => h (List.mem_cons_of_mem n hc))
    · have hne : ¬ (n = endId) := by
        rintro rfl
        rcases hend with h | h
        · exact hv h
        · exact h (List.mem_cons_self n pending)
      rw [newNodes_cons_not_mem pending hv]
      show (if n ∈ visited then _ else _) = _
      rw [if_neg hv, if_neg hne]
      rw [ih (queue ++ [n]) (n :: visited) (parent ++ [(n, current)]) hnd' ?side]
      case side =>
        rcases hend with h | h
        · exact Or.inl (List.mem_cons_of_mem n h)
        · exact Or.inr (fun hc => h (List.mem_cons_of_mem n hc))
      rw [newNodes_shift visited hnp]
      simp

/-- If `end` is an unvisited pending neighbor, the scan returns the
reconstructed result the moment it reaches `end`; only the new nodes strictly
before `end` received parent entries. -/
theorem bfsVisitNbrs_inr (adj : Adj) (endId current : NodeId) :
    ∀ (pending queue visited : List NodeId) (parent : List (NodeId × NodeId)),
      pending.Nodup → endId ∉ visited → endId ∈ pending →
      ∃ pre post, pending = pre ++ endId :: post ∧ endId ∉ pre ∧
        bfsVisitNbrs adj endId current pending queue visited parent =
          Sum.inr (bfsFound
            (parent ++ (newNodes visited pre).map (fun n => (n, current)) ++
              [(endId, current)]) endId) := by
  intro pending
  induction pending with
  | nil => intro _ _ _ _ _ h; exact absurd h (List.not_mem_nil endId)
  | cons n pending ih =>
    intro queue visited parent hnd hev hep
    have hnd' : pending.Nodup := (List.nodup_cons.mp hnd).2
    have hnp : n ∉ pending := (List.nodup_cons.mp hnd).1
    by_cases hne : n = endId
    · subst hne
      refine ⟨[], pending, rfl, List.not_mem_nil n, ?_⟩
      show (if n ∈ visited then _ else _) = _
      rw [if_neg hev, if_pos rfl]
      simp [newNodes]
    · have hep' : endId ∈ pending := by
        rcases List.mem_cons.mp hep with h | h
        · exact absurd h.symm hne
        · exact h
      by_cases hv : n ∈ visited
      · obtain ⟨pre, post, hsplit, hpre, hres⟩ :=
          ih queue visited parent hnd' hev hep'
        refine ⟨n :: pre, post, by rw [hsplit]; rfl, ?_, ?_⟩
        · intro hc
          rcases List.mem_cons.mp hc with h | h
          · exact hne h.symm
          · exact hpre h
        · show (if n ∈ visited then _ else _) = _
          rw [if_pos hv, hres, newNodes_cons_mem pre hv]
      · obtain ⟨pre, post, hsplit, hpre, hres⟩ :=
          ih (queue ++ [n]) (n :: visited) (parent ++ [(n, current)]) hnd'
            (by
              intro hc
              rcases List.mem_cons.mp hc with h | h
              · exact hne h.symm
              · exact hev h) hep'
        refine ⟨n :: pre, post, by rw [hsplit]; rfl, ?_, ?_⟩
        · intro hc
          rcases List.mem_cons.mp hc with h | h
          · exact hne h.symm
          · exact hpre h
        · show (if n ∈ visited then _ else _) = _
          rw [if_neg hv, if_neg hne, hres]
          have hnpre : n ∉ pre := by
            intro hc
            exact hnp (hsplit ▸ List.mem_append_left _ hc)
          rw [newNodes_shift visited hnpre, newNodes_cons_not_mem pre hv]
          simp


/-! ## BFS loop invariant -/

theorem alookup_append {β : Type} (m1 m2 : List (NodeId × β)) (x : NodeId) :
    alookup (m1 ++ m2) x =
      match alookup m1 x with
      | some v => some v
      | none => alookup m2 x := by
  induction m1 with
  | nil => simp [alookup]
  | cons p rest ih =>
    by_cases hpx : p.1 = x
    · simp [alookup, hpx]
    · simp [alookup, hpx, ih]

theorem alookup_append_isSome {β : Type} {m1 : List (NodeId × β)}
    (m2 : List (NodeId × β)) {x : NodeId} (h : (alookup m1 x).isSome) :
    alookup (m1 ++ m2) x = alookup m1 x := by
  rw [alookup_append]
  cases hl : alookup m1 x with
  | none => rw [hl] at h; exact absurd h (by simp)
  | some v => rfl

theorem alookup_map_const (l : List NodeId) (c x : NodeId) :
    alookup (l.map (fun n => (n, c))) x = if x ∈ l then some c else none := by
  induction l with
  | nil => simp [alookup]
  | cons n rest ih =>
    by_cases hnx : n = x
    · subst hnx; simp [alookup]
    · have hxn : ¬ (x = n) := fun h => hnx h.symm
      simp [alookup, hnx, ih, hxn]

/-- The invariant of the BFS loop state, relative to a ghost distance
assignment `d` for the discovered nodes. -/
structure BfsInv (users : List User) (friendships : List Friendship)
    (startId endId : NodeId) (d : NodeId → Nat) (fuel : Nat)
    (queue visited : List NodeId) (parent : List (NodeId × NodeId)) : Prop where
  start_mem : startId ∈ visited
  d_start : d startId = 0
  vis_nodup : visited.Nodup
  vis_src : ∀ v ∈ visited, v = startId ∨
      ∃ u, v ∈ nbrs (buildAdjacencyList users friendships) u
  queue_sub : ∀ q ∈ queue, q ∈ visited
  q_nodup : queue.Nodup
  q_sorted : List.Pairwise (fun a b => d a ≤ d b) queue
  q_close : ∀ a ∈ queue, ∀ b ∈ queue, d a ≤ d b + 1
  par_spec : ∀ x y, alookup parent x = some y →
      x ∈ visited ∧ y ∈ visited ∧
      x ∈ nbrs (buildAdjacencyList users friendships) y ∧
      d x = d y + 1 ∧ x ≠ startId
  par_total : ∀ x ∈ visited, x ≠ startId → (alookup parent x).isSome
  par_len : parent.length + 1 = visited.length
  closed : ∀ u ∈ visited, u ∉ queue →
      ∀ w ∈ nbrs (buildAdjacencyList users friendships) u, w ∈ visited
  reach_d : ∀ v ∈ visited,
      ReachN (buildAdjacencyList users friendships) startId v (d v)
  min_d : ∀ v ∈ visited, ∀ n,
      ReachN (buildAdjacencyList users friendships) startId v n → d v ≤ n
  end_not : endId ∉ visited
  d_lt : ∀ v ∈ visited, d v < visited.length
  fuel_big : queue.length + 2 * (2 * friendships.length + 1) <
      fuel + 2 * visited.length

theorem BfsInv.vis_card {users : List User} {friendships : List Friendship}
    {startId endId : NodeId} {d : NodeId → Nat} {fuel : Nat}
    {queue visited : List NodeId} {parent : List (NodeId × NodeId)}
    (h : BfsInv users friendships startId endId d fuel queue visited parent) :
    visited.length ≤ 2 * friendships.length + 1 := by
  have hsub : visited ⊆ startId :: endpoints friendships := by
    intro v hv
    rcases h.vis_src v hv with rfl | ⟨u, hu⟩
    · exact List.mem_cons_self _ _
    · exact List.mem_cons_of_mem _ (nbrs_build_sub_endpoints users friendships hu)
  have hle := (List.subperm_of_subset h.vis_nodup hsub).length_le
  rw [List.length_cons, endpoints_length] at hle
  omega

/-- The frontier argument: when `current` has minimal `d` among the queue, any
path from the start to an undiscovered node has length at least
`d current + 1`. -/
theorem bfs_frontier (users : List User) (friendships : List Friendship)
    (startId : NodeId) (d : NodeId → Nat) (visited queue : List NodeId)
    (current : NodeId)
    (hstart : startId ∈ visited)
    (hq_lb : ∀ b ∈ queue, d current ≤ d b)
    (hclosed : ∀ u ∈ visited, u ∉ queue →
      ∀ w ∈ nbrs (buildAdjacencyList users friendships) u, w ∈ visited)
    (hmin : ∀ v ∈ visited, ∀ n,
      ReachN (buildAdjacencyList users friendships) startId v n → d v ≤ n) :
    ∀ w n, ReachN (buildAdjacencyList users friendships) startId w n →
      w ∉ visited → d current + 1 ≤ n := by
  intro w n h
  induction h with
  | refl => intro hc; exact absurd hstart hc
  | step hr hstep ih =>
    rename_i y z m
    intro hz
    by_cases hy : y ∈ visited
    · by_cases hyq : y ∈ queue
      · have h1 : d current ≤ d y := hq_lb y hyq
        have h2 : d y ≤ m := hmin y hy m hr
        omega
      · exact absurd (hclosed y hy hyq z hstep) hz
    · have := ih hy
      omega

theorem reconstruct_none (p : List (NodeId × NodeId)) (fuel : Nat) (acc : List NodeId) :
    reconstruct p fuel none acc = acc := by
  cases fuel <;> rfl

/-- Correctness of the `while (node)` reconstruction walk: under the parent-map
invariant it returns the parent chain from the start to `v`, whose length is
`d v + 1`, provided no id on the chain is the empty string. -/
theorem reconstruct_spec (users : List User) (friendships : List Friendship)
    (startId : NodeId) (p : List (NodeId × NodeId)) (d : NodeId → Nat)
    (hspec : ∀ x y, alookup p x = some y →
      x ∈ nbrs (buildAdjacencyList users friendships) y ∧ d x = d y + 1 ∧
      x ≠ startId ∧ (y = startId ∨ (alookup p y).isSome) ∧ y ≠ "")
    (hd0 : d startId = 0) :
    ∀ (fuel : Nat) (v : NodeId) (acc : List NodeId),
      (v = startId ∨ (alookup p v).isSome) → v ≠ "" → d v + 1 ≤ fuel →
      ∃ c : List NodeId,
        reconstruct p fuel (some v) acc = c ++ acc ∧
        c.head? = some startId ∧ c.getLast? = some v ∧
        List.Chain' (fun a b => b ∈ nbrs (buildAdjacencyList users friendships) a) c ∧
        c.length = d v + 1 := by
  intro fuel
  induction fuel with
  | zero => intro v acc _ _ hle; omega
  | succ fuel ih =>
    intro v acc hv hvne hle
    by_cases hvs : v = startId
    · subst hvs
      have hnone : alookup p v = none := by
        cases hl : alookup p v with
        | none => rfl
        | some y => exact absurd rfl (hspec v y hl).2.2.1
      refine ⟨[v], ?_, rfl, rfl, by simp, by simp [hd0]⟩
      rw [reconstruct, if_neg hvne, hnone, reconstruct_none]
      rfl
    · have hsome : (alookup p v).isSome := by
        rcases hv with h | h
        · exact absurd h hvs
        · exact h
      obtain ⟨y, hy⟩ := Option.isSome_iff_exists.mp hsome
      obtain ⟨hmem, hdx, _, hykey, hyne⟩ := hspec v y hy
      have hle' : d y + 1 ≤ fuel := by omega
      obtain ⟨c, heq, hh, hl, hchain, hlen⟩ := ih y (v :: acc) hykey hyne hle'
      have hcne : c ≠ [] := by
        intro hc; subst hc; simp at hh
      refine ⟨c ++ [v], ?_, ?_, ?_, ?_, ?_⟩
      · rw [reconstruct, if_neg hvne, hy, heq]
        simp
      · rw [List.head?_append_of_ne_nil _ hcne]; exact hh
      · rw [List.getLast?_append]; rfl
      · rw [List.chain'_append]
        refine ⟨hchain, by simp, ?_⟩
        intro a ha b hb
        rw [hl] at ha
        obtain rfl := Option.some_inj.mp ha
        simp only [List.head?_cons] at hb
        obtain rfl := Option.some_inj.mp hb
        exact hmem
      · simp [hlen, hdx]

/-- What C1 claims of a successful result: the path runs from `start` to `end`
along adjacency steps, the distance is the path length minus one, and no walk
from `start` to `end` uses fewer steps. -/
def GoodPath (adj : Adj) (startId endId : NodeId) (r : PathResult) : Prop :=
  r.path.head? = some startId ∧ r.path.getLast? = some endId ∧
  List.Chain' (fun a b => b ∈ nbrs adj a) r.path ∧
  r.distance = (r.path.length : Int) - 1 ∧
  ∀ n, ReachN adj startId endId n → r.path.length ≤ n + 1


/-- Maintenance of the invariant across one loop iteration in which `end` is
not discovered. -/
theorem bfsLoop_step_inv (users : List User) (friendships : List Friendship)
    (startId endId : NodeId) (d : NodeId → Nat) (fuel : Nat)
    (current : NodeId) (rest visited : List NodeId)
    (parent : List (NodeId × NodeId))
    (hinv : BfsInv users friendships startId endId d (fuel + 1)
      (current :: rest) visited parent)
    (hfound : endId ∉ nbrs (buildAdjacencyList users friendships) current) :
    BfsInv users friendships startId endId
      (fun z => if z ∈ newNodes visited (nbrs (buildAdjacencyList users friendships) current)
        then d current + 1 else d z)
      fuel
      (rest ++ newNodes visited (nbrs (buildAdjacencyList users friendships) current))
      ((newNodes visited (nbrs (buildAdjacencyList users friendships) current)).reverse
        ++ visited)
      (parent ++ (newNodes visited
        (nbrs (buildAdjacencyList users friendships) current)).map
        (fun n => (n, current))) := by
  have hcv : current ∈ visited := hinv.queue_sub current (List.mem_cons_self _ _)
  have hrest_sub : ∀ q ∈ rest, q ∈ visited :=
    fun q hq => hinv.queue_sub q (List.mem_cons_of_mem _ hq)
  have hq_lb : ∀ b ∈ rest, d current ≤ d b :=
    (List.pairwise_cons.mp hinv.q_sorted).1
  have hNN_mem : ∀ x ∈ newNodes visited
      (nbrs (buildAdjacencyList users friendships) current),
      x ∈ nbrs (buildAdjacencyList users friendships) current ∧ x ∉ visited :=
    fun x hx => mem_newNodes.mp hx
  have hNN_nodup : (newNodes visited
      (nbrs (buildAdjacencyList users friendships) current)).Nodup :=
    newNodes_nodup (nbrs_build_nodup users friendships current)
  have hmem_vis' : ∀ z, z ∈ (newNodes visited
        (nbrs (buildAdjacencyList users friendships) current)).reverse ++ visited ↔
      z ∈ newNodes visited (nbrs (buildAdjacencyList users friendships) current) ∨
      z ∈ visited := by
    intro z
    rw [List.mem_append, List.mem_reverse]
  have hd_old : ∀ z ∈ visited,
      (if z ∈ newNodes visited (nbrs (buildAdjacencyList users friendships) current)
        then d current + 1 else d z) = d z := by
    intro z hz
    rw [if_neg (fun hc => (hNN_mem z hc).2 hz)]
  have hd_new : ∀ z ∈ newNodes visited
      (nbrs (buildAdjacencyList users friendships) current),
      (if z ∈ newNodes visited (nbrs (buildAdjacencyList users friendships) current)
        then d current + 1 else d z) = d current + 1 := by
    intro z hz
    rw [if_pos hz]
  have hfrontier := bfs_frontier users friendships startId d visited
    (current :: rest) current hinv.start_mem
    (by
      intro b hb
      rcases List.mem_cons.mp hb with rfl | hb'
      · exact le_refl _
      · exact hq_lb b hb')
    hinv.closed hinv.min_d
  have hpar_keys : ∀ x, (alookup parent x).isSome → x ∈ visited := by
    intro x hx
    obtain ⟨y, hy⟩ := Option.isSome_iff_exists.mp hx
    exact (hinv.par_spec x y hy).1
  have hlp' : ∀ x, alookup (parent ++ (newNodes visited
      (nbrs (buildAdjacencyList users friendships) current)).map
      (fun n => (n, current))) x =
      match alookup parent x with
      | some v => some v
      | none => if x ∈ newNodes visited
          (nbrs (buildAdjacencyList users friendships) current)
          then some current else none := by
    intro x
    rw [alookup_append]
    cases alookup parent x with
    | some v => rfl
    | none => rw [alookup_map_const]
  refine ⟨?_, ?_, ?_, ?_, ?_, ?_, ?_, ?_, ?_, ?_, ?_, ?_, ?_, ?_, ?_, ?_, ?_⟩
  · -- start_mem
    exact (hmem_vis' startId).mpr (Or.inr hinv.start_mem)
  · -- d_start
    rw [hd_old startId hinv.start_mem]
    exact hinv.d_start
  · -- vis_nodup
    rw [List.nodup_append]
    refine ⟨List.nodup_reverse.mpr hNN_nodup, hinv.vis_nodup, ?_⟩
    intro a ha hb
    rw [List.mem_reverse] at ha
    exact (hNN_mem a ha).2 hb
  · -- vis_src
    intro v hv
    rcases (hmem_vis' v).mp hv with h | h
    · exact Or.inr ⟨current, (hNN_mem v h).1⟩
    · exact hinv.vis_src v h
  · -- queue_sub
    intro q hq
    rcases List.mem_append.mp hq with h | h
    · exact (hmem_vis' q).mpr (Or.inr (hrest_sub q h))
    · exact (hmem_vis' q).mpr (Or.inl h)
  · -- q_nodup
    rw [List.nodup_append]
    refine ⟨(List.nodup_cons.mp hinv.q_nodup).2, hNN_nodup, ?_⟩
    intro a ha hb
    exact (hNN_mem a hb).2 (hrest_sub a ha)
  · -- q_sorted
    rw [List.pairwise_append]
    refine ⟨?_, ?_, ?_⟩
    · refine List.Pairwise.imp_of_mem ?_ ((List.pairwise_cons.mp hinv.q_sorted).2)
      intro a b ha hb hr
      rw [hd_old a (hrest_sub a ha), hd_old b (hrest_sub b hb)]
      exact hr
    · refine List.pairwise_of_forall_mem_list ?_
      intro a ha b hb
      rw [hd_new a ha, hd_new b hb]
    · intro a ha b hb
      rw [hd_old a (hrest_sub a ha), hd_new b hb]
      exact hinv.q_close a (List.mem_cons_of_mem _ ha) current
        (List.mem_cons_self _ _)
  · -- q_close
    intro a ha b hb
    rcases List.mem_append.mp ha with ha' | ha' <;>
      rcases List.mem_append.mp hb with hb' | hb'
    · rw [hd_old a (hrest_sub a ha'), hd_old b (hrest_sub b hb')]
      exact hinv.q_close a (List.mem_cons_of_mem _ ha') b
        (List.mem_cons_of_mem _ hb')
    · rw [hd_old a (hrest_sub a ha'), hd_new b hb']
      have := hinv.q_close a (List.mem_cons_of_mem _ ha') current
        (List.mem_cons_self _ _)
      omega
    · rw [hd_new a ha', hd_old b (hrest_sub b hb')]
      have := hq_lb b hb'
      omega
    · rw [hd_new a ha', hd_new b hb']
      omega
  · -- par_spec
    intro x y hxy
    rw [hlp' x] at hxy
    cases hp : alookup parent x with
    | some v =>
      rw [hp] at hxy
      have hvy : v = y := Option.some_inj.mp hxy
      subst hvy
      obtain ⟨h1, h2, h3, h4, h5⟩ := hinv.par_spec x v hp
      refine ⟨(hmem_vis' x).mpr (Or.inr h1), (hmem_vis' v).mpr (Or.inr h2), h3, ?_, h5⟩
      rw [hd_old x h1, hd_old v h2]
      exact h4
    | none =>
      rw [hp] at hxy
      by_cases hx : x ∈ newNodes visited
          (nbrs (buildAdjacencyList users friendships) current)
      · rw [if_pos hx] at hxy
        have hcy : current = y := Option.some_inj.mp hxy
        subst hcy
        refine ⟨(hmem_vis' x).mpr (Or.inl hx), (hmem_vis' current).mpr (Or.inr hcv),
          (hNN_mem x hx).1, ?_, ?_⟩
        · rw [hd_new x hx, hd_old current hcv]
        · rintro rfl
          exact (hNN_mem x hx).2 hinv.start_mem
      · rw [if_neg hx] at hxy
        exact absurd hxy (by simp)
  · -- par_total
    intro x hx hxs
    rw [hlp' x]
    rcases (hmem_vis' x).mp hx with h | h
    · cases hp : alookup parent x with
      | some v => simp
      | none =>
        rw [if_pos h]
        simp
    · have := hinv.par_total x h hxs
      obtain ⟨y, hy⟩ := Option.isSome_iff_exists.mp this
      rw [hy]
      simp
  · -- par_len
    rw [List.length_append, List.length_map, List.length_append,
      List.length_reverse]
    have := hinv.par_len
    omega
  · -- closed
    intro u hu huq w hw
    rcases (hmem_vis' u).mp hu with h | h
    · exact absurd (List.mem_append_right _ h) huq
    · by_cases hueq : u = current
      · subst hueq
        by_cases hwv : w ∈ visited
        · exact (hmem_vis' w).mpr (Or.inr hwv)
        · exact (hmem_vis' w).mpr (Or.inl (mem_newNodes.mpr ⟨hw, hwv⟩))
      · have hur : u ∉ rest := fun hc => huq (List.mem_append_left _ hc)
        have huold : u ∉ current :: rest := by
          intro hc
          rcases List.mem_cons.mp hc with h' | h'
          · exact hueq h'
          · exact hur h'
        exact (hmem_vis' w).mpr (Or.inr (hinv.closed u h huold w hw))
  · -- reach_d
    intro v hv
    rcases (hmem_vis' v).mp hv with h | h
    · rw [hd_new v h]
      exact ReachN.step (hinv.reach_d current hcv) (hNN_mem v h).1
    · rw [hd_old v h]
      exact hinv.reach_d v h
  · -- min_d
    intro v hv n hn
    rcases (hmem_vis' v).mp hv with h | h
    · rw [hd_new v h]
      exact hfrontier v n hn (hNN_mem v h).2
    · rw [hd_old v h]
      exact hinv.min_d v h n hn
  · -- end_not
    intro hc
    rcases (hmem_vis' endId).mp hc with h | h
    · exact hfound (hNN_mem endId h).1
    · exact hinv.end_not h
  · -- d_lt
    intro v hv
    rw [List.length_append, List.length_reverse]
    rcases (hmem_vis' v).mp hv with h | h
    · rw [hd_new v h]
      have h1 := hinv.d_lt current hcv
      have h2 := List.length_pos_of_mem h
      omega
    · rw [hd_old v h]
      have := hinv.d_lt v h
      omega
  · -- fuel_big
    rw [List.length_append, List.length_append, List.length_reverse]
    have := hinv.fuel_big
    rw [List.length_cons] at this
    omega


/-- The loop iteration in which `end` is discovered returns a result; the
result is a shortest path provided no reachable id is the empty string. -/
theorem bfsLoop_found_spec (users : List User) (friendships : List Friendship)
    (startId endId : NodeId) (d : NodeId → Nat) (fuel : Nat)
    (current : NodeId) (rest visited : List NodeId)
    (parent : List (NodeId × NodeId))
    (hinv : BfsInv users friendships startId endId d (fuel + 1)
      (current :: rest) visited parent)
    (hfound : endId ∈ nbrs (buildAdjacencyList users friendships) current) :
    ∃ r, bfsLoop (buildAdjacencyList users friendships) endId (fuel + 1)
        (current :: rest) visited parent = some r ∧
      ReachN (buildAdjacencyList users friendships) startId endId (d current + 1) ∧
      (∀ n, ReachN (buildAdjacencyList users friendships) startId endId n →
        d current + 1 ≤ n) ∧
      ((startId ≠ "" ∧
          ∀ x y, y ∈ nbrs (buildAdjacencyList users friendships) x → y ≠ "") →
        GoodPath (buildAdjacencyList users friendships) startId endId r) := by
  have hcv : current ∈ visited := hinv.queue_sub current (List.mem_cons_self _ _)
  have hq_lb : ∀ b ∈ current :: rest, d current ≤ d b := by
    intro b hb
    rcases List.mem_cons.mp hb with rfl | hb'
    · exact le_refl _
    · exact (List.pairwise_cons.mp hinv.q_sorted).1 b hb'
  have hfrontier := bfs_frontier users friendships startId d visited
    (current :: rest) current hinv.start_mem hq_lb hinv.closed hinv.min_d
  obtain ⟨pre, post, hsplit, hpre, hres⟩ :=
    bfsVisitNbrs_inr (buildAdjacencyList users friendships) endId current
      (nbrs (buildAdjacencyList users friendships) current) rest visited parent
      (nbrs_build_nodup users friendships current) hinv.end_not hfound
  have hP2 : parent ++ (newNodes visited pre).map (fun n => (n, current)) ++
      [(endId, current)] =
      parent ++ (newNodes visited pre ++ [endId]).map (fun n => (n, current)) := by
    rw [List.map_append, ← List.append_assoc]
    rfl
  rw [hP2] at hres
  have hloop : bfsLoop (buildAdjacencyList users friendships) endId (fuel + 1)
      (current :: rest) visited parent =
      some (bfsFound (parent ++ (newNodes visited pre ++ [endId]).map
        (fun n => (n, current))) endId) := by
    rw [bfsLoop, hres]
  refine ⟨_, hloop, ?_, ?_, ?_⟩
  · exact ReachN.step (hinv.reach_d current hcv) hfound
  · intro n hn
    exact hfrontier endId n hn hinv.end_not
  · rintro ⟨hs_ne, hnb_ne⟩
    have hvis_ne : ∀ v ∈ visited, v ≠ "" := by
      intro v hv
      rcases hinv.vis_src v hv with rfl | ⟨u, hu⟩
      · exact hs_ne
      · exact hnb_ne u v hu
    have hpre_sub : ∀ x ∈ pre, x ∈ nbrs (buildAdjacencyList users friendships)
        current := by
      intro x hx
      rw [hsplit]
      exact List.mem_append_left _ hx
    have hadded_mem : ∀ x ∈ newNodes visited pre ++ [endId],
        x ∈ nbrs (buildAdjacencyList users friendships) current ∧ x ∉ visited := by
      intro x hx
      rcases List.mem_append.mp hx with h | h
      · exact ⟨hpre_sub x (mem_newNodes.mp h).1, (mem_newNodes.mp h).2⟩
      · simp only [List.mem_singleton] at h
        subst h
        exact ⟨hfound, hinv.end_not⟩
    have hd_old : ∀ z ∈ visited,
        (if z ∈ newNodes visited pre ++ [endId] then d current + 1 else d z) = d z := by
      intro z hz
      rw [if_neg (fun hc => (hadded_mem z hc).2 hz)]
    have hd_new : ∀ z ∈ newNodes visited pre ++ [endId],
        (if z ∈ newNodes visited pre ++ [endId] then d current + 1 else d z) =
          d current + 1 := by
      intro z hz
      rw [if_pos hz]
    have hlp2 : ∀ x, alookup (parent ++ (newNodes visited pre ++ [endId]).map
        (fun n => (n, current))) x =
        match alookup parent x with
        | some v => some v
        | none => if x ∈ newNodes visited pre ++ [endId]
            then some current else none := by
      intro x
      rw [alookup_append]
      cases alookup parent x with
      | some v => rfl
      | none => rw [alookup_map_const]
    have hpend : alookup parent endId = none := by
      cases hp : alookup parent endId with
      | none => rfl
      | some y => exact absurd (hinv.par_spec endId y hp).1 hinv.end_not
    have hkey_end : alookup (parent ++ (newNodes visited pre ++ [endId]).map
        (fun n => (n, current))) endId = some current := by
      rw [hlp2, hpend]
      rw [if_pos (List.mem_append_right _ (List.mem_singleton.mpr rfl))]
    have hspec2 : ∀ x y, alookup (parent ++ (newNodes visited pre ++ [endId]).map
        (fun n => (n, current))) x = some y →
        x ∈ nbrs (buildAdjacencyList users friendships) y ∧
        (if x ∈ newNodes visited pre ++ [endId] then d current + 1 else d x) =
          (if y ∈ newNodes visited pre ++ [endId] then d current + 1 else d y) + 1 ∧
        x ≠ startId ∧
        (y = startId ∨ (alookup (parent ++ (newNodes visited pre ++ [endId]).map
          (fun n => (n, current))) y).isSome) ∧ y ≠ "" := by
      intro x y hxy
      rw [hlp2 x] at hxy
      cases hp : alookup parent x with
      | some v =>
        rw [hp] at hxy
        have hvy : v = y := Option.some_inj.mp hxy
        subst hvy
        obtain ⟨h1, h2, h3, h4, h5⟩ := hinv.par_spec x v hp
        refine ⟨h3, ?_, h5, ?_, hvis_ne v h2⟩
        · rw [hd_old x h1, hd_old v h2]
          exact h4
        · by_cases hvs : v = startId
          · exact Or.inl hvs
          · refine Or.inr ?_
            rw [hlp2 v]
            obtain ⟨w, hw⟩ := Option.isSome_iff_exists.mp
              (hinv.par_total v h2 hvs)
            rw [hw]
            simp
      | none =>
        rw [hp] at hxy
        by_cases hx : x ∈ newNodes visited pre ++ [endId]
        · rw [if_pos hx] at hxy
          have hcy : current = y := Option.some_inj.mp hxy
          subst hcy
          refine ⟨(hadded_mem x hx).1, ?_, ?_, ?_, hvis_ne current hcv⟩
          · rw [hd_new x hx, hd_old current hcv]
          · rintro rfl
            exact (hadded_mem x hx).2 hinv.start_mem
          · by_cases hcs : current = startId
            · exact Or.inl hcs
            · refine Or.inr ?_
              rw [hlp2 current]
              obtain ⟨w, hw⟩ := Option.isSome_iff_exists.mp
                (hinv.par_total current hcv hcs)
              rw [hw]
              simp
        · rw [if_neg hx] at hxy
          exact absurd hxy (by simp)
    have hd0' : (if startId ∈ newNodes visited pre ++ [endId] then d current + 1
        else d startId) = 0 := by
      rw [hd_old startId hinv.start_mem]
      exact hinv.d_start
    have hend_added : endId ∈ newNodes visited pre ++ [endId] :=
      List.mem_append_right _ (List.mem_singleton.mpr rfl)
    have hfuel_rec : (if endId ∈ newNodes visited pre ++ [endId] then d current + 1
        else d endId) + 1 ≤
        (parent ++ (newNodes visited pre ++ [endId]).map
          (fun n => (n, current))).length + 1 := by
      rw [hd_new endId hend_added]
      have h1 := hinv.d_lt current hcv
      have h2 := hinv.par_len
      rw [List.length_append, List.length_map, List.length_append]
      simp only [List.length_singleton]
      omega
    obtain ⟨c, heq, hh, hl, hchain, hlen⟩ :=
      reconstruct_spec users friendships startId
        (parent ++ (newNodes visited pre ++ [endId]).map (fun n => (n, current)))
        (fun z => if z ∈ newNodes visited pre ++ [endId] then d current + 1 else d z)
        hspec2 hd0'
        ((parent ++ (newNodes visited pre ++ [endId]).map
          (fun n => (n, current))).length + 1)
        endId []
        (Or.inr (by rw [hkey_end]; simp))
        (hnb_ne current endId hfound)
        hfuel_rec
    rw [List.append_nil] at heq
    have hpath : (bfsFound (parent ++ (newNodes visited pre ++ [endId]).map
        (fun n => (n, current))) endId).path = c := heq
    have hdist : (bfsFound (parent ++ (newNodes visited pre ++ [endId]).map
        (fun n => (n, current))) endId).distance =
        ((c.length : Int) - 1) := by
      show ((reconstruct _ _ _ []).length : Int) - 1 = _
      rw [heq]
    refine ⟨?_, ?_, ?_, ?_, ?_⟩
    · rw [hpath]; exact hh
    · rw [hpath]; exact hl
    · rw [hpath]; exact hchain
    · rw [hpath, hdist]
    · intro n hn
      rw [hpath, hlen, hd_new endId hend_added]
      have := hfrontier endId n hn hinv.end_not
      omega


/-- Master specification of the BFS loop: a `none` result means `end` is
unreachable, a `some` result means it is reachable, and — when no relevant id
is the empty string — a `some` result is a shortest path from start to end. -/
theorem bfsLoop_spec (users : List User) (friendships : List Friendship)
    (startId endId : NodeId) :
    ∀ (fuel : Nat) (queue visited : List NodeId)
      (parent : List (NodeId × NodeId)) (d : NodeId → Nat),
      BfsInv users friendships startId endId d fuel queue visited parent →
      (bfsLoop (buildAdjacencyList users friendships) endId fuel queue visited
          parent = none →
        ¬ Reach (buildAdjacencyList users friendships) startId endId) ∧
      (∀ r, bfsLoop (buildAdjacencyList users friendships) endId fuel queue visited
          parent = some r →
        Reach (buildAdjacencyList users friendships) startId endId) ∧
      ((startId ≠ "" ∧
          ∀ x y, y ∈ nbrs (buildAdjacencyList users friendships) x → y ≠ "") →
        ∀ r, bfsLoop (buildAdjacencyList users friendships) endId fuel queue
          visited parent = some r →
          GoodPath (buildAdjacencyList users friendships) startId endId r) := by
  intro fuel
  induction fuel with
  | zero =>
    intro queue visited parent d hinv
    exfalso
    have h1 := hinv.fuel_big
    have h2 := hinv.vis_card
    omega
  | succ fuel ih =>
    intro queue visited parent d hinv
    cases queue with
    | nil =>
      have hres : bfsLoop (buildAdjacencyList users friendships) endId (fuel + 1)
          [] visited parent = none := rfl
      refine ⟨?_, ?_, ?_⟩
      · intro _ hreach
        obtain ⟨n, hrn⟩ := hreach
        have hall : ∀ (w : NodeId) (m : Nat),
            ReachN (buildAdjacencyList users friendships) startId w m →
              w ∈ visited := by
          intro w m h
          induction h with
          | refl => exact hinv.start_mem
          | step hr hstep ih2 =>
            exact hinv.closed _ ih2 (List.not_mem_nil _) _ hstep
        exact hinv.end_not (hall endId n hrn)
      · intro r hr
        rw [hres] at hr
        exact absurd hr (by simp)
      · intro _ r hr
        rw [hres] at hr
        exact absurd hr (by simp)
    | cons current rest =>
      by_cases hfound : endId ∈ nbrs (buildAdjacencyList users friendships) current
      · obtain ⟨r, hloop, hreach, _, hgood⟩ :=
          bfsLoop_found_spec users friendships startId endId d fuel current rest
            visited parent hinv hfound
        refine ⟨?_, ?_, ?_⟩
        · intro h
          rw [hloop] at h
          exact absurd h (by simp)
        · intro r' _
          exact ⟨d current + 1, hreach⟩
        · intro hne r' hr'
          rw [hloop] at hr'
          have hrr : r = r' := Option.some_inj.mp hr'
          subst hrr
          exact hgood hne
      · have hinv' := bfsLoop_step_inv users friendships startId endId d fuel
          current rest visited parent hinv hfound
        have hstep_eq : bfsLoop (buildAdjacencyList users friendships) endId
            (fuel + 1) (current :: rest) visited parent =
            bfsLoop (buildAdjacencyList users friendships) endId fuel
              (rest ++ newNodes visited
                (nbrs (buildAdjacencyList users friendships) current))
              ((newNodes visited
                (nbrs (buildAdjacencyList users friendships) current)).reverse
                ++ visited)
              (parent ++ (newNodes visited
                (nbrs (buildAdjacencyList users friendships) current)).map
                (fun n => (n, current))) := by
          rw [bfsLoop, bfsVisitNbrs_inl (buildAdjacencyList users friendships)
            endId current (nbrs (buildAdjacencyList users friendships) current)
            rest visited parent (nbrs_build_nodup users friendships current)
            (Or.inr hfound)]
        obtain ⟨hA, hB, hC⟩ := ih _ _ _ _ hinv'
        refine ⟨?_, ?_, ?_⟩
        · intro h
          rw [hstep_eq] at h
          exact hA h
        · intro r hr
          rw [hstep_eq] at hr
          exact hB r hr
        · intro hne r hr
          rw [hstep_eq] at hr
          exact hC hne r hr


/-- The invariant holds on entry to the loop. -/
theorem bfsInv_init (users : List User) (friendships : List Friendship)
    (startId endId : NodeId) (hne : startId ≠ endId) :
    BfsInv users friendships startId endId (fun _ => 0)
      (bfsFuel users friendships) [startId] [startId] [] := by
  refine ⟨?_, ?_, ?_, ?_, ?_, ?_, ?_, ?_, ?_, ?_, ?_, ?_, ?_, ?_, ?_, ?_, ?_⟩
  · exact List.mem_singleton.mpr rfl
  · rfl
  · simp
  · intro v hv
    exact Or.inl (List.mem_singleton.mp hv)
  · intro q hq
    exact hq
  · simp
  · simp
  · intro a _ b _
    omega
  · intro x y hxy
    simp [alookup] at hxy
  · intro x hx hxs
    exact absurd (List.mem_singleton.mp hx) hxs
  · rfl
  · intro u hu huq
    exact absurd hu huq
  · intro v hv
    obtain rfl := List.mem_singleton.mp hv
    exact ReachN.refl
  · intro v _ n _
    omega
  · intro hc
    exact hne (List.mem_singleton.mp hc).symm
  · intro v _
    simp
  · unfold bfsFuel
    simp
    omega

/-- Connectivity in the graph: the reflexive-transitive closure of the edge
relation. -/
def EdgeConn (friendships : List Friendship) : NodeId → NodeId → Prop :=
  Relation.ReflTransGen (EdgeBetween friendships)

/-- When edges reference present nodes, adjacency reachability is exactly graph
connectivity. -/
theorem reach_iff_edgeConn {users : List User} {friendships : List Friendship}
    (hsrc : ∀ f ∈ friendships, f.source ∈ idsOf users)
    (htgt : ∀ f ∈ friendships, f.target ∈ idsOf users) (x y : NodeId) :
    Reach (buildAdjacencyList users friendships) x y ↔ EdgeConn friendships x y := by
  constructor
  · rintro ⟨n, hrn⟩
    induction hrn with
    | refl => exact Relation.ReflTransGen.refl
    | step hr hstep ih =>
      exact Relation.ReflTransGen.tail ih
        ((mem_nbrs_build_valid hsrc htgt _ _).mp hstep)
  · intro h
    induction h with
    | refl => exact ⟨0, ReachN.refl⟩
    | tail hr hstep ih =>
      obtain ⟨n, hn⟩ := ih
      exact ⟨n + 1, ReachN.step hn ((mem_nbrs_build_valid hsrc htgt _ _).mpr hstep)⟩

theorem reachN_zero {adj : Adj} {x y : NodeId}
    (h : ReachN adj x y 0) : x = y := by
  cases h
  rfl

theorem nbrs_absent_nil (users : List User) (friendships : List Friendship)
    {x : NodeId} (hx : x ∉ idsOf users) :
    nbrs (buildAdjacencyList users friendships) x = [] := by
  unfold nbrs
  cases hl : alookup (buildAdjacencyList users friendships) x with
  | none => rfl
  | some s =>
    exact absurd ((buildAdjacencyList_keys users friendships x).mp
      (by rw [hl]; rfl)) hx

/-! ## C8: `NotFound` exactly for unreachable present pairs -/

/-- A graph whose two present nodes are chained only through the absent
id `"x"`. -/
def c8Users : List User := [⟨"a", "A"⟩, ⟨"b", "B"⟩]

def c8Friendships : List Friendship := [⟨"a", "x"⟩, ⟨"x", "b"⟩]

/-- **C8, counterexample.** The claim quantifies over every graph, but on the
graph with present nodes `a`, `b` and edges `a–x`, `x–b` (`x` absent) the
query returns `null` although the edge list connects `a` to `b`: the BFS
stops at `x`, which has no adjacency entry, so `null` is not returned only in
the unreachable case. -/
theorem findShortestPath_none_despite_chain :
    ("a" : NodeId) ∈ idsOf c8Users ∧ ("b" : NodeId) ∈ idsOf c8Users ∧
    EdgeConn c8Friendships "a" "b" ∧
    findShortestPath c8Users c8Friendships "a" "b" = none := by
  refine ⟨by decide, by decide, ?_, by decide⟩
  have e1 : EdgeBetween c8Friendships "a" "x" := by decide
  have e2 : EdgeBetween c8Friendships "x" "b" := by decide
  exact Relation.ReflTransGen.tail (Relation.ReflTransGen.single e1) e2

/-- **C8, amended**: on a valid graph, for present `start` and `end`,
`findShortestPath` returns `null` (`none`) precisely when `end` is not
connected to `start`; it never fails and returns a `PathResult` in every
other case. -/
theorem findShortestPath_none_iff (users : List User) (friendships : List Friendship)
    (startId endId : NodeId) (hv : ValidGraph users friendships)
    (hs : startId ∈ idsOf users) (he : endId ∈ idsOf users) :
    (findShortestPath users friendships startId endId = none ↔
      ¬ EdgeConn friendships startId endId) := by
  have hconn := reach_iff_edgeConn hv.src_mem hv.tgt_mem startId endId
  by_cases heq : startId = endId
  · subst heq
    unfold findShortestPath
    rw [if_pos rfl]
    constructor
    · intro h
      exact absurd h (by simp)
    · intro h
      exact absurd (hconn.mp ⟨0, ReachN.refl⟩) h
  · unfold findShortestPath
    rw [if_neg heq]
    obtain ⟨hA, hB, _⟩ := bfsLoop_spec users friendships startId endId
      (bfsFuel users friendships) [startId] [startId] [] (fun _ => 0)
      (bfsInv_init users friendships startId endId heq)
    constructor
    · intro h hconn'
      exact (hA h) (hconn.mpr hconn')
    · intro hnc
      cases hres : bfsLoop (buildAdjacencyList users friendships) endId
          (bfsFuel users friendships) [startId] [startId] [] with
      | none => rfl
      | some r => exact absurd (hconn.mp (hB r hres)) hnc

/-- Friendships of the §8 disconnection scenario: the Alice–Eve edge removed. -/
def exFriendshipsCut : List Friendship :=
  [⟨"alice", "bob"⟩, ⟨"bob", "charlie"⟩, ⟨"charlie", "diana"⟩, ⟨"eve", "frank"⟩]

/-- Witness for C8 at the §8 disconnection scenario: Diana and Frank are both
present, and the query result is `none` exactly because they are disconnected. -/
theorem findShortestPath_none_iff_witness :
    ValidGraph exUsers exFriendshipsCut ∧
    "diana" ∈ idsOf exUsers ∧ "frank" ∈ idsOf exUsers ∧
    (findShortestPath exUsers exFriendshipsCut "diana" "frank" = none ↔
      ¬ EdgeConn exFriendshipsCut "diana" "frank") :=
  ⟨by decide, by decide, by decide,
   findShortestPath_none_iff exUsers exFriendshipsCut "diana" "frank"
     (by decide) (by decide) (by decide)⟩


/-! ## C1: BFS shortest-path correctness -/

/-- A valid two-node graph whose start node has the empty string as id. -/
def c1Users : List User := [⟨"", "Empty"⟩, ⟨"b", "B"⟩]

def c1Friendships : List Friendship := [⟨"", "b"⟩]

/-- Counterexample to C1 as stated: on the valid graph with nodes `""` and
`"b"` joined by an edge, `findShortestPath("", "b")` returns the path `["b"]`
with distance `0` — the path does not begin at the start node and the distance
is not the shortest-path length `1`.  (JS `while (node)` treats the empty
string as falsy, so the reconstruction walk stops before prepending `""`.) -/
theorem findShortestPath_empty_id_bug :
    ValidGraph c1Users c1Friendships ∧ ("" : NodeId) ≠ "b" ∧
    ReachN (buildAdjacencyList c1Users c1Friendships) "" "b" 1 ∧
    findShortestPath c1Users c1Friendships "" "b" = some ⟨["b"], 0⟩ ∧
    ¬ ((["b"] : List NodeId).head? = some "") := by
  refine ⟨by decide, by decide, ?_, by decide, by decide⟩
  exact ReachN.step ReachN.refl (by decide)

/-- **Amended C1**: on every valid graph all of whose node ids are non-empty
strings, for every reachable pair with `start ≠ end`, `findShortestPath`
returns a path from `start` to `end` whose consecutive pairs are edges, whose
`distance` is `length - 1`, and whose length is minimal among all edge walks
from `start` to `end`. -/
theorem findShortestPath_correct (users : List User) (friendships : List Friendship)
    (startId endId : NodeId) (hv : ValidGraph users friendships)
    (hids_ne : ∀ u ∈ users, u.id ≠ "")
    (hs : startId ∈ idsOf users) (he : endId ∈ idsOf users)
    (hne : startId ≠ endId) (hreach : EdgeConn friendships startId endId) :
    ∃ r, findShortestPath users friendships startId endId = some r ∧
      r.path.head? = some startId ∧ r.path.getLast? = some endId ∧
      List.Chain' (EdgeBetween friendships) r.path ∧
      r.distance = (r.path.length : Int) - 1 ∧
      ∀ q : List NodeId, q.head? = some startId → q.getLast? = some endId →
        List.Chain' (EdgeBetween friendships) q → r.path.length ≤ q.length := by
  have hid_ne : ∀ x ∈ idsOf users, x ≠ "" := by
    intro x hx
    obtain ⟨u, hu, rfl⟩ := List.mem_map.mp hx
    exact hids_ne u hu
  have hsne : startId ≠ "" := hid_ne startId hs
  have hnb_ne : ∀ x y, y ∈ nbrs (buildAdjacencyList users friendships) x →
      y ≠ "" := by
    intro x y hy
    exact hid_ne y (nbrs_build_mem_ids hv.src_mem hv.tgt_mem hy).2
  have hreach' : Reach (buildAdjacencyList users friendships) startId endId :=
    (reach_iff_edgeConn hv.src_mem hv.tgt_mem startId endId).mpr hreach
  obtain ⟨hA, _, hC⟩ := bfsLoop_spec users friendships startId endId
    (bfsFuel users friendships) [startId] [startId] [] (fun _ => 0)
    (bfsInv_init users friendships startId endId hne)
  have hfsp : findShortestPath users friendships startId endId =
      bfsLoop (buildAdjacencyList users friendships) endId
        (bfsFuel users friendships) [startId] [startId] [] := by
    unfold findShortestPath
    rw [if_neg hne]
  cases hres : bfsLoop (buildAdjacencyList users friendships) endId
      (bfsFuel users friendships) [startId] [startId] [] with
  | none => exact absurd hreach' (hA hres)
  | some r =>
    have hgood := hC ⟨hsne, hnb_ne⟩ r hres
    obtain ⟨hh, hl, hchain, hdist, hmin⟩ := hgood
    refine ⟨r, by rw [hfsp, hres], hh, hl, ?_, hdist, ?_⟩
    · exact hchain.imp (fun {a b} hab =>
        (mem_nbrs_build_valid hv.src_mem hv.tgt_mem a b).mp hab)
    · intro q hqh hql hqchain
      have hqchain' : List.Chain'
          (fun a b => b ∈ nbrs (buildAdjacencyList users friendships) a) q :=
        hqchain.imp (fun {a b} hab =>
          (mem_nbrs_build_valid hv.src_mem hv.tgt_mem a b).mpr hab)
      have hrn := chain_reachN (buildAdjacencyList users friendships) q startId
        endId hqchain' hqh hql
      have hqpos : 0 < q.length := by
        cases q with
        | nil => simp at hqh
        | cons a l => simp
      have := hmin (q.length - 1) hrn
      omega

/-- Witness for the amended C1 at the §8 scenario: Alice → Diana. -/
theorem findShortestPath_correct_witness :
    ValidGraph exUsers exFriendships ∧ (∀ u ∈ exUsers, u.id ≠ "") ∧
    "alice" ∈ idsOf exUsers ∧ "diana" ∈ idsOf exUsers ∧
    ("alice" : NodeId) ≠ "diana" ∧ EdgeConn exFriendships "alice" "diana" ∧
    ∃ r, findShortestPath exUsers exFriendships "alice" "diana" = some r ∧
      r.path.head? = some "alice" ∧ r.path.getLast? = some "diana" ∧
      List.Chain' (EdgeBetween exFriendships) r.path ∧
      r.distance = (r.path.length : Int) - 1 ∧
      ∀ q : List NodeId, q.head? = some "alice" → q.getLast? = some "diana" →
        List.Chain' (EdgeBetween exFriendships) q → r.path.length ≤ q.length := by
  have e1 : EdgeBetween exFriendships "alice" "bob" := by decide
  have e2 : EdgeBetween exFriendships "bob" "charlie" := by decide
  have e3 : EdgeBetween exFriendships "charlie" "diana" := by decide
  have hconn : EdgeConn exFriendships "alice" "diana" :=
    Relation.ReflTransGen.tail
      (Relation.ReflTransGen.tail (Relation.ReflTransGen.single e1) e2) e3
  exact ⟨by decide, by decide, by decide, by decide, by decide, hconn,
    findShortestPath_correct exUsers exFriendships "alice" "diana"
      (by decide) (by decide) (by decide) (by decide) (by decide) hconn⟩

/-! ## C6: `findShortestPath` on unknown node ids -/

/-- Counterexample to C6: with an empty node set, `findShortestPath("zed","zed")`
does not fail with `UnknownNode` — the identity shortcut returns a `PathResult`
before any presence check. -/
theorem findShortestPath_unknown_no_error :
    ("zed" ∉ idsOf ([] : List User)) ∧
    findShortestPath [] [] "zed" "zed" = some ⟨["zed"], 0⟩ := by
  decide

/-- **Amended C6**: the query never fails when `start` or `end` is absent:
with `start = end` it returns the one-node `PathResult` unconditionally (the
identity shortcut fires before any lookup, even for an unknown id), and
otherwise — on graphs whose edges reference present nodes — it returns
`null`. -/
theorem findShortestPath_unknown_behavior (users : List User)
    (friendships : List Friendship) (startId endId : NodeId) :
    (startId = endId →
      findShortestPath users friendships startId endId = some ⟨[startId], 0⟩) ∧
    ((∀ f ∈ friendships, f.source ∈ idsOf users) →
      (∀ f ∈ friendships, f.target ∈ idsOf users) →
      (startId ∉ idsOf users ∨ endId ∉ idsOf users) →
      startId ≠ endId →
      findShortestPath users friendships startId endId = none) := by
  constructor
  · intro heq
    unfold findShortestPath
    rw [if_pos heq]
  · intro hsrc htgt habs hne
    unfold findShortestPath
    rw [if_neg hne]
    obtain ⟨_, hB, _⟩ := bfsLoop_spec users friendships startId endId
      (bfsFuel users friendships) [startId] [startId] [] (fun _ => 0)
      (bfsInv_init users friendships startId endId hne)
    cases hres : bfsLoop (buildAdjacencyList users friendships) endId
        (bfsFuel users friendships) [startId] [startId] [] with
    | none => rfl
    | some r =>
      exfalso
      obtain ⟨n, hrn⟩ := hB r hres
      obtain ⟨c, hchain, hh, hl, hlen⟩ :=
        reachN_chain (buildAdjacencyList users friendships) hrn
      rcases habs with habs | habs
      · -- the start id is absent: it has no neighbors, so the chain has length 1
        cases c with
        | nil => simp at hh
        | cons a c2 =>
          simp only [List.head?_cons] at hh
          obtain rfl := Option.some_inj.mp hh
          cases c2 with
          | nil =>
            simp only [List.getLast?_singleton] at hl
            exact hne (Option.some_inj.mp hl)
          | cons b c3 =>
            have hb : b ∈ nbrs (buildAdjacencyList users friendships) a :=
              (List.chain'_cons.mp hchain).1
            rw [nbrs_absent_nil users friendships habs] at hb
            exact absurd hb (List.not_mem_nil b)
      · -- the end id is absent: it can never appear as a neighbor
        cases n with
        | zero => exact hne (reachN_zero hrn)
        | succ m =>
          cases hrn with
          | step hr hstep =>
            exact habs (nbrs_build_mem_ids hsrc htgt hstep).2

/-- Witness for the amended C6: the identity query on the absent id `"zed"`
returns the one-node result, and querying from `"zed"` to Alice returns
`null`. -/
theorem findShortestPath_unknown_behavior_witness :
    findShortestPath exUsers exFriendships "zed" "zed" = some ⟨["zed"], 0⟩ ∧
    findShortestPath exUsers exFriendships "zed" "alice" = none :=
  ⟨(findShortestPath_unknown_behavior exUsers exFriendships "zed" "zed").1
     rfl,
   (findShortestPath_unknown_behavior exUsers exFriendships "zed" "alice").2
     (by decide) (by decide) (Or.inl (by decide)) (by decide)⟩


/-! ## `findCommunities` (DFS) -/

/-- The fixed color palette. -/
def colors : List String :=
  ["#FF6B6B", "#4ECDC4", "#45B7D1", "#96CEB4", "#FFEAA7", "#DDA0DD",
   "#98D8C8", "#F7DC6F"]

/-- Fuel for the iterative DFS; provably sufficient (each iteration pops one
stack entry, and a node pushes neighbors only the first time it is popped). -/
def dfsFuel (users : List User) (friendships : List Friendship) : Nat :=
  (users.length + 1) * (2 * friendships.length + 2) + 2

/-- `dfsVisit`: iterative DFS with an explicit stack (`pop` takes the end of a
JS array, so the head of this list is the top of the stack; pushed neighbors
appear reversed).  Returns the collected community and the updated visited
set. -/
def dfsVisit (adj : Adj) : Nat → List NodeId → List NodeId → List NodeId →
    List NodeId × List NodeId
  | 0, _, community, visited => (community, visited)
  | _ + 1, [], community, visited => (community, visited)
  | fuel + 1, current :: stack, community, visited =>
      if current ∈ visited then dfsVisit adj fuel stack community visited
      else
        dfsVisit adj fuel
          ((newNodes (current :: visited) (nbrs adj current)).reverse ++ stack)
          (community ++ [current]) (current :: visited)

/-- One step of the `findCommunities` loop over the user list. -/
def commStep (users : List User) (friendships : List Friendship)
    (acc : List Community × List NodeId) (u : User) : List Community × List NodeId :=
  if u.id ∈ acc.2 then acc
  else
    if 0 < (dfsVisit (buildAdjacencyList users friendships)
        (dfsFuel users friendships) [u.id] [] acc.2).1.length then
      (acc.1 ++ [⟨acc.1.length,
          (dfsVisit (buildAdjacencyList users friendships)
            (dfsFuel users friendships) [u.id] [] acc.2).1,
          colors.getD (acc.1.length % colors.length) ""⟩],
        (dfsVisit (buildAdjacencyList users friendships)
          (dfsFuel users friendships) [u.id] [] acc.2).2)
    else
      (acc.1, (dfsVisit (buildAdjacencyList users friendships)
        (dfsFuel users friendships) [u.id] [] acc.2).2)

/-- `findCommunities()`: DFS from every not-yet-visited user in input order. -/
def findCommunities (users : List User) (friendships : List Friendship) :
    List Community :=
  (users.foldl (commStep users friendships) ([], [])).1

/-! ### Reachability algebra under a symmetric adjacency -/

theorem reachN_trans {adj : Adj} {x y z : NodeId} {m n : Nat}
    (h1 : ReachN adj x y m) (h2 : ReachN adj y z n) : ReachN adj x z (m + n) := by
  induction h2 with
  | refl => exact h1
  | step hr hstep ih =>
    exact ReachN.step ih hstep

theorem reachN_symm {users : List User} {friendships : List Friendship}
    (hsrc : ∀ f ∈ friendships, f.source ∈ idsOf users)
    (htgt : ∀ f ∈ friendships, f.target ∈ idsOf users)
    {x y : NodeId} {n : Nat}
    (h : ReachN (buildAdjacencyList users friendships) x y n) :
    ReachN (buildAdjacencyList users friendships) y x n := by
  induction h with
  | refl => exact ReachN.refl
  | step hr hstep ih =>
    rename_i y' z' m
    have hz : y' ∈ nbrs (buildAdjacencyList users friendships) z' :=
      (nbrs_build_symm hsrc htgt y' z').mp hstep
    have hone : ReachN (buildAdjacencyList users friendships) z' y' 1 :=
      ReachN.step ReachN.refl hz
    have := reachN_trans hone ih
    simpa [Nat.add_comm] using this

theorem reach_trans {adj : Adj} {x y z : NodeId}
    (h1 : Reach adj x y) (h2 : Reach adj y z) : Reach adj x z := by
  obtain ⟨m, hm⟩ := h1
  obtain ⟨n, hn⟩ := h2
  exact ⟨m + n, reachN_trans hm hn⟩

theorem reach_symm {users : List User} {friendships : List Friendship}
    (hsrc : ∀ f ∈ friendships, f.source ∈ idsOf users)
    (htgt : ∀ f ∈ friendships, f.target ∈ idsOf users)
    {x y : NodeId} (h : Reach (buildAdjacencyList users friendships) x y) :
    Reach (buildAdjacencyList users friendships) y x := by
  obtain ⟨n, hn⟩ := h
  exact ⟨n, reachN_symm hsrc htgt hn⟩

theorem reach_mem_ids {users : List User} {friendships : List Friendship}
    (hsrc : ∀ f ∈ friendships, f.source ∈ idsOf users)
    (htgt : ∀ f ∈ friendships, f.target ∈ idsOf users)
    {x y : NodeId} (hx : x ∈ idsOf users)
    (h : Reach (buildAdjacencyList users friendships) x y) : y ∈ idsOf users := by
  obtain ⟨n, hn⟩ := h
  induction hn with
  | refl => exact hx
  | step hr hstep ih =>
    exact (nbrs_build_mem_ids hsrc htgt hstep).2

/-- A set closed under (symmetric) adjacency that misses `s` misses everything
reachable from `s`. -/
theorem closed_reach_not_mem {users : List User} {friendships : List Friendship}
    (hsrc : ∀ f ∈ friendships, f.source ∈ idsOf users)
    (htgt : ∀ f ∈ friendships, f.target ∈ idsOf users)
    {v0 : List NodeId}
    (hclosed : ∀ u ∈ v0, ∀ w ∈ nbrs (buildAdjacencyList users friendships) u,
      w ∈ v0)
    {s : NodeId} (hs : s ∉ v0) :
    ∀ x, Reach (buildAdjacencyList users friendships) s x → x ∉ v0 := by
  intro x hx
  obtain ⟨n, hn⟩ := hx
  induction hn with
  | refl => exact hs
  | step hr hstep ih =>
    rename_i y z m
    intro hzv
    have hy : y ∈ nbrs (buildAdjacencyList users friendships) z :=
      (nbrs_build_symm hsrc htgt y z).mp hstep
    exact ih (hclosed z hzv y hy)


/-- Main loop lemma for `dfsVisit`: starting from any stack of nodes reachable
from `s`, the loop visits exactly the new nodes it can reach, appends them to
the community in visit order, and leaves a state in which everything popped is
visited and the visited set of the result is adjacency-closed relative to the
collected nodes. -/
theorem dfsVisit_go (users : List User) (friendships : List Friendship)
    (hsrc : ∀ f ∈ friendships, f.source ∈ idsOf users)
    (htgt : ∀ f ∈ friendships, f.target ∈ idsOf users) (s : NodeId) :
    ∀ (fuel : Nat) (stack community visited : List NodeId),
      stack.length + (users.length - visited.length) *
        (2 * friendships.length + 2) < fuel →
      (∀ v ∈ visited, v ∈ idsOf users) →
      visited.Nodup →
      (∀ x ∈ stack, x ∈ idsOf users) →
      (∀ x ∈ stack, Reach (buildAdjacencyList users friendships) s x) →
      (∀ u ∈ visited, ∀ w ∈ nbrs (buildAdjacencyList users friendships) u,
        w ∈ visited ∨ w ∈ stack) →
      ∃ added : List NodeId,
        dfsVisit (buildAdjacencyList users friendships) fuel stack community
            visited = (community ++ added, added.reverse ++ visited) ∧
        (∀ x ∈ added, Reach (buildAdjacencyList users friendships) s x ∧
          x ∉ visited ∧ x ∈ idsOf users) ∧
        added.Nodup ∧
        (∀ x ∈ stack, x ∈ added ∨ x ∈ visited) ∧
        (∀ u, u ∈ added ∨ u ∈ visited →
          ∀ w ∈ nbrs (buildAdjacencyList users friendships) u,
            w ∈ added ∨ w ∈ visited) := by
  intro fuel
  induction fuel with
  | zero =>
    intro stack community visited hfuel
    omega
  | succ fuel ih =>
    intro stack community visited hfuel hvsub hvnd hssub hsreach hedge
    cases stack with
    | nil =>
      refine ⟨[], by simp [dfsVisit], by simp, by simp, by simp, ?_⟩
      intro u hu w hw
      rcases hu with hu | hu
      · exact absurd hu (List.not_mem_nil u)
      · rcases hedge u hu w hw with h | h
        · exact Or.inr h
        · exact absurd h (List.not_mem_nil w)
    | cons current stack2 =>
      by_cases hcv : current ∈ visited
      · have hfuel2 : stack2.length + (users.length - visited.length) *
            (2 * friendships.length + 2) < fuel := by
          rw [List.length_cons] at hfuel
          omega
        obtain ⟨added, heq, hprops, hnd, hstk, hcl⟩ :=
          ih stack2 community visited hfuel2 hvsub hvnd
            (fun x hx => hssub x (List.mem_cons_of_mem _ hx))
            (fun x hx => hsreach x (List.mem_cons_of_mem _ hx))
            (by
              intro u hu w hw
              rcases hedge u hu w hw with h | h
              · exact Or.inl h
              · rcases List.mem_cons.mp h with rfl | h'
                · exact Or.inl hcv
                · exact Or.inr h')
        refine ⟨added, ?_, hprops, hnd, ?_, hcl⟩
        · rw [dfsVisit, if_pos hcv]
          exact heq
        · intro x hx
          rcases List.mem_cons.mp hx with rfl | hx'
          · exact Or.inr hcv
          · exact hstk x hx'
      · have hcid : current ∈ idsOf users := hssub current (List.mem_cons_self _ _)
        have hvlen : visited.length + 1 ≤ users.length := by
          have hsub : current :: visited ⊆ idsOf users := by
            intro z hz
            rcases List.mem_cons.mp hz with rfl | hz'
            · exact hcid
            · exact hvsub z hz'
          have hnd2 : (current :: visited).Nodup := List.nodup_cons.mpr ⟨hcv, hvnd⟩
          have := (List.subperm_of_subset hnd2 hsub).length_le
          rw [List.length_cons] at this
          unfold idsOf at this
          rw [List.length_map] at this
          exact this
        have hNNlen : (newNodes (current :: visited)
            (nbrs (buildAdjacencyList users friendships) current)).length ≤
            2 * friendships.length := by
          calc (newNodes (current :: visited)
              (nbrs (buildAdjacencyList users friendships) current)).length
              ≤ (nbrs (buildAdjacencyList users friendships) current).length :=
                newNodes_length_le _ _
            _ ≤ 2 * friendships.length := nbrs_build_length users friendships current
        have hfuel2 : ((newNodes (current :: visited)
              (nbrs (buildAdjacencyList users friendships) current)).reverse ++
              stack2).length +
            (users.length - (current :: visited).length) *
              (2 * friendships.length + 2) < fuel := by
          rw [List.length_append, List.length_reverse, List.length_cons]
          rw [List.length_cons] at hfuel
          have hPQ : (users.length - visited.length) * (2 * friendships.length + 2) =
              (users.length - (visited.length + 1)) * (2 * friendships.length + 2) +
              (2 * friendships.length + 2) := by
            have h1 : users.length - visited.length =
                (users.length - (visited.length + 1)) + 1 := by omega
            rw [h1]
            ring
          rw [hPQ] at hfuel
          omega
        have hreach_cur : Reach (buildAdjacencyList users friendships) s current :=
          hsreach current (List.mem_cons_self _ _)
        obtain ⟨added2, heq, hprops, hnd, hstk, hcl⟩ :=
          ih ((newNodes (current :: visited)
              (nbrs (buildAdjacencyList users friendships) current)).reverse ++
              stack2)
            (community ++ [current]) (current :: visited) hfuel2
            (by
              intro v hv
              rcases List.mem_cons.mp hv with rfl | hv'
              · exact hcid
              · exact hvsub v hv')
            (List.nodup_cons.mpr ⟨hcv, hvnd⟩)
            (by
              intro x hx
              rcases List.mem_append.mp hx with hx' | hx'
              · rw [List.mem_reverse] at hx'
                exact (nbrs_build_mem_ids hsrc htgt (mem_newNodes.mp hx').1).2
              · exact hssub x (List.mem_cons_of_mem _ hx'))
            (by
              intro x hx
              rcases List.mem_append.mp hx with hx' | hx'
              · rw [List.mem_reverse] at hx'
                obtain ⟨hn, _⟩ := mem_newNodes.mp hx'
                obtain ⟨n, hrn⟩ := hreach_cur
                exact ⟨n + 1, ReachN.step hrn hn⟩
              · exact hsreach x (List.mem_cons_of_mem _ hx'))
            (by
              intro u hu w hw
              rcases List.mem_cons.mp hu with rfl | hu'
              · by_cases hwv : w ∈ u :: visited
                · exact Or.inl hwv
                · refine Or.inr (List.mem_append_left _ ?_)
                  rw [List.mem_reverse]
                  exact mem_newNodes.mpr ⟨hw, hwv⟩
              · rcases hedge u hu' w hw with h | h
                · exact Or.inl (List.mem_cons_of_mem _ h)
                · rcases List.mem_cons.mp h with rfl | h'
                  · exact Or.inl (List.mem_cons_self _ _)
                  · exact Or.inr (List.mem_append_right _ h'))
        have hadded2_nc : current ∉ added2 := by
          intro hc
          exact (hprops current hc).2.1 (List.mem_cons_self _ _)
        refine ⟨current :: added2, ?_, ?_, ?_, ?_, ?_⟩
        · rw [dfsVisit, if_neg hcv, heq]
          simp
        · intro x hx
          rcases List.mem_cons.mp hx with rfl | hx'
          · exact ⟨hreach_cur, hcv, hcid⟩
          · obtain ⟨h1, h2, h3⟩ := hprops x hx'
            exact ⟨h1, fun hc => h2 (List.mem_cons_of_mem _ hc), h3⟩
        · exact List.nodup_cons.mpr ⟨hadded2_nc, hnd⟩
        · intro x hx
          rcases List.mem_cons.mp hx with rfl | hx'
          · exact Or.inl (List.mem_cons_self _ _)
          · rcases hstk x (List.mem_append_right _ hx') with h | h
            · exact Or.inl (List.mem_cons_of_mem _ h)
            · rcases List.mem_cons.mp h with rfl | h'
              · exact Or.inl (List.mem_cons_self _ _)
              · exact Or.inr h'
        · intro u hu w hw
          have hu2 : u ∈ added2 ∨ u ∈ current :: visited := by
            rcases hu with hu | hu
            · rcases List.mem_cons.mp hu with rfl | hu'
              · exact Or.inr (List.mem_cons_self _ _)
              · exact Or.inl hu'
            · exact Or.inr (List.mem_cons_of_mem _ hu)
          rcases hcl u hu2 w hw with h | h
          · exact Or.inl (List.mem_cons_of_mem _ h)
          · rcases List.mem_cons.mp h with rfl | h'
            · exact Or.inl (List.mem_cons_self _ _)
            · exact Or.inr h'


/-- A single `dfsVisit(s, visited)` call from an unvisited present node, with a
closed visited set, collects exactly the connected component of `s`. -/
theorem dfsVisit_call (users : List User) (friendships : List Friendship)
    (hsrc : ∀ f ∈ friendships, f.source ∈ idsOf users)
    (htgt : ∀ f ∈ friendships, f.target ∈ idsOf users) (s : NodeId)
    (visited : List NodeId)
    (hs_id : s ∈ idsOf users) (hs_nv : s ∉ visited)
    (hvsub : ∀ v ∈ visited, v ∈ idsOf users) (hvnd : visited.Nodup)
    (hclosed0 : ∀ u ∈ visited, ∀ w ∈ nbrs (buildAdjacencyList users friendships) u,
      w ∈ visited) :
    ∃ added : List NodeId,
      dfsVisit (buildAdjacencyList users friendships)
          (dfsFuel users friendships) [s] [] visited =
        (added, added.reverse ++ visited) ∧
      (∀ x, x ∈ added ↔ Reach (buildAdjacencyList users friendships) s x) ∧
      added.Nodup ∧
      (∀ x ∈ added, x ∈ idsOf users ∧ x ∉ visited) ∧
      (∀ u, u ∈ added ∨ u ∈ visited →
        ∀ w ∈ nbrs (buildAdjacencyList users friendships) u,
          w ∈ added ∨ w ∈ visited) := by
  have hfuel : [s].length + (users.length - visited.length) *
      (2 * friendships.length + 2) < dfsFuel users friendships := by
    unfold dfsFuel
    have h1 : users.length - visited.length ≤ users.length := by omega
    have h2 : (users.length - visited.length) * (2 * friendships.length + 2) ≤
        users.length * (2 * friendships.length + 2) :=
      Nat.mul_le_mul_right _ h1
    have h3 : (users.length + 1) * (2 * friendships.length + 2) =
        users.length * (2 * friendships.length + 2) +
        (2 * friendships.length + 2) := by ring
    rw [List.length_singleton, h3]
    omega
  obtain ⟨added, heq, hprops, hnd, hstk, hcl⟩ :=
    dfsVisit_go users friendships hsrc htgt s (dfsFuel users friendships)
      [s] [] visited hfuel hvsub hvnd
      (by intro x hx; obtain rfl := List.mem_singleton.mp hx; exact hs_id)
      (by intro x hx; obtain rfl := List.mem_singleton.mp hx; exact ⟨0, ReachN.refl⟩)
      (by
        intro u hu w hw
        exact Or.inl (hclosed0 u hu w hw))
  have hs_added : s ∈ added := by
    rcases hstk s (List.mem_singleton.mpr rfl) with h | h
    · exact h
    · exact absurd h hs_nv
  refine ⟨added, by simpa using heq, ?_, hnd, ?_, hcl⟩
  · intro x
    constructor
    · intro hx
      exact (hprops x hx).1
    · intro hx
      have hnv := closed_reach_not_mem hsrc htgt hclosed0 hs_nv x hx
      -- reachable nodes land in `added ∪ visited` by closure induction
      obtain ⟨n, hn⟩ := hx
      have hmem : x ∈ added ∨ x ∈ visited := by
        clear hnv
        induction hn with
        | refl => exact Or.inl hs_added
        | step hr hstep ih => exact hcl _ ih _ hstep
      rcases hmem with h | h
      · exact h
      · exact absurd h hnv
  · intro x hx
    exact ⟨(hprops x hx).2.2, (hprops x hx).2.1⟩

/-- Invariant of the `findCommunities` fold over the user list. -/
structure CommFoldInv (users : List User) (friendships : List Friendship)
    (processed : List User) (cs : List Community) (visited : List NodeId) :
    Prop where
  vis_char : ∀ x, x ∈ visited ↔ ∃ u ∈ processed,
      Reach (buildAdjacencyList users friendships) u.id x
  vis_closed : ∀ u ∈ visited,
      ∀ w ∈ nbrs (buildAdjacencyList users friendships) u, w ∈ visited
  vis_nodup : visited.Nodup
  vis_sub : ∀ v ∈ visited, v ∈ idsOf users
  comm_char : ∀ c ∈ cs, c.users.Nodup ∧ ∃ rep, rep ∈ c.users ∧
      ∀ x, x ∈ c.users ↔ Reach (buildAdjacencyList users friendships) rep x
  comm_cover : ∀ x, (∃ c ∈ cs, x ∈ c.users) ↔ x ∈ visited
  comm_disj : List.Pairwise (fun c d => ∀ x ∈ c.users, x ∉ d.users) cs

theorem findCommunities_fold (users : List User) (friendships : List Friendship)
    (hsrc : ∀ f ∈ friendships, f.source ∈ idsOf users)
    (htgt : ∀ f ∈ friendships, f.target ∈ idsOf users) :
    ∀ (rest processed : List User) (cs : List Community) (visited : List NodeId),
      (∀ u ∈ rest, u ∈ users) →
      CommFoldInv users friendships processed cs visited →
      CommFoldInv users friendships (processed ++ rest)
        (rest.foldl (commStep users friendships) (cs, visited)).1
        (rest.foldl (commStep users friendships) (cs, visited)).2 := by
  intro rest
  induction rest with
  | nil =>
    intro processed cs visited _ hinv
    simpa using hinv
  | cons u rest ih =>
    intro processed cs visited hrest hinv
    have hu_users : u ∈ users := hrest u (List.mem_cons_self _ _)
    have hassoc : processed ++ u :: rest = (processed ++ [u]) ++ rest := by simp
    rw [hassoc, List.foldl_cons]
    by_cases hvis : u.id ∈ visited
    · have hstep : commStep users friendships (cs, visited) u = (cs, visited) := by
        unfold commStep
        rw [if_pos hvis]
      rw [hstep]
      refine ih (processed ++ [u]) cs visited
        (fun v hv => hrest v (List.mem_cons_of_mem _ hv)) ?_
      refine ⟨?_, hinv.vis_closed, hinv.vis_nodup, hinv.vis_sub,
        hinv.comm_char, hinv.comm_cover, hinv.comm_disj⟩
      intro x
      constructor
      · intro hx
        obtain ⟨v, hv, hr⟩ := (hinv.vis_char x).mp hx
        exact ⟨v, List.mem_append_left _ hv, hr⟩
      · rintro ⟨v, hv, hr⟩
        rcases List.mem_append.mp hv with hv' | hv'
        · exact (hinv.vis_char x).mpr ⟨v, hv', hr⟩
        · obtain rfl := List.mem_singleton.mp hv'
          obtain ⟨w, hw, hrw⟩ := (hinv.vis_char v.id).mp hvis
          exact (hinv.vis_char x).mpr ⟨w, hw, reach_trans hrw hr⟩
    · have hu_id : u.id ∈ idsOf users := List.mem_map.mpr ⟨u, hu_users, rfl⟩
      obtain ⟨added, heq, hchar, hnd, hmem, hcl⟩ :=
        dfsVisit_call users friendships hsrc htgt u.id visited hu_id hvis
          hinv.vis_sub hinv.vis_nodup hinv.vis_closed
      have hu_added : u.id ∈ added := (hchar u.id).mpr ⟨0, ReachN.refl⟩
      have hpos : 0 < added.length := List.length_pos_of_mem hu_added
      have hstep : commStep users friendships (cs, visited) u =
          (cs ++ [⟨cs.length, added,
              colors.getD (cs.length % colors.length) ""⟩],
            added.reverse ++ visited) := by
        unfold commStep
        rw [if_neg hvis]
        rw [heq]
        rw [if_pos hpos]
      rw [hstep]
      refine ih (processed ++ [u]) _ _
        (fun v hv => hrest v (List.mem_cons_of_mem _ hv)) ?_
      have hmem_vis2 : ∀ z, z ∈ added.reverse ++ visited ↔
          z ∈ added ∨ z ∈ visited := by
        intro z
        rw [List.mem_append, List.mem_reverse]
      refine ⟨?_, ?_, ?_, ?_, ?_, ?_, ?_⟩
      · -- vis_char
        intro x
        rw [hmem_vis2]
        constructor
        · intro hx
          rcases hx with hx | hx
          · exact ⟨u, List.mem_append_right _ (List.mem_singleton.mpr rfl),
              (hchar x).mp hx⟩
          · obtain ⟨v, hv, hr⟩ := (hinv.vis_char x).mp hx
            exact ⟨v, List.mem_append_left _ hv, hr⟩
        · rintro ⟨v, hv, hr⟩
          rcases List.mem_append.mp hv with hv' | hv'
          · exact Or.inr ((hinv.vis_char x).mpr ⟨v, hv', hr⟩)
          · obtain rfl := List.mem_singleton.mp hv'
            exact Or.inl ((hchar x).mpr hr)
      · -- vis_closed
        intro w hw z hz
        rw [hmem_vis2] at hw
        rw [hmem_vis2]
        exact hcl w hw z hz
      · -- vis_nodup
        rw [List.nodup_append]
        refine ⟨List.nodup_reverse.mpr hnd, hinv.vis_nodup, ?_⟩
        intro a ha hb
        rw [List.mem_reverse] at ha
        exact (hmem a ha).2 hb
      · -- vis_sub
        intro v hv
        rw [hmem_vis2] at hv
        rcases hv with hv | hv
        · exact (hmem v hv).1
        · exact hinv.vis_sub v hv
      · -- comm_char
        intro c hc
        rcases List.mem_append.mp hc with hc' | hc'
        · exact hinv.comm_char c hc'
        · obtain rfl := List.mem_singleton.mp hc'
          exact ⟨hnd, u.id, hu_added, hchar⟩
      · -- comm_cover
        intro x
        rw [hmem_vis2]
        constructor
        · rintro ⟨c, hc, hx⟩
          rcases List.mem_append.mp hc with hc' | hc'
          · exact Or.inr ((hinv.comm_cover x).mp ⟨c, hc', hx⟩)
          · obtain rfl := List.mem_singleton.mp hc'
            exact Or.inl hx
        · intro hx
          rcases hx with hx | hx
          · exact ⟨_, List.mem_append_right _ (List.mem_singleton.mpr rfl), hx⟩
          · obtain ⟨c, hc, hcx⟩ := (hinv.comm_cover x).mpr hx
            exact ⟨c, List.mem_append_left _ hc, hcx⟩
      · -- comm_disj
        rw [List.pairwise_append]
        refine ⟨hinv.comm_disj, by simp, ?_⟩
        intro c hc c' hc' x hx
        obtain rfl := List.mem_singleton.mp hc'
        intro hx'
        exact (hmem x hx').2 ((hinv.comm_cover x).mp ⟨c, hc, hx⟩)


theorem findCommunities_inv (users : List User) (friendships : List Friendship)
    (hsrc : ∀ f ∈ friendships, f.source ∈ idsOf users)
    (htgt : ∀ f ∈ friendships, f.target ∈ idsOf users) :
    CommFoldInv users friendships users
      (users.foldl (commStep users friendships) ([], [])).1
      (users.foldl (commStep users friendships) ([], [])).2 := by
  have hinit : CommFoldInv users friendships [] [] [] := by
    refine ⟨?_, ?_, ?_, ?_, ?_, ?_, ?_⟩ <;> simp
  have := findCommunities_fold users friendships hsrc htgt users [] [] []
    (fun u hu => hu) hinit
  simpa using this

theorem findCommunities_visited_char (users : List User)
    (friendships : List Friendship)
    (hsrc : ∀ f ∈ friendships, f.source ∈ idsOf users)
    (htgt : ∀ f ∈ friendships, f.target ∈ idsOf users) :
    ∀ x, x ∈ (users.foldl (commStep users friendships) ([], [])).2 ↔
      x ∈ idsOf users := by
  intro x
  rw [(findCommunities_inv users friendships hsrc htgt).vis_char x]
  constructor
  · rintro ⟨u, hu, hr⟩
    exact reach_mem_ids hsrc htgt (List.mem_map.mpr ⟨u, hu, rfl⟩) hr
  · intro hx
    obtain ⟨u, hu, rfl⟩ := List.mem_map.mp hx
    exact ⟨u, hu, 0, ReachN.refl⟩

/-- Coverage: the member sets of `findCommunities` cover exactly the node set. -/
theorem findCommunities_cover (users : List User) (friendships : List Friendship)
    (hsrc : ∀ f ∈ friendships, f.source ∈ idsOf users)
    (htgt : ∀ f ∈ friendships, f.target ∈ idsOf users) :
    ∀ x, (∃ c ∈ findCommunities users friendships, x ∈ c.users) ↔
      x ∈ idsOf users := by
  intro x
  unfold findCommunities
  rw [(findCommunities_inv users friendships hsrc htgt).comm_cover x]
  exact findCommunities_visited_char users friendships hsrc htgt x

/-- Two nodes lie in a common community of the community list. -/
def sameCommunity (cs : List Community) (x y : NodeId) : Prop :=
  ∃ c ∈ cs, x ∈ c.users ∧ y ∈ c.users

/-- Membership in a common `findCommunities` community is exactly
connectivity between present nodes. -/
theorem sameCommunity_findCommunities (users : List User)
    (friendships : List Friendship)
    (hsrc : ∀ f ∈ friendships, f.source ∈ idsOf users)
    (htgt : ∀ f ∈ friendships, f.target ∈ idsOf users) :
    ∀ x y, sameCommunity (findCommunities users friendships) x y ↔
      (x ∈ idsOf users ∧
        Reach (buildAdjacencyList users friendships) x y) := by
  intro x y
  have hinv := findCommunities_inv users friendships hsrc htgt
  constructor
  · rintro ⟨c, hc, hx, hy⟩
    obtain ⟨_, rep, _, hcharc⟩ := hinv.comm_char c hc
    have hrx := (hcharc x).mp hx
    have hry := (hcharc y).mp hy
    have hxid : x ∈ idsOf users := by
      have : x ∈ (users.foldl (commStep users friendships) ([], [])).2 :=
        (hinv.comm_cover x).mp ⟨c, hc, hx⟩
      exact (findCommunities_visited_char users friendships hsrc htgt x).mp this
    exact ⟨hxid, reach_trans (reach_symm hsrc htgt hrx) hry⟩
  · rintro ⟨hxid, hr⟩
    obtain ⟨c, hc, hx⟩ := (hinv.comm_cover x).mpr
      ((findCommunities_visited_char users friendships hsrc htgt x).mpr hxid)
    obtain ⟨_, rep, _, hcharc⟩ := hinv.comm_char c hc
    have hrx := (hcharc x).mp hx
    exact ⟨c, hc, hx, (hcharc y).mpr (reach_trans hrx hr)⟩


/-! ## `findCommunitiesUnionFind`

The JS method is one function; it is decomposed here into named pieces
(initialisation of the two maps, the union fold over the friendships, the
grouping fold over the users, and the conversion of the groups map into the
community list) so that each phase can be reasoned about separately. -/

/-- `rank.get(x)!` — all claims only query ids initialised to a rank. -/
def rkGet (rank : List (NodeId × Nat)) (x : NodeId) : Nat :=
  (alookup rank x).getD 0

/-- The recursive `find` with path compression:
`if (parent.get(x) !== x) parent.set(x, find(parent.get(x)!)); return parent.get(x)!`.
Returns the root and the compressed parent map.  The fuel provably suffices
because ranks strictly increase along parent chains. -/
def ufFind : Nat → List (NodeId × NodeId) → NodeId → NodeId × List (NodeId × NodeId)
  | 0, p, x => (x, p)
  | fuel + 1, p, x =>
      match alookup p x with
      | none => (x, p)
      | some px =>
          if px = x then (x, p)
          else
            ((ufFind fuel p px).1, aset (ufFind fuel p px).2 x (ufFind fuel p px).1)

def ufFuel (friendships : List Friendship) : Nat := friendships.length + 2

/-- `union(x, y)` with union by rank. -/
def ufUnion (fuel : Nat) (p : List (NodeId × NodeId)) (rank : List (NodeId × Nat))
    (x y : NodeId) : List (NodeId × NodeId) × List (NodeId × Nat) :=
  let fx := ufFind fuel p x
  let fy := ufFind fuel fx.2 y
  if fx.1 = fy.1 then (fy.2, rank)
  else if rkGet rank fx.1 < rkGet rank fy.1 then (aset fy.2 fx.1 fy.1, rank)
  else if rkGet rank fy.1 < rkGet rank fx.1 then (aset fy.2 fy.1 fx.1, rank)
  else (aset fy.2 fy.1 fx.1, aset rank fx.1 (rkGet rank fx.1 + 1))

/-- `groups.get(root).push(user.id)`, creating the entry if missing. -/
def grAdd (g : List (NodeId × List NodeId)) (root uid : NodeId) :
    List (NodeId × List NodeId) :=
  if (alookup g root).isSome then
    g.map (fun q => if q.1 = root then (q.1, q.2 ++ [uid]) else q)
  else g ++ [(root, [uid])]

/-- `groups.forEach`: one community per group, sequential ids. -/
def groupsToCommunities : Nat → List (NodeId × List NodeId) → List Community
  | _, [] => []
  | i, q :: rest =>
      ⟨i, q.2, colors.getD (i % colors.length) ""⟩ ::
        groupsToCommunities (i + 1) rest

/-- `parent.set(user.id, user.id)` for every user. -/
def ufParentInit (users : List User) : List (NodeId × NodeId) :=
  users.foldl (fun m u => aset m u.id u.id) []

/-- `rank.set(user.id, 0)` for every user. -/
def ufRankInit (users : List User) : List (NodeId × Nat) :=
  users.foldl (fun m u => aset m u.id 0) []

/-- The union phase over all friendships. -/
def ufAfterUnions (users : List User) (friendships : List Friendship) :
    List (NodeId × NodeId) × List (NodeId × Nat) :=
  friendships.foldl
    (fun pr f => ufUnion (ufFuel friendships) pr.1 pr.2 f.source f.target)
    (ufParentInit users, ufRankInit users)

/-- The grouping phase: `find(user.id)` (which compresses, hence the threaded
parent map) and push into the root's group. -/
def ufGrouping (users : List User) (friendships : List Friendship) :
    List (NodeId × List NodeId) × List (NodeId × NodeId) :=
  users.foldl
    (fun acc u =>
      (grAdd acc.1 (ufFind (ufFuel friendships) acc.2 u.id).1 u.id,
       (ufFind (ufFuel friendships) acc.2 u.id).2))
    ([], (ufAfterUnions users friendships).1)

/-- `findCommunitiesUnionFind()`. -/
def findCommunitiesUnionFind (users : List User) (friendships : List Friendship) :
    List Community :=
  groupsToCommunities 0 (ufGrouping users friendships).1

/-! ### The union-find forest and its semantics -/

/-- `RootsTo p x r`: following parent links from `x` reaches the root `r`
(a fixpoint of the map). -/
inductive RootsTo (p : List (NodeId × NodeId)) : NodeId → NodeId → Prop
  | self {x : NodeId} : alookup p x = some x → RootsTo p x x
  | step {x y r : NodeId} : alookup p x = some y → y ≠ x → RootsTo p y r →
      RootsTo p x r

theorem rootsTo_unique {p : List (NodeId × NodeId)} {x r r' : NodeId}
    (h1 : RootsTo p x r) (h2 : RootsTo p x r') : r = r' := by
  induction h1 generalizing r' with
  | self hx =>
    cases h2 with
    | self _ => rfl
    | step hy hne _ =>
      rw [hx] at hy
      exact absurd (Option.some_inj.mp hy).symm hne
  | step hx hne hr ih =>
    cases h2 with
    | self hx' =>
      rw [hx'] at hx
      exact absurd (Option.some_inj.mp hx).symm hne
    | step hy hne' hr' =>
      rw [hx] at hy
      obtain rfl := Option.some_inj.mp hy
      exact ih hr'

theorem rootsTo_root {p : List (NodeId × NodeId)} {x r : NodeId}
    (h : RootsTo p x r) : alookup p r = some r := by
  induction h with
  | self hx => exact hx
  | step _ _ _ ih => exact ih

theorem rootsTo_rank_le {p : List (NodeId × NodeId)}
    {rank : List (NodeId × Nat)}
    (hrank : ∀ x y, alookup p x = some y → y ≠ x → rkGet rank x < rkGet rank y)
    {x r : NodeId} (h : RootsTo p x r) : rkGet rank x ≤ rkGet rank r := by
  induction h with
  | self _ => exact le_refl _
  | step hx hne _ ih =>
    have := hrank _ _ hx hne
    omega

theorem rootsTo_exists {p : List (NodeId × NodeId)} {rank : List (NodeId × Nat)}
    {B : Nat}
    (hvals : ∀ x y, alookup p x = some y → (alookup p y).isSome)
    (hrank : ∀ x y, alookup p x = some y → y ≠ x → rkGet rank x < rkGet rank y)
    (hbound : ∀ x, rkGet rank x ≤ B) :
    ∀ (k : Nat) (x : NodeId), (alookup p x).isSome → B < k + rkGet rank x →
      ∃ r, RootsTo p x r := by
  intro k
  induction k with
  | zero =>
    intro x _ hk
    have := hbound x
    omega
  | succ k ih =>
    intro x hx hk
    obtain ⟨px, hpx⟩ := Option.isSome_iff_exists.mp hx
    by_cases hpe : px = x
    · subst hpe
      exact ⟨px, RootsTo.self hpx⟩
    · have hlt := hrank x px hpx hpe
      obtain ⟨r, hr⟩ := ih px (hvals x px hpx) (by omega)
      exact ⟨r, RootsTo.step hpx hpe hr⟩

theorem aset_isSome {β : Type} {m : List (NodeId × β)} {x : NodeId} (v : β)
    (hx : (alookup m x).isSome) (z : NodeId) :
    (alookup (aset m x v) z).isSome = (alookup m z).isSome := by
  rw [alookup_aset]
  by_cases hzx : z = x
  · subst hzx
    simp [hx]
  · rw [if_neg hzx]

/-- Re-pointing a node directly to its root preserves every `RootsTo` fact. -/
theorem rootsTo_update {q : List (NodeId × NodeId)} {x r : NodeId}
    (hxr : RootsTo q x r) (hroot : alookup q r = some r) (hne : x ≠ r)
    (hkey : (alookup q x).isSome) :
    ∀ a b, RootsTo (aset q x r) a b ↔ RootsTo q a b := by
  have hlook : ∀ z, alookup (aset q x r) z =
      if z = x then some r else alookup q z := fun z => alookup_aset q x r z
  intro a b
  constructor
  · intro h
    induction h with
    | self ha =>
      rename_i c
      rw [hlook c] at ha
      by_cases hcx : c = x
      · rw [if_pos hcx] at ha
        exfalso
        apply hne
        rw [← hcx]
        exact (Option.some_inj.mp ha).symm
      · rw [if_neg hcx] at ha
        exact RootsTo.self ha
    | step ha hne2 hr2 ih =>
      rename_i c y d
      rw [hlook c] at ha
      by_cases hcx : c = x
      · rw [if_pos hcx] at ha
        have hyr : r = y := Option.some_inj.mp ha
        have hrooty : alookup q y = some y := by rw [← hyr]; exact hroot
        have hyd : y = d := rootsTo_unique (RootsTo.self hrooty) ih
        rw [hcx, ← hyd, ← hyr]
        exact hxr
      · rw [if_neg hcx] at ha
        exact RootsTo.step ha hne2 ih
  · intro h
    induction h with
    | self ha =>
      rename_i c
      by_cases hcx : c = x
      · exfalso
        apply hne
        have hxr2 : RootsTo q c r := by rw [hcx]; exact hxr
        have h2 : c = r := rootsTo_unique (RootsTo.self ha) hxr2
        rw [← hcx]
        exact h2
      · refine RootsTo.self ?_
        rw [hlook c, if_neg hcx]
        exact ha
    | step ha hne2 hr2 ih =>
      rename_i c y d
      by_cases hcx : c = x
      · have hxr2 : RootsTo q c r := by rw [hcx]; exact hxr
        have hcd : RootsTo q c d := RootsTo.step ha hne2 hr2
        have hdr : d = r := rootsTo_unique hcd hxr2
        rw [hdr]
        have hrc : r ≠ c := by
          rw [hcx]
          exact fun hh => hne hh.symm
        refine RootsTo.step ?_ hrc (RootsTo.self ?_)
        · rw [hlook c, if_pos hcx]
        · rw [hlook r, if_neg (fun hh : r = x => hne hh.symm)]
          exact hroot
      · refine RootsTo.step ?_ hne2 ih
        rw [hlook c, if_neg hcx]
        exact ha


/-- Linking the root `ra` under the distinct root `rb` merges exactly the two
classes. -/
theorem rootsTo_link {q : List (NodeId × NodeId)} {ra rb : NodeId}
    (hra : alookup q ra = some ra) (hrb : alookup q rb = some rb)
    (hne : ra ≠ rb) :
    ∀ c d, RootsTo (aset q ra rb) c d ↔
      ((RootsTo q c d ∧ d ≠ ra) ∨ (RootsTo q c ra ∧ d = rb)) := by
  have hlook : ∀ z, alookup (aset q ra rb) z =
      if z = ra then some rb else alookup q z :=
    fun z => alookup_aset q ra rb z
  have hbne : rb ≠ ra := fun hh => hne hh.symm
  intro c d
  constructor
  · intro h
    induction h with
    | self ha =>
      rename_i e
      rw [hlook e] at ha
      by_cases hea : e = ra
      · rw [if_pos hea] at ha
        exfalso
        apply hne
        rw [← hea]
        exact (Option.some_inj.mp ha).symm
      · rw [if_neg hea] at ha
        exact Or.inl ⟨RootsTo.self ha, hea⟩
    | step ha hne2 hr2 ih =>
      rename_i e y f
      rw [hlook e] at ha
      by_cases hea : e = ra
      · rw [if_pos hea] at ha
        have hyb : rb = y := Option.some_inj.mp ha
        rcases ih with ⟨hyd, hdne⟩ | ⟨hyra, hdb⟩
        · have hdb : f = rb :=
            rootsTo_unique hyd (by rw [← hyb]; exact RootsTo.self hrb)
          refine Or.inr ⟨?_, hdb⟩
          rw [hea]
          exact RootsTo.self hra
        · exfalso
          apply hne
          have hba : RootsTo q rb ra := by rw [hyb]; exact hyra
          exact rootsTo_unique hba (RootsTo.self hrb)
      · rw [if_neg hea] at ha
        rcases ih with ⟨hyd, hdne⟩ | ⟨hyra, hdb⟩
        · exact Or.inl ⟨RootsTo.step ha hne2 hyd, hdne⟩
        · exact Or.inr ⟨RootsTo.step ha hne2 hyra, hdb⟩
  · intro h
    have helper1 : ∀ e f, RootsTo q e f → f ≠ ra →
        RootsTo (aset q ra rb) e f := by
      intro e f hef
      induction hef with
      | self ha =>
        intro hfra
        refine RootsTo.self ?_
        rw [hlook _, if_neg hfra]
        exact ha
      | step ha hne2 hr2 ih =>
        rename_i e' y f'
        intro hfra
        by_cases hea : e' = ra
        · exfalso
          rw [hea, hra] at ha
          apply hne2
          rw [← Option.some_inj.mp ha, hea]
        · refine RootsTo.step ?_ hne2 (ih hfra)
          rw [hlook e', if_neg hea]
          exact ha
    have helper2 : ∀ e f, RootsTo q e f → f = ra →
        RootsTo (aset q ra rb) e rb := by
      intro e f hef
      induction hef with
      | self ha =>
        rename_i e'
        intro hfra
        refine RootsTo.step ?_ ?_ (RootsTo.self ?_)
        · rw [hlook e', if_pos hfra]
        · intro hh
          apply hne
          rw [← hfra, ← hh]
        · rw [hlook rb, if_neg hbne]
          exact hrb
      | step ha hne2 hr2 ih =>
        rename_i e' y f'
        intro hfra
        by_cases hea : e' = ra
        · exfalso
          rw [hea, hra] at ha
          apply hne2
          rw [← Option.some_inj.mp ha, hea]
        · refine RootsTo.step ?_ hne2 (ih hfra)
          rw [hlook e', if_neg hea]
          exact ha
    rcases h with ⟨hcd, hdne⟩ | ⟨hcra, hdb⟩
    · exact helper1 c d hcd hdne
    · rw [hdb]
      exact helper2 c ra hcra rfl


/-- Full specification of `find` with path compression: it returns the root of
its argument, preserves the `RootsTo` relation, the key set, the
values-are-keys property and the rank-increase invariant. -/
theorem ufFind_spec (rank : List (NodeId × Nat)) (B : Nat)
    (hbound : ∀ x, rkGet rank x ≤ B) (p : List (NodeId × NodeId))
    (hvals : ∀ a b, alookup p a = some b → (alookup p b).isSome)
    (hrank : ∀ a b, alookup p a = some b → b ≠ a → rkGet rank a < rkGet rank b) :
    ∀ (fuel : Nat) (x : NodeId),
      (alookup p x).isSome → B < fuel + rkGet rank x →
      RootsTo p x (ufFind fuel p x).1 ∧
      (∀ a b, RootsTo (ufFind fuel p x).2 a b ↔ RootsTo p a b) ∧
      (∀ z, (alookup (ufFind fuel p x).2 z).isSome = (alookup p z).isSome) ∧
      (∀ a b, alookup (ufFind fuel p x).2 a = some b →
        (alookup (ufFind fuel p x).2 b).isSome) ∧
      (∀ a b, alookup (ufFind fuel p x).2 a = some b → b ≠ a →
        rkGet rank a < rkGet rank b) := by
  intro fuel
  induction fuel with
  | zero =>
    intro x _ hk
    have := hbound x
    omega
  | succ fuel ih =>
    intro x hx hk
    obtain ⟨px, hpx⟩ := Option.isSome_iff_exists.mp hx
    by_cases hpe : px = x
    · have hres : ufFind (fuel + 1) p x = (x, p) := by
        simp only [ufFind, hpx]
        rw [if_pos hpe]
      rw [hres]
      subst hpe
      exact ⟨RootsTo.self hpx, fun a b => Iff.rfl, fun z => rfl, hvals, hrank⟩
    · have hres : ufFind (fuel + 1) p x =
          ((ufFind fuel p px).1, aset (ufFind fuel p px).2 x (ufFind fuel p px).1) := by
        simp only [ufFind, hpx]
        rw [if_neg hpe]
      have hlt := hrank x px hpx hpe
      obtain ⟨hroots, hequiv, hkeys, hvals2, hrank2⟩ :=
        ih px (hvals x px hpx) (by omega)
      have hxr : RootsTo p x (ufFind fuel p px).1 :=
        RootsTo.step hpx hpe hroots
      have hxr_q : RootsTo (ufFind fuel p px).2 x (ufFind fuel p px).1 :=
        (hequiv x _).mpr hxr
      have hroot_q : alookup (ufFind fuel p px).2 (ufFind fuel p px).1 =
          some (ufFind fuel p px).1 := rootsTo_root hxr_q
      have hrk_le : rkGet rank px ≤ rkGet rank (ufFind fuel p px).1 :=
        rootsTo_rank_le hrank hroots
      have hxner : x ≠ (ufFind fuel p px).1 := by
        intro hh
        rw [← hh] at hrk_le
        omega
      have hkey_q : (alookup (ufFind fuel p px).2 x).isSome := by
        rw [hkeys x]
        rw [hpx]
        rfl
      have hupd := rootsTo_update hxr_q hroot_q hxner hkey_q
      rw [hres]
      refine ⟨hxr, ?_, ?_, ?_, ?_⟩
      · intro a b
        rw [hupd a b]
        exact hequiv a b
      · intro z
        rw [aset_isSome _ hkey_q z]
        exact hkeys z
      · intro a b hab
        rw [alookup_aset] at hab
        by_cases hax : a = x
        · rw [if_pos hax] at hab
          obtain rfl := Option.some_inj.mp hab
          rw [aset_isSome _ hkey_q]
          rw [hroot_q]
          rfl
        · rw [if_neg hax] at hab
          rw [aset_isSome _ hkey_q]
          exact hvals2 a b hab
      · intro a b hab hba
        rw [alookup_aset] at hab
        by_cases hax : a = x
        · rw [if_pos hax] at hab
          obtain rfl := Option.some_inj.mp hab
          subst hax
          omega
        · rw [if_neg hax] at hab
          exact hrank2 a b hab hba


/-! ### Connectivity under edge insertion -/

theorem edgeBetween_symm {E : List Friendship} {x y : NodeId}
    (h : EdgeBetween E x y) : EdgeBetween E y x := by
  obtain ⟨f, hf, hc⟩ := h
  exact ⟨f, hf, hc.symm⟩

theorem edgeConn_symm {E : List Friendship} {x y : NodeId}
    (h : EdgeConn E x y) : EdgeConn E y x := by
  induction h with
  | refl => exact Relation.ReflTransGen.refl
  | tail _ hstep ih =>
    exact Relation.ReflTransGen.trans
      (Relation.ReflTransGen.single (edgeBetween_symm hstep)) ih

theorem edgeBetween_append_single (E : List Friendship) (e : Friendship)
    (x y : NodeId) :
    EdgeBetween (E ++ [e]) x y ↔ EdgeBetween E x y ∨
      (e.source = x ∧ e.target = y) ∨ (e.source = y ∧ e.target = x) := by
  unfold EdgeBetween
  constructor
  · rintro ⟨f, hf, hc⟩
    rcases List.mem_append.mp hf with hf' | hf'
    · exact Or.inl ⟨f, hf', hc⟩
    · obtain rfl := List.mem_singleton.mp hf'
      exact Or.inr hc
  · rintro (⟨f, hf, hc⟩ | hc)
    · exact ⟨f, List.mem_append_left _ hf, hc⟩
    · exact ⟨e, List.mem_append_right _ (List.mem_singleton.mpr rfl), hc⟩

theorem edgeConn_mono (E : List Friendship) (e : Friendship) {x y : NodeId}
    (h : EdgeConn E x y) : EdgeConn (E ++ [e]) x y := by
  induction h with
  | refl => exact Relation.ReflTransGen.refl
  | tail _ hstep ih =>
    refine Relation.ReflTransGen.tail ih ?_
    exact (edgeBetween_append_single E e _ _).mpr (Or.inl hstep)

theorem edgeConn_append_single (E : List Friendship) (e : Friendship)
    (x y : NodeId) :
    EdgeConn (E ++ [e]) x y ↔
      EdgeConn E x y ∨
      (EdgeConn E x e.source ∧ EdgeConn E e.target y) ∨
      (EdgeConn E x e.target ∧ EdgeConn E e.source y) := by
  constructor
  · intro h
    induction h with
    | refl => exact Or.inl Relation.ReflTransGen.refl
    | tail hxb hstep ih =>
      rename_i b c
      rcases (edgeBetween_append_single E e b c).mp hstep with hold | hnew
      · rcases ih with h1 | ⟨h1, h2⟩ | ⟨h1, h2⟩
        · exact Or.inl (Relation.ReflTransGen.tail h1 hold)
        · exact Or.inr (Or.inl ⟨h1, Relation.ReflTransGen.tail h2 hold⟩)
        · exact Or.inr (Or.inr ⟨h1, Relation.ReflTransGen.tail h2 hold⟩)
      · rcases hnew with ⟨hsb, htc⟩ | ⟨hsc, htb⟩
        · -- b = e.source, c = e.target
          rcases ih with h1 | ⟨h1, h2⟩ | ⟨h1, h2⟩
          · exact Or.inr (Or.inl ⟨by rw [hsb]; exact h1,
              by rw [htc]; exact Relation.ReflTransGen.refl⟩)
          · exact Or.inr (Or.inl ⟨h1,
              by rw [htc]; exact Relation.ReflTransGen.refl⟩)
          · exact Or.inl (by
              rw [← htc]
              exact h1)
        · -- b = e.target, c = e.source
          rcases ih with h1 | ⟨h1, h2⟩ | ⟨h1, h2⟩
          · exact Or.inr (Or.inr ⟨by rw [htb]; exact h1,
              by rw [hsc]; exact Relation.ReflTransGen.refl⟩)
          · exact Or.inl (by
              rw [← hsc]
              exact h1)
          · exact Or.inr (Or.inr ⟨h1,
              by rw [hsc]; exact Relation.ReflTransGen.refl⟩)
  · intro h
    have hedge : EdgeConn (E ++ [e]) e.source e.target :=
      Relation.ReflTransGen.single
        ((edgeBetween_append_single E e _ _).mpr (Or.inr (Or.inl ⟨rfl, rfl⟩)))
    rcases h with h1 | ⟨h1, h2⟩ | ⟨h1, h2⟩
    · exact edgeConn_mono E e h1
    · exact Relation.ReflTransGen.trans (edgeConn_mono E e h1)
        (Relation.ReflTransGen.trans hedge (edgeConn_mono E e h2))
    · exact Relation.ReflTransGen.trans (edgeConn_mono E e h1)
        (Relation.ReflTransGen.trans (edgeConn_symm hedge) (edgeConn_mono E e h2))

theorem sameRoot_iff_root_eq {p : List (NodeId × NodeId)} {x y gx gy : NodeId}
    (hx : RootsTo p x gx) (hy : RootsTo p y gy) :
    (∃ r, RootsTo p x r ∧ RootsTo p y r) ↔ gx = gy := by
  constructor
  · rintro ⟨r, h1, h2⟩
    rw [rootsTo_unique hx h1, rootsTo_unique hy h2]
  · intro h
    exact ⟨gx, hx, h ▸ hy⟩


/-- Invariant of the union-find state after processing the edge list `E`:
the keys are the node ids, values are keys, ranks strictly increase along
parent links and are bounded by `B`, and two present ids share a root exactly
when they are connected by processed edges. -/
structure UFInv (users : List User) (p : List (NodeId × NodeId))
    (rank : List (NodeId × Nat)) (E : List Friendship) (B : Nat) : Prop where
  keys : ∀ x, (alookup p x).isSome ↔ x ∈ idsOf users
  vals : ∀ a b, alookup p a = some b → (alookup p b).isSome
  rank_inc : ∀ a b, alookup p a = some b → b ≠ a → rkGet rank a < rkGet rank b
  rank_bound : ∀ x, rkGet rank x ≤ B
  sem : ∀ x y, x ∈ idsOf users → y ∈ idsOf users →
      ((∃ r, RootsTo p x r ∧ RootsTo p y r) ↔ EdgeConn E x y)

theorem rkGet_aset (rank : List (NodeId × Nat)) (x : NodeId) (v : Nat)
    (z : NodeId) :
    rkGet (aset rank x v) z = if z = x then v else rkGet rank z := by
  unfold rkGet
  rw [alookup_aset]
  by_cases hzx : z = x
  · simp [hzx]
  · rw [if_neg hzx, if_neg hzx]

theorem ite_root_eq (gx gy rx ry : NodeId) (hne : rx ≠ ry) :
    ((if gx = rx then ry else gx) = (if gy = rx then ry else gy)) ↔
      (gx = gy ∨ (gx = rx ∧ gy = ry) ∨ (gx = ry ∧ gy = rx)) := by
  by_cases h1 : gx = rx <;> by_cases h2 : gy = rx
  · subst h1
    subst h2
    simp
  · subst h1
    rw [if_pos rfl, if_neg h2]
    constructor
    · intro h
      exact Or.inr (Or.inl ⟨rfl, h.symm⟩)
    · rintro (h | ⟨_, h⟩ | ⟨h, _⟩)
      · exact absurd h.symm h2
      · exact h.symm
      · exact absurd h hne
  · subst h2
    rw [if_neg h1, if_pos rfl]
    constructor
    · intro h
      exact Or.inr (Or.inr ⟨h, rfl⟩)
    · rintro (h | ⟨h, _⟩ | ⟨h, _⟩)
      · exact absurd h h1
      · exact absurd h h1
      · exact h
  · rw [if_neg h1, if_neg h2]
    constructor
    · intro h
      exact Or.inl h
    · rintro (h | ⟨h, _⟩ | ⟨_, h⟩)
      · exact h
      · exact absurd h h1
      · exact absurd h h2

set_option maxHeartbeats 1600000 in
/-- `union` preserves the invariant, with the new edge recorded in the
connectivity and the rank bound increased by one. -/
theorem ufUnion_spec (users : List User) (p : List (NodeId × NodeId))
    (rank : List (NodeId × Nat)) (E : List Friendship) (B : Nat)
    (hinv : UFInv users p rank E B) (f : Friendship)
    (hfs : f.source ∈ idsOf users) (hft : f.target ∈ idsOf users)
    (fuel : Nat) (hfuel : B < fuel) :
    UFInv users (ufUnion fuel p rank f.source f.target).1
      (ufUnion fuel p rank f.source f.target).2 (E ++ [f]) (B + 1) := by
  obtain ⟨hkeys, hvals, hrank, hbound, hsem⟩ := hinv
  have hxs : (alookup p f.source).isSome := (hkeys _).mpr hfs
  obtain ⟨hroot1, hequiv1, hkeys1, hvals1, hrank1⟩ :=
    ufFind_spec rank B hbound p hvals hrank fuel f.source hxs (by omega)
  have hxt : (alookup (ufFind fuel p f.source).2 f.target).isSome := by
    rw [hkeys1]
    exact (hkeys _).mpr hft
  obtain ⟨hroot2, hequiv2, hkeys2, hvals2, hrank2⟩ :=
    ufFind_spec rank B hbound (ufFind fuel p f.source).2 hvals1 hrank1 fuel
      f.target hxt (by omega)
  have hrootx : RootsTo p f.source (ufFind fuel p f.source).1 := hroot1
  have hrooty : RootsTo p f.target
      (ufFind fuel (ufFind fuel p f.source).2 f.target).1 :=
    (hequiv1 _ _).mp hroot2
  have hequiv12 : ∀ a b,
      RootsTo (ufFind fuel (ufFind fuel p f.source).2 f.target).2 a b ↔
        RootsTo p a b :=
    fun a b => (hequiv2 a b).trans (hequiv1 a b)
  have hkeys12 : ∀ z,
      (alookup (ufFind fuel (ufFind fuel p f.source).2 f.target).2 z).isSome ↔
        z ∈ idsOf users := by
    intro z
    rw [hkeys2 z, hkeys1 z]
    exact hkeys z
  have hrx_root : alookup p (ufFind fuel p f.source).1 =
      some (ufFind fuel p f.source).1 := rootsTo_root hrootx
  have hry_root : alookup p (ufFind fuel (ufFind fuel p f.source).2 f.target).1 =
      some (ufFind fuel (ufFind fuel p f.source).2 f.target).1 :=
    rootsTo_root hrooty
  have hrx_root2 : alookup (ufFind fuel (ufFind fuel p f.source).2 f.target).2
      (ufFind fuel p f.source).1 = some (ufFind fuel p f.source).1 :=
    rootsTo_root ((hequiv12 _ _).mpr (RootsTo.self hrx_root))
  have hry_root2 : alookup (ufFind fuel (ufFind fuel p f.source).2 f.target).2
      (ufFind fuel (ufFind fuel p f.source).2 f.target).1 =
      some (ufFind fuel (ufFind fuel p f.source).2 f.target).1 :=
    rootsTo_root ((hequiv12 _ _).mpr (RootsTo.self hry_root))
  have hroots_ex : ∀ z, z ∈ idsOf users → ∃ g, RootsTo p z g := by
    intro z hz
    exact rootsTo_exists hvals hrank hbound (B + 1) z ((hkeys z).mpr hz) (by omega)
  have hconn_iff : ∀ z gz w gw, z ∈ idsOf users → w ∈ idsOf users →
      RootsTo p z gz → RootsTo p w gw → (EdgeConn E z w ↔ gz = gw) := by
    intro z gz w gw hz hw hgz hgw
    rw [← hsem z w hz hw]
    exact sameRoot_iff_root_eq hgz hgw
  simp only [ufUnion]
  by_cases hxy : (ufFind fuel p f.source).1 =
      (ufFind fuel (ufFind fuel p f.source).2 f.target).1
  · rw [if_pos hxy]
    have hconn_st : EdgeConn E f.source f.target :=
      (hsem f.source f.target hfs hft).mp
        ⟨(ufFind fuel p f.source).1, hrootx, by rw [hxy]; exact hrooty⟩
    refine ⟨hkeys12, hvals2, hrank2, fun z => le_trans (hbound z) (by omega), ?_⟩
    intro x y hx hy
    have hsr : (∃ r, RootsTo (ufFind fuel (ufFind fuel p f.source).2 f.target).2
        x r ∧ RootsTo (ufFind fuel (ufFind fuel p f.source).2 f.target).2 y r) ↔
        (∃ r, RootsTo p x r ∧ RootsTo p y r) := by
      constructor
      · rintro ⟨r, h1, h2⟩
        exact ⟨r, (hequiv12 _ _).mp h1, (hequiv12 _ _).mp h2⟩
      · rintro ⟨r, h1, h2⟩
        exact ⟨r, (hequiv12 _ _).mpr h1, (hequiv12 _ _).mpr h2⟩
    rw [hsr, hsem x y hx hy, edgeConn_append_single]
    constructor
    · exact Or.inl
    · rintro (h | ⟨h1, h2⟩ | ⟨h1, h2⟩)
      · exact h
      · exact Relation.ReflTransGen.trans h1
          (Relation.ReflTransGen.trans hconn_st h2)
      · exact Relation.ReflTransGen.trans h1
          (Relation.ReflTransGen.trans (edgeConn_symm hconn_st) h2)
  · rw [if_neg hxy]
    -- facts shared by the three linking branches
    have hmain : ∀ lo wi,
        ((lo = (ufFind fuel p f.source).1 ∧
          wi = (ufFind fuel (ufFind fuel p f.source).2 f.target).1) ∨
         (lo = (ufFind fuel (ufFind fuel p f.source).2 f.target).1 ∧
          wi = (ufFind fuel p f.source).1)) →
        (∀ z, (alookup (aset (ufFind fuel (ufFind fuel p f.source).2 f.target).2
            lo wi) z).isSome ↔ z ∈ idsOf users) ∧
        (∀ a b, alookup (aset (ufFind fuel (ufFind fuel p f.source).2 f.target).2
            lo wi) a = some b →
          (alookup (aset (ufFind fuel (ufFind fuel p f.source).2 f.target).2
            lo wi) b).isSome) ∧
        (∀ x y, x ∈ idsOf users → y ∈ idsOf users →
          ((∃ r, RootsTo (aset (ufFind fuel (ufFind fuel p f.source).2
              f.target).2 lo wi) x r ∧
            RootsTo (aset (ufFind fuel (ufFind fuel p f.source).2 f.target).2
              lo wi) y r) ↔ EdgeConn (E ++ [f]) x y)) := by
      intro lo wi hcase
      have hlo_root : alookup (ufFind fuel (ufFind fuel p f.source).2
          f.target).2 lo = some lo := by
        rcases hcase with ⟨rfl, _⟩ | ⟨rfl, _⟩
        · exact hrx_root2
        · exact hry_root2
      have hwi_root : alookup (ufFind fuel (ufFind fuel p f.source).2
          f.target).2 wi = some wi := by
        rcases hcase with ⟨_, rfl⟩ | ⟨_, rfl⟩
        · exact hry_root2
        · exact hrx_root2
      have hlowi : lo ≠ wi := by
        rcases hcase with ⟨rfl, rfl⟩ | ⟨rfl, rfl⟩
        · exact hxy
        · exact fun hh => hxy hh.symm
      have hlink := rootsTo_link hlo_root hwi_root hlowi
      have hlo_key : (alookup (ufFind fuel (ufFind fuel p f.source).2
          f.target).2 lo).isSome := by rw [hlo_root]; rfl
      refine ⟨?_, ?_, ?_⟩
      · intro z
        rw [aset_isSome _ hlo_key z]
        exact hkeys12 z
      · intro a b hab
        rw [alookup_aset] at hab
        rw [aset_isSome _ hlo_key]
        by_cases hax : a = lo
        · rw [if_pos hax] at hab
          obtain rfl := Option.some_inj.mp hab
          rw [hwi_root]
          rfl
        · rw [if_neg hax] at hab
          exact hvals2 a b hab
      · intro x y hx hy
        obtain ⟨gx, hgx⟩ := hroots_ex x hx
        obtain ⟨gy, hgy⟩ := hroots_ex y hy
        have hgx2 : RootsTo (ufFind fuel (ufFind fuel p f.source).2 f.target).2
            x gx := (hequiv12 _ _).mpr hgx
        have hgy2 : RootsTo (ufFind fuel (ufFind fuel p f.source).2 f.target).2
            y gy := (hequiv12 _ _).mpr hgy
        have hx3 : RootsTo (aset (ufFind fuel (ufFind fuel p f.source).2
            f.target).2 lo wi) x (if gx = lo then wi else gx) := by
          by_cases hgl : gx = lo
          · rw [if_pos hgl]
            exact (hlink x wi).mpr (Or.inr ⟨by rw [← hgl]; exact hgx2, rfl⟩)
          · rw [if_neg hgl]
            exact (hlink x gx).mpr (Or.inl ⟨hgx2, hgl⟩)
        have hy3 : RootsTo (aset (ufFind fuel (ufFind fuel p f.source).2
            f.target).2 lo wi) y (if gy = lo then wi else gy) := by
          by_cases hgl : gy = lo
          · rw [if_pos hgl]
            exact (hlink y wi).mpr (Or.inr ⟨by rw [← hgl]; exact hgy2, rfl⟩)
          · rw [if_neg hgl]
            exact (hlink y gy).mpr (Or.inl ⟨hgy2, hgl⟩)
        rw [sameRoot_iff_root_eq hx3 hy3]
        rw [edgeConn_append_single]
        have h1 : EdgeConn E x y ↔ gx = gy := hconn_iff x gx y gy hx hy hgx hgy
        have h2 : EdgeConn E x f.source ↔ gx = (ufFind fuel p f.source).1 :=
          hconn_iff x gx f.source _ hx hfs hgx hrootx
        have h3 : EdgeConn E f.target y ↔
            gy = (ufFind fuel (ufFind fuel p f.source).2 f.target).1 := by
          constructor
          · intro h
            exact ((hconn_iff y gy f.target _ hy hft hgy hrooty).mp
              (edgeConn_symm h))
          · intro h
            exact edgeConn_symm
              ((hconn_iff y gy f.target _ hy hft hgy hrooty).mpr h)
        have h4 : EdgeConn E x f.target ↔
            gx = (ufFind fuel (ufFind fuel p f.source).2 f.target).1 :=
          hconn_iff x gx f.target _ hx hft hgx hrooty
        have h5 : EdgeConn E f.source y ↔ gy = (ufFind fuel p f.source).1 := by
          constructor
          · intro h
            exact ((hconn_iff y gy f.source _ hy hfs hgy hrootx).mp
              (edgeConn_symm h))
          · intro h
            exact edgeConn_symm
              ((hconn_iff y gy f.source _ hy hfs hgy hrootx).mpr h)
        rw [h1, h2, h3, h4, h5]
        rcases hcase with ⟨rfl, rfl⟩ | ⟨rfl, rfl⟩
        · exact ite_root_eq gx gy _ _ hxy
        · rw [ite_root_eq gx gy _ _ (fun hh => hxy hh.symm)]
          tauto
    by_cases hr1 : rkGet rank (ufFind fuel p f.source).1 <
        rkGet rank (ufFind fuel (ufFind fuel p f.source).2 f.target).1
    · rw [if_pos hr1]
      obtain ⟨hk3, hv3, hs3⟩ := hmain _ _ (Or.inl ⟨rfl, rfl⟩)
      refine ⟨hk3, hv3, ?_, fun z => le_trans (hbound z) (by omega), hs3⟩
      intro a b hab hba
      rw [alookup_aset] at hab
      by_cases hax : a = (ufFind fuel p f.source).1
      · rw [if_pos hax] at hab
        obtain rfl := Option.some_inj.mp hab
        subst hax
        exact hr1
      · rw [if_neg hax] at hab
        exact hrank2 a b hab hba
    · rw [if_neg hr1]
      by_cases hr2 : rkGet rank (ufFind fuel (ufFind fuel p f.source).2
          f.target).1 < rkGet rank (ufFind fuel p f.source).1
      · rw [if_pos hr2]
        obtain ⟨hk3, hv3, hs3⟩ := hmain _ _ (Or.inr ⟨rfl, rfl⟩)
        refine ⟨hk3, hv3, ?_, fun z => le_trans (hbound z) (by omega), hs3⟩
        intro a b hab hba
        rw [alookup_aset] at hab
        by_cases hax : a = (ufFind fuel (ufFind fuel p f.source).2 f.target).1
        · rw [if_pos hax] at hab
          obtain rfl := Option.some_inj.mp hab
          subst hax
          exact hr2
        · rw [if_neg hax] at hab
          exact hrank2 a b hab hba
      · rw [if_neg hr2]
        obtain ⟨hk3, hv3, hs3⟩ := hmain _ _ (Or.inr ⟨rfl, rfl⟩)
        have hreq : rkGet rank (ufFind fuel p f.source).1 =
            rkGet rank (ufFind fuel (ufFind fuel p f.source).2 f.target).1 := by
          omega
        refine ⟨hk3, hv3, ?_, ?_, hs3⟩
        · intro a b hab hba
          rw [rkGet_aset, rkGet_aset]
          rw [alookup_aset] at hab
          by_cases hax : a = (ufFind fuel (ufFind fuel p f.source).2 f.target).1
          · rw [if_pos hax] at hab
            obtain rfl := Option.some_inj.mp hab
            rw [if_pos rfl]
            have hne2 : a ≠ (ufFind fuel p f.source).1 := by
              rw [hax]
              exact fun hh => hxy hh.symm
            rw [if_neg hne2, hax]
            omega
          · rw [if_neg hax] at hab
            have hlt := hrank2 a b hab hba
            have hanx : a ≠ (ufFind fuel p f.source).1 := by
              intro hh
              subst hh
              rw [hrx_root2] at hab
              exact hba (Option.some_inj.mp hab).symm
            rw [if_neg hanx]
            by_cases hbx : b = (ufFind fuel p f.source).1
            · rw [if_pos hbx]
              rw [hbx] at hlt
              omega
            · rw [if_neg hbx]
              exact hlt
        · intro z
          rw [rkGet_aset]
          by_cases hzx : z = (ufFind fuel p f.source).1
          · rw [if_pos hzx]
            have := hbound (ufFind fuel p f.source).1
            omega
          · rw [if_neg hzx]
            have := hbound z
            omega


theorem idsOf_cons (u : User) (rest : List User) :
    idsOf (u :: rest) = u.id :: idsOf rest := rfl

theorem alookup_ufParentInit (users : List User) (x : NodeId) :
    alookup (ufParentInit users) x =
      if x ∈ idsOf users then some x else none := by
  have hgen : ∀ (us : List User) (m : List (NodeId × NodeId)),
      alookup (us.foldl (fun m u => aset m u.id u.id) m) x =
        if x ∈ idsOf us then some x else alookup m x := by
    intro us
    induction us with
    | nil =>
        intro m
        rw [if_neg (by simp [idsOf])]
        rfl
    | cons u rest ih =>
        intro m
        show alookup (rest.foldl (fun m u => aset m u.id u.id)
          (aset m u.id u.id)) x = _
        rw [ih (aset m u.id u.id), idsOf_cons]
        by_cases hr : x ∈ idsOf rest
        · rw [if_pos hr, if_pos (List.mem_cons_of_mem _ hr)]
        · rw [if_neg hr, alookup_aset]
          by_cases hu : x = u.id
          · rw [if_pos hu, if_pos (by rw [hu]; exact List.mem_cons_self _ _), hu]
          · rw [if_neg hu, if_neg (by
              intro hmem
              rcases List.mem_cons.mp hmem with h | h
              · exact hu h
              · exact hr h)]
  exact hgen users []

theorem alookup_ufRankInit (users : List User) (x : NodeId) :
    alookup (ufRankInit users) x =
      if x ∈ idsOf users then some 0 else none := by
  have hgen : ∀ (us : List User) (m : List (NodeId × Nat)),
      alookup (us.foldl (fun m u => aset m u.id 0) m) x =
        if x ∈ idsOf us then some 0 else alookup m x := by
    intro us
    induction us with
    | nil =>
        intro m
        rw [if_neg (by simp [idsOf])]
        rfl
    | cons u rest ih =>
        intro m
        show alookup (rest.foldl (fun m u => aset m u.id 0)
          (aset m u.id 0)) x = _
        rw [ih (aset m u.id 0), idsOf_cons]
        by_cases hr : x ∈ idsOf rest
        · rw [if_pos hr, if_pos (List.mem_cons_of_mem _ hr)]
        · rw [if_neg hr, alookup_aset]
          by_cases hu : x = u.id
          · rw [if_pos hu, if_pos (by rw [hu]; exact List.mem_cons_self _ _)]
          · rw [if_neg hu, if_neg (by
              intro hmem
              rcases List.mem_cons.mp hmem with h | h
              · exact hu h
              · exact hr h)]
  exact hgen users []

theorem rkGet_ufRankInit (users : List User) (x : NodeId) :
    rkGet (ufRankInit users) x = 0 := by
  unfold rkGet
  rw [alookup_ufRankInit]
  by_cases hx : x ∈ idsOf users
  · rw [if_pos hx]
    rfl
  · rw [if_neg hx]
    rfl

theorem edgeConn_nil (x y : NodeId) : EdgeConn [] x y ↔ x = y := by
  constructor
  · intro h
    induction h with
    | refl => rfl
    | tail _ hstep _ =>
        obtain ⟨f, hf, _⟩ := hstep
        exact absurd hf (List.not_mem_nil f)
  · intro h
    rw [h]
    exact Relation.ReflTransGen.refl

/-- The initial union-find state satisfies the invariant with no processed
edges and rank bound 0. -/
theorem ufInv_init (users : List User) :
    UFInv users (ufParentInit users) (ufRankInit users) [] 0 := by
  have hlook := alookup_ufParentInit users
  refine ⟨?_, ?_, ?_, ?_, ?_⟩
  · intro x
    rw [hlook x]
    by_cases hx : x ∈ idsOf users
    · rw [if_pos hx]
      simp [hx]
    · rw [if_neg hx]
      simp [hx]
  · intro a b hab
    rw [hlook a] at hab
    by_cases ha : a ∈ idsOf users
    · rw [if_pos ha] at hab
      obtain rfl := Option.some_inj.mp hab
      rw [hlook a, if_pos ha]
      rfl
    · rw [if_neg ha] at hab
      exact absurd hab (by simp)
  · intro a b hab hba
    rw [hlook a] at hab
    by_cases ha : a ∈ idsOf users
    · rw [if_pos ha] at hab
      exact absurd (Option.some_inj.mp hab).symm hba
    · rw [if_neg ha] at hab
      exact absurd hab (by simp)
  · intro x
    rw [rkGet_ufRankInit]
  · intro x y hx hy
    rw [edgeConn_nil]
    constructor
    · rintro ⟨r, hxr, hyr⟩
      have hx0 : RootsTo (ufParentInit users) x x :=
        RootsTo.self (by rw [hlook x, if_pos hx])
      have hy0 : RootsTo (ufParentInit users) y y :=
        RootsTo.self (by rw [hlook y, if_pos hy])
      rw [rootsTo_unique hx0 hxr, rootsTo_unique hy0 hyr]
    · rintro rfl
      exact ⟨x, RootsTo.self (by rw [hlook x, if_pos hx]),
        RootsTo.self (by rw [hlook x, if_pos hx])⟩

/-- Processing a list of edges by repeated `union` preserves the invariant. -/
theorem ufFold_inv (users : List User) (F : Nat) :
    ∀ (rest : List Friendship) (p : List (NodeId × NodeId))
      (rank : List (NodeId × Nat)) (E : List Friendship) (B : Nat),
    UFInv users p rank E B →
    (∀ f ∈ rest, f.source ∈ idsOf users ∧ f.target ∈ idsOf users) →
    B + rest.length ≤ F →
    UFInv users
      (rest.foldl (fun pr f => ufUnion (F + 2) pr.1 pr.2 f.source f.target)
        (p, rank)).1
      (rest.foldl (fun pr f => ufUnion (F + 2) pr.1 pr.2 f.source f.target)
        (p, rank)).2
      (E ++ rest) (B + rest.length) := by
  intro rest
  induction rest with
  | nil =>
      intro p rank E B hinv _ _
      simpa using hinv
  | cons f rest ih =>
      intro p rank E B hinv hmem hB
      have hstep := ufUnion_spec users p rank E B hinv f
        (hmem f (List.mem_cons_self f rest)).1
        (hmem f (List.mem_cons_self f rest)).2
        (F + 2) (by simp at hB; omega)
      have hres := ih (ufUnion (F + 2) p rank f.source f.target).1
        (ufUnion (F + 2) p rank f.source f.target).2
        (E ++ [f]) (B + 1) hstep
        (fun g hg => hmem g (List.mem_cons_of_mem f hg))
        (by simp at hB ⊢; omega)
      have heq : (E ++ [f]) ++ rest = E ++ f :: rest := by simp
      have hlen : B + 1 + rest.length = B + (f :: rest).length := by
        simp
        omega
      rw [heq, hlen] at hres
      exact hres

/-- After the union phase the invariant holds for the full friendship list. -/
theorem ufAfterUnions_inv (users : List User) (friendships : List Friendship)
    (hmem : ∀ f ∈ friendships,
      f.source ∈ idsOf users ∧ f.target ∈ idsOf users) :
    UFInv users (ufAfterUnions users friendships).1
      (ufAfterUnions users friendships).2 friendships friendships.length := by
  have h := ufFold_inv users friendships.length friendships
    (ufParentInit users) (ufRankInit users) [] 0 (ufInv_init users) hmem
    (by omega)
  simpa [ufAfterUnions, ufFuel] using h


theorem alookup_cons {β : Type} (q : NodeId × β) (rest : List (NodeId × β))
    (x : NodeId) :
    alookup (q :: rest) x = if q.1 = x then some q.2 else alookup rest x := by
  obtain ⟨k, v⟩ := q
  rfl

theorem alookup_mem {β : Type} (m : List (NodeId × β)) (r : NodeId) (v : β)
    (h : alookup m r = some v) : (r, v) ∈ m := by
  induction m with
  | nil => exact absurd h (by simp [alookup])
  | cons q rest ih =>
      by_cases hq : q.1 = r
      · rw [alookup_cons, if_pos hq] at h
        obtain rfl := Option.some_inj.mp h
        rw [show (r, q.2) = q from by rw [← hq]] 
        exact List.mem_cons_self _ _
      · rw [alookup_cons, if_neg hq] at h
        exact List.mem_cons_of_mem _ (ih h)

theorem alookup_grAdd_map (g : List (NodeId × List NodeId)) (ρ uid r : NodeId) :
    alookup (g.map (fun q => if q.1 = ρ then (q.1, q.2 ++ [uid]) else q)) r =
      if r = ρ then (alookup g ρ).map (fun ms => ms ++ [uid])
      else alookup g r := by
  induction g with
  | nil =>
      by_cases h : r = ρ
      · rw [if_pos h]
        rfl
      · rw [if_neg h]
        rfl
  | cons q rest ih =>
      have hfst : (if q.1 = ρ then (q.1, q.2 ++ [uid]) else q).1 = q.1 := by
        by_cases h : q.1 = ρ
        · rw [if_pos h]
        · rw [if_neg h]
      show (if (if q.1 = ρ then (q.1, q.2 ++ [uid]) else q).1 = r
          then some (if q.1 = ρ then (q.1, q.2 ++ [uid]) else q).2
          else alookup (rest.map _) r) = _
      rw [hfst]
      by_cases h1 : q.1 = r
      · rw [if_pos h1]
        by_cases h2 : r = ρ
        · rw [if_pos h2]
          have hq : q.1 = ρ := h1.trans h2
          rw [if_pos hq]
          rw [alookup_cons, if_pos hq]
          rfl
        · have hq : ¬ q.1 = ρ := fun hh => h2 (h1.symm.trans hh)
          rw [if_neg h2, if_neg hq]
          rw [alookup_cons, if_pos h1]
      · rw [if_neg h1, ih]
        by_cases h2 : r = ρ
        · rw [if_pos h2, if_pos h2]
          have hq : ¬ q.1 = ρ := fun hh => h1 (hh.trans h2.symm)
          rw [alookup_cons, if_neg hq]
        · rw [if_neg h2, if_neg h2]
          rw [alookup_cons, if_neg h1]

theorem alookup_grAdd (g : List (NodeId × List NodeId)) (ρ uid r : NodeId) :
    alookup (grAdd g ρ uid) r =
      if r = ρ then some (((alookup g ρ).getD []) ++ [uid])
      else alookup g r := by
  unfold grAdd
  by_cases hpres : (alookup g ρ).isSome
  · rw [if_pos hpres, alookup_grAdd_map]
    by_cases h : r = ρ
    · rw [if_pos h, if_pos h]
      obtain ⟨ms, hms⟩ := Option.isSome_iff_exists.mp hpres
      rw [hms]
      rfl
    · rw [if_neg h, if_neg h]
  · rw [if_neg hpres, alookup_append_single]
    have hnone : alookup g ρ = none := Option.not_isSome_iff_eq_none.mp hpres
    by_cases h : r = ρ
    · rw [if_pos h, h, hnone]
      show (if ρ = ρ then some [uid] else none) = _
      rw [if_pos rfl]
      rfl
    · rw [if_neg h]
      cases hr : alookup g r with
      | some w => rfl
      | none =>
          rw [if_neg (fun hh => h hh.symm)]

theorem nodup_mem_singleton_eq {l : List NodeId} {a : NodeId}
    (hnd : l.Nodup) (hmem : ∀ m, m ∈ l ↔ m = a) : l = [a] := by
  cases l with
  | nil => exact absurd ((hmem a).mpr rfl) (List.not_mem_nil a)
  | cons b t =>
      have hb : b = a := (hmem b).mp (List.mem_cons_self _ _)
      subst hb
      cases t with
      | nil => rfl
      | cons c t' =>
          have hc : c = b :=
            (hmem c).mp (List.mem_cons_of_mem _ (List.mem_cons_self _ _))
          subst hc
          exact absurd (List.mem_cons_self c t')
            (List.nodup_cons.mp hnd).1

/-- Invariant of the grouping fold: the threaded parent map stays equivalent
to the post-union map `pU`, the group map's keys are distinct roots, and each
group holds exactly the already-processed ids rooting to its key. -/
structure GrpInv (users : List User) (pU : List (NodeId × NodeId))
    (rankU : List (NodeId × Nat)) (done : List User)
    (g : List (NodeId × List NodeId)) (p : List (NodeId × NodeId)) : Prop where
  keysP : ∀ z, (alookup p z).isSome ↔ z ∈ idsOf users
  valsP : ∀ a b, alookup p a = some b → (alookup p b).isSome
  rankP : ∀ a b, alookup p a = some b → b ≠ a → rkGet rankU a < rkGet rankU b
  equivP : ∀ a b, RootsTo p a b ↔ RootsTo pU a b
  keysG : (g.map Prod.fst).Nodup
  memG : ∀ q ∈ g, ∀ m, m ∈ q.2 ↔ m ∈ idsOf done ∧ RootsTo pU m q.1
  someG : ∀ r, (alookup g r).isSome ↔ ∃ m, m ∈ idsOf done ∧ RootsTo pU m r
  nodupG : ∀ q ∈ g, q.2.Nodup

theorem idsOf_append (a b : List User) :
    idsOf (a ++ b) = idsOf a ++ idsOf b := List.map_append _ _ _

theorem grpInv_step (users : List User) (pU p : List (NodeId × NodeId))
    (rankU : List (NodeId × Nat)) (F : Nat)
    (hbound : ∀ x, rkGet rankU x ≤ F)
    (done : List User) (g : List (NodeId × List NodeId))
    (hinv : GrpInv users pU rankU done g p)
    (u : User) (hu : u.id ∈ idsOf users) (hnotin : u.id ∉ idsOf done)
    (fuel : Nat) (hfuel : F < fuel) :
    GrpInv users pU rankU (done ++ [u])
      (grAdd g (ufFind fuel p u.id).1 u.id)
      (ufFind fuel p u.id).2 := by
  obtain ⟨keysP, valsP, rankP, equivP, keysG, memG, someG, nodupG⟩ := hinv
  have hx : (alookup p u.id).isSome := (keysP _).mpr hu
  obtain ⟨hroot, hequiv, hkeys1, hvals1, hrank1⟩ :=
    ufFind_spec rankU F hbound p valsP rankP fuel u.id hx (by omega)
  have hrootU : RootsTo pU u.id (ufFind fuel p u.id).1 :=
    (equivP _ _).mp hroot
  have hdone : ∀ m, m ∈ idsOf (done ++ [u]) ↔ m ∈ idsOf done ∨ m = u.id := by
    intro m
    rw [idsOf_append]
    simp [idsOf]
  refine ⟨?_, hvals1, hrank1, fun a b => (hequiv a b).trans (equivP a b),
    ?_, ?_, ?_, ?_⟩
  · intro z
    rw [hkeys1 z]
    exact keysP z
  · -- keys of the group map stay distinct
    unfold grAdd
    by_cases hpres : (alookup g (ufFind fuel p u.id).1).isSome
    · rw [if_pos hpres]
      rw [List.map_map]
      rw [List.map_congr_left (fun q hq => by
        show (if q.1 = (ufFind fuel p u.id).1 then (q.1, q.2 ++ [u.id]) else q).1
          = q.1
        by_cases h : q.1 = (ufFind fuel p u.id).1
        · rw [if_pos h]
        · rw [if_neg h])]
      exact keysG
    · rw [if_neg hpres, List.map_append]
      rw [List.nodup_append]
      refine ⟨keysG, List.nodup_singleton _, ?_⟩
      intro a ha hb
      rw [show (([((ufFind fuel p u.id).1, [u.id])]).map Prod.fst)
        = [(ufFind fuel p u.id).1] from rfl] at hb
      obtain rfl := List.mem_singleton.mp hb
      exact hpres ((alookup_isSome_iff_mem_keys g _).mpr ha)
  · -- membership characterisation of each group
    intro q' hq' m
    unfold grAdd at hq'
    by_cases hpres : (alookup g (ufFind fuel p u.id).1).isSome
    · rw [if_pos hpres] at hq'
      obtain ⟨q, hq, rfl⟩ := List.mem_map.mp hq'
      by_cases hq1 : q.1 = (ufFind fuel p u.id).1
      · rw [if_pos hq1]
        show m ∈ q.2 ++ [u.id] ↔ _
        rw [List.mem_append, List.mem_singleton, memG q hq m, hdone m]
        constructor
        · rintro (⟨hmd, hr⟩ | rfl)
          · exact ⟨Or.inl hmd, hr⟩
          · exact ⟨Or.inr rfl, hq1 ▸ hrootU⟩
        · rintro ⟨hmd | rfl, hr⟩
          · exact Or.inl ⟨hmd, hr⟩
          · exact Or.inr rfl
      · rw [if_neg hq1]
        rw [memG q hq m, hdone m]
        constructor
        · rintro ⟨hmd, hr⟩
          exact ⟨Or.inl hmd, hr⟩
        · rintro ⟨hmd | rfl, hr⟩
          · exact ⟨hmd, hr⟩
          · exact absurd (rootsTo_unique hrootU hr).symm hq1
    · rw [if_neg hpres] at hq'
      rcases List.mem_append.mp hq' with hq | hq
      · rw [memG q' hq m, hdone m]
        have hq1 : q'.1 ≠ (ufFind fuel p u.id).1 := by
          intro hh
          refine hpres ?_
          rw [← hh]
          exact (alookup_isSome_iff_mem_keys g _).mpr
            (List.mem_map.mpr ⟨q', hq, rfl⟩)
        constructor
        · rintro ⟨hmd, hr⟩
          exact ⟨Or.inl hmd, hr⟩
        · rintro ⟨hmd | rfl, hr⟩
          · exact ⟨hmd, hr⟩
          · exact absurd (rootsTo_unique hrootU hr).symm hq1
      · obtain rfl := List.mem_singleton.mp hq
        show m ∈ [u.id] ↔ _
        rw [List.mem_singleton, hdone m]
        constructor
        · rintro rfl
          exact ⟨Or.inr rfl, hrootU⟩
        · rintro ⟨hmd | rfl, hr⟩
          · exfalso
            rw [show ((ufFind fuel p u.id).1, [u.id]).1
              = (ufFind fuel p u.id).1 from rfl] at hr
            exact hpres ((someG _).mpr ⟨m, hmd, hr⟩)
          · rfl
  · -- presence of a group exactly for inhabited roots
    intro r
    rw [alookup_grAdd]
    by_cases h : r = (ufFind fuel p u.id).1
    · rw [if_pos h]
      constructor
      · intro _
        exact ⟨u.id, (hdone u.id).mpr (Or.inr rfl), h ▸ hrootU⟩
      · intro _
        rfl
    · rw [if_neg h]
      rw [someG r]
      constructor
      · rintro ⟨m, hmd, hr⟩
        exact ⟨m, (hdone m).mpr (Or.inl hmd), hr⟩
      · rintro ⟨m, hmd, hr⟩
        rcases (hdone m).mp hmd with hmd' | rfl
        · exact ⟨m, hmd', hr⟩
        · exact absurd (rootsTo_unique hrootU hr).symm h
  · -- each group stays duplicate-free
    intro q' hq'
    unfold grAdd at hq'
    by_cases hpres : (alookup g (ufFind fuel p u.id).1).isSome
    · rw [if_pos hpres] at hq'
      obtain ⟨q, hq, rfl⟩ := List.mem_map.mp hq'
      by_cases hq1 : q.1 = (ufFind fuel p u.id).1
      · rw [if_pos hq1]
        show (q.2 ++ [u.id]).Nodup
        rw [List.nodup_append]
        refine ⟨nodupG q hq, List.nodup_singleton _, ?_⟩
        intro a ha hb
        obtain rfl := List.mem_singleton.mp hb
        exact hnotin ((memG q hq u.id).mp ha).1
      · rw [if_neg hq1]
        exact nodupG q hq
    · rw [if_neg hpres] at hq'
      rcases List.mem_append.mp hq' with hq | hq
      · exact nodupG q' hq
      · obtain rfl := List.mem_singleton.mp hq
        exact List.nodup_singleton _


theorem grp_fold (users : List User) (pU : List (NodeId × NodeId))
    (rankU : List (NodeId × Nat)) (F : Nat)
    (hbound : ∀ x, rkGet rankU x ≤ F) (fuel : Nat) (hfuel : F < fuel) :
    ∀ (todo done : List User) (g : List (NodeId × List NodeId))
      (p : List (NodeId × NodeId)),
    GrpInv users pU rankU done g p →
    (∀ u ∈ todo, u.id ∈ idsOf users) →
    (idsOf (done ++ todo)).Nodup →
    GrpInv users pU rankU (done ++ todo)
      (todo.foldl (fun acc u =>
        (grAdd acc.1 (ufFind fuel acc.2 u.id).1 u.id,
         (ufFind fuel acc.2 u.id).2)) (g, p)).1
      (todo.foldl (fun acc u =>
        (grAdd acc.1 (ufFind fuel acc.2 u.id).1 u.id,
         (ufFind fuel acc.2 u.id).2)) (g, p)).2 := by
  intro todo
  induction todo with
  | nil =>
      intro done g p hinv _ _
      simpa using hinv
  | cons u rest ih =>
      intro done g p hinv hmem hnd
      have hnotin : u.id ∉ idsOf done := by
        intro hin
        rw [idsOf_append] at hnd
        have hdisj := (List.nodup_append.mp hnd).2.2
        exact hdisj hin (by rw [idsOf_cons]; exact List.mem_cons_self _ _)
      have hstep := grpInv_step users pU p rankU F hbound done g hinv u
        (hmem u (List.mem_cons_self _ _)) hnotin fuel hfuel
      have hres := ih (done ++ [u])
        (grAdd g (ufFind fuel p u.id).1 u.id) (ufFind fuel p u.id).2 hstep
        (fun v hv => hmem v (List.mem_cons_of_mem _ hv))
        (by rw [show (done ++ [u]) ++ rest = done ++ u :: rest from by simp]
            exact hnd)
      rw [show (done ++ [u]) ++ rest = done ++ u :: rest from by simp] at hres
      exact hres

/-- The grouping phase establishes its invariant over the whole user list. -/
theorem ufGrouping_inv (users : List User) (friendships : List Friendship)
    (hv : ValidGraph users friendships) :
    GrpInv users (ufAfterUnions users friendships).1
      (ufAfterUnions users friendships).2 users
      (ufGrouping users friendships).1 (ufGrouping users friendships).2 := by
  have hU := ufAfterUnions_inv users friendships
    (fun f hf => ⟨hv.src_mem f hf, hv.tgt_mem f hf⟩)
  have hinit : GrpInv users (ufAfterUnions users friendships).1
      (ufAfterUnions users friendships).2 [] []
      (ufAfterUnions users friendships).1 := by
    refine ⟨hU.keys, hU.vals, hU.rank_inc, fun a b => Iff.rfl, ?_, ?_, ?_, ?_⟩
    · simp
    · intro q hq
      exact absurd hq (List.not_mem_nil q)
    · intro r
      constructor
      · intro h
        exact absurd h (by simp [alookup])
      · rintro ⟨m, hm, _⟩
        exact absurd hm (by simp [idsOf])
    · intro q hq
      exact absurd hq (List.not_mem_nil q)
  have h := grp_fold users (ufAfterUnions users friendships).1
    (ufAfterUnions users friendships).2 friendships.length hU.rank_bound
    (ufFuel friendships) (by unfold ufFuel; omega)
    users [] [] (ufAfterUnions users friendships).1 hinit
    (fun u hu => List.mem_map.mpr ⟨u, hu, rfl⟩)
    (by simpa using hv.ids_nodup)
  simpa [ufGrouping] using h

theorem groupsToCommunities_users :
    ∀ (i : Nat) (g : List (NodeId × List NodeId)),
      (groupsToCommunities i g).map Community.users = g.map Prod.snd := by
  intro i g
  induction g generalizing i with
  | nil => rfl
  | cons q rest ih =>
      show Community.users ⟨i, q.2, _⟩ :: (groupsToCommunities (i + 1) rest).map
        Community.users = q.2 :: rest.map Prod.snd
      rw [ih (i + 1)]

theorem groupsToCommunities_pairwise :
    ∀ (i : Nat) (g : List (NodeId × List NodeId)),
      List.Pairwise (fun q r => ∀ x ∈ q.2, x ∉ r.2) g →
      List.Pairwise (fun c d => ∀ x ∈ c.users, x ∉ d.users)
        (groupsToCommunities i g) := by
  intro i g
  induction g generalizing i with
  | nil =>
      intro _
      exact List.Pairwise.nil
  | cons q rest ih =>
      intro hpw
      obtain ⟨hhead, htail⟩ := List.pairwise_cons.mp hpw
      refine List.Pairwise.cons ?_ (ih (i + 1) htail)
      intro d hd x hx
      have hud : d.users ∈ (groupsToCommunities (i + 1) rest).map
          Community.users := List.mem_map_of_mem _ hd
      rw [groupsToCommunities_users] at hud
      obtain ⟨q2, hq2, hq2u⟩ := List.mem_map.mp hud
      rw [← hq2u]
      exact hhead q2 hq2 x hx

theorem comm_users_sub (i : Nat) (g : List (NodeId × List NodeId))
    (c : Community) (hc : c ∈ groupsToCommunities i g) :
    ∃ q ∈ g, q.2 = c.users := by
  have h : c.users ∈ (groupsToCommunities i g).map Community.users :=
    List.mem_map_of_mem _ hc
  rw [groupsToCommunities_users] at h
  exact List.mem_map.mp h

theorem comm_users_sup (i : Nat) (g : List (NodeId × List NodeId))
    (q : NodeId × List NodeId) (hq : q ∈ g) :
    ∃ c ∈ groupsToCommunities i g, c.users = q.2 := by
  have h : q.2 ∈ g.map Prod.snd := List.mem_map_of_mem _ hq
  rw [← groupsToCommunities_users i g] at h
  exact List.mem_map.mp h


theorem edgeConn_isolated {friendships : List Friendship} {u : NodeId}
    (hiso : ∀ f ∈ friendships, f.source ≠ u ∧ f.target ≠ u) :
    ∀ {y : NodeId}, EdgeConn friendships u y → y = u := by
  intro y h
  induction h with
  | refl => rfl
  | tail hprev hstep ih =>
      obtain ⟨f, hf, hcase⟩ := hstep
      rcases hcase with ⟨hs, _⟩ | ⟨_, ht⟩
      · exact absurd (hs.trans ih) (hiso f hf).1
      · exact absurd (ht.trans ih) (hiso f hf).2

theorem reach_isolated {users : List User} {friendships : List Friendship}
    {u : NodeId}
    (hiso : ∀ f ∈ friendships, f.source ≠ u ∧ f.target ≠ u) :
    ∀ {y : NodeId},
      Reach (buildAdjacencyList users friendships) u y → y = u := by
  intro y h
  obtain ⟨n, hn⟩ := h
  induction hn with
  | refl => rfl
  | step hprev hstep ih =>
      rw [ih] at hstep
      rw [mem_nbrs_build] at hstep
      obtain ⟨f, hf, hcase⟩ := hstep
      rcases hcase with ⟨hs, _, _⟩ | ⟨ht, _, _⟩
      · exact absurd hs.symm (hiso f hf).1
      · exact absurd ht.symm (hiso f hf).2

/-- The four facts about `findCommunitiesUnionFind` on a valid graph: its
member sets cover exactly the node ids, are pairwise disjoint and
duplicate-free, and joint membership is exactly graph connectivity. -/
theorem ufc_facts (users : List User) (friendships : List Friendship)
    (hv : ValidGraph users friendships) :
    (∀ x, (∃ c ∈ findCommunitiesUnionFind users friendships, x ∈ c.users) ↔
      x ∈ idsOf users) ∧
    List.Pairwise (fun c d => ∀ x ∈ c.users, x ∉ d.users)
      (findCommunitiesUnionFind users friendships) ∧
    (∀ c ∈ findCommunitiesUnionFind users friendships, c.users.Nodup) ∧
    (∀ x y, sameCommunity (findCommunitiesUnionFind users friendships) x y ↔
      (x ∈ idsOf users ∧ EdgeConn friendships x y)) := by
  have hU := ufAfterUnions_inv users friendships
    (fun f hf => ⟨hv.src_mem f hf, hv.tgt_mem f hf⟩)
  have hG := ufGrouping_inv users friendships hv
  have hroots : ∀ x, x ∈ idsOf users →
      ∃ r, RootsTo (ufAfterUnions users friendships).1 x r := by
    intro x hx
    exact rootsTo_exists hU.vals hU.rank_inc hU.rank_bound
      (friendships.length + 1) x ((hU.keys x).mpr hx) (by omega)
  have hentry : ∀ x r, x ∈ idsOf users →
      RootsTo (ufAfterUnions users friendships).1 x r →
      ∃ ms, (r, ms) ∈ (ufGrouping users friendships).1 ∧ x ∈ ms := by
    intro x r hx hr
    have hsome : (alookup (ufGrouping users friendships).1 r).isSome :=
      (hG.someG r).mpr ⟨x, hx, hr⟩
    obtain ⟨ms, hms⟩ := Option.isSome_iff_exists.mp hsome
    have hmem : (r, ms) ∈ (ufGrouping users friendships).1 :=
      alookup_mem _ _ _ hms
    exact ⟨ms, hmem, (hG.memG (r, ms) hmem x).mpr ⟨hx, hr⟩⟩
  refine ⟨?_, ?_, ?_, ?_⟩
  · intro x
    constructor
    · rintro ⟨c, hc, hx⟩
      obtain ⟨q, hq, hq2⟩ := comm_users_sub 0 _ c hc
      rw [← hq2] at hx
      exact ((hG.memG q hq x).mp hx).1
    · intro hx
      obtain ⟨r, hr⟩ := hroots x hx
      obtain ⟨ms, hqmem, hxm⟩ := hentry x r hx hr
      obtain ⟨c, hc, hcu⟩ := comm_users_sup 0 _ (r, ms) hqmem
      refine ⟨c, hc, ?_⟩
      rw [hcu]
      exact hxm
  · refine groupsToCommunities_pairwise 0 _ ?_
    have hkp : List.Pairwise (fun q r : NodeId × List NodeId => q.1 ≠ r.1)
        (ufGrouping users friendships).1 := List.pairwise_map.mp hG.keysG
    refine hkp.imp_of_mem ?_
    intro q r hq hr hne x hxq hxr
    have h1 := ((hG.memG q hq x).mp hxq).2
    have h2 := ((hG.memG r hr x).mp hxr).2
    exact hne (rootsTo_unique h1 h2)
  · intro c hc
    obtain ⟨q, hq, hq2⟩ := comm_users_sub 0 _ c hc
    rw [← hq2]
    exact hG.nodupG q hq
  · intro x y
    constructor
    · rintro ⟨c, hc, hx, hy⟩
      obtain ⟨q, hq, hq2⟩ := comm_users_sub 0 _ c hc
      rw [← hq2] at hx hy
      obtain ⟨hxi, hrx⟩ := (hG.memG q hq x).mp hx
      obtain ⟨hyi, hry⟩ := (hG.memG q hq y).mp hy
      exact ⟨hxi, (hU.sem x y hxi hyi).mp ⟨q.1, hrx, hry⟩⟩
    · rintro ⟨hxi, hconn⟩
      have hyi : y ∈ idsOf users :=
        reach_mem_ids hv.src_mem hv.tgt_mem hxi
          ((reach_iff_edgeConn hv.src_mem hv.tgt_mem x y).mpr hconn)
      obtain ⟨r, hrx, hry⟩ := (hU.sem x y hxi hyi).mpr hconn
      obtain ⟨ms, hqmem, hxm⟩ := hentry x r hxi hrx
      have hym : y ∈ ms := (hG.memG (r, ms) hqmem y).mpr ⟨hyi, hry⟩
      obtain ⟨c, hc, hcu⟩ := comm_users_sup 0 _ (r, ms) hqmem
      refine ⟨c, hc, ?_, ?_⟩
      · rw [hcu]
        exact hxm
      · rw [hcu]
        exact hym

/-- On a valid graph an isolated node forms its own singleton community in
the union-find method. -/
theorem ufc_isolated (users : List User) (friendships : List Friendship)
    (hv : ValidGraph users friendships) (u : User) (hu : u ∈ users)
    (hiso : ∀ f ∈ friendships, f.source ≠ u.id ∧ f.target ≠ u.id) :
    ∃ c ∈ findCommunitiesUnionFind users friendships, c.users = [u.id] := by
  have hU := ufAfterUnions_inv users friendships
    (fun f hf => ⟨hv.src_mem f hf, hv.tgt_mem f hf⟩)
  have hG := ufGrouping_inv users friendships hv
  have huid : u.id ∈ idsOf users := List.mem_map.mpr ⟨u, hu, rfl⟩
  obtain ⟨r, hr⟩ := rootsTo_exists hU.vals hU.rank_inc hU.rank_bound
    (friendships.length + 1) u.id ((hU.keys u.id).mpr huid) (by omega)
  have hri : r ∈ idsOf users := by
    rw [← hU.keys r, rootsTo_root hr]
    rfl
  have hconn_ur : EdgeConn friendships u.id r :=
    (hU.sem u.id r huid hri).mp ⟨r, hr, RootsTo.self (rootsTo_root hr)⟩
  have hru : r = u.id := edgeConn_isolated hiso hconn_ur
  subst hru
  have hsome : (alookup (ufGrouping users friendships).1 u.id).isSome :=
    (hG.someG u.id).mpr ⟨u.id, huid, hr⟩
  obtain ⟨ms, hms⟩ := Option.isSome_iff_exists.mp hsome
  have hqmem : (u.id, ms) ∈ (ufGrouping users friendships).1 :=
    alookup_mem _ _ _ hms
  have hchar : ∀ m, m ∈ ms ↔ m = u.id := by
    intro m
    constructor
    · intro hm
      obtain ⟨hmi, hrm⟩ := (hG.memG (u.id, ms) hqmem m).mp hm
      have hconn : EdgeConn friendships m u.id :=
        (hU.sem m u.id hmi hri).mp ⟨u.id, hrm, RootsTo.self (rootsTo_root hr)⟩
      exact edgeConn_isolated hiso (edgeConn_symm hconn)
    · rintro rfl
      exact (hG.memG (u.id, ms) hqmem u.id).mpr ⟨huid, hr⟩
  obtain ⟨c, hc, hcu⟩ := comm_users_sup 0 _ (u.id, ms) hqmem
  refine ⟨c, hc, ?_⟩
  rw [hcu]
  exact nodup_mem_singleton_eq (hG.nodupG (u.id, ms) hqmem) hchar

/-- On a valid graph an isolated node forms its own singleton community in
the traversal method. -/
theorem dfs_isolated (users : List User) (friendships : List Friendship)
    (hv : ValidGraph users friendships) (u : User) (hu : u ∈ users)
    (hiso : ∀ f ∈ friendships, f.source ≠ u.id ∧ f.target ≠ u.id) :
    ∃ c ∈ findCommunities users friendships, c.users = [u.id] := by
  have hinv := findCommunities_inv users friendships hv.src_mem hv.tgt_mem
  have huid : u.id ∈ idsOf users := List.mem_map.mpr ⟨u, hu, rfl⟩
  obtain ⟨c, hc, hcm⟩ :=
    (findCommunities_cover users friendships hv.src_mem hv.tgt_mem u.id).mpr
      huid
  obtain ⟨hnodup, rep, hrep, hchar⟩ := hinv.comm_char c hc
  have hrrep : Reach (buildAdjacencyList users friendships) rep u.id :=
    (hchar u.id).mp hcm
  have hrep_eq : rep = u.id :=
    reach_isolated hiso (reach_symm hv.src_mem hv.tgt_mem hrrep)
  refine ⟨c, hc, nodup_mem_singleton_eq hnodup ?_⟩
  intro x
  rw [hchar x, hrep_eq]
  constructor
  · intro h
    exact reach_isolated hiso h
  · rintro rfl
    exact ⟨0, ReachN.refl⟩


instance (cs : List Community) (x y : NodeId) :
    Decidable (sameCommunity cs x y) := by
  unfold sameCommunity
  infer_instance

/-- A node list with a single user and an edge whose second endpoint `"x"` is
absent from the node list. -/
def c2Users : List User := [⟨"a", "A"⟩]

def c2Friendships : List Friendship := [⟨"a", "x"⟩]

/-- **C2, counterexample.** On the input graph with node set `{a}` and the
dangling edge `a–x`, the traversal method puts the absent id `"x"` into a
community, so the union of the member sets is not the node set: the partition
invariant fails for an input graph that is not valid, refuting the claim's
"for every input graph". -/
theorem communities_partition_fails :
    ¬ (∀ x, (∃ c ∈ findCommunities c2Users c2Friendships, x ∈ c.users) ↔
        x ∈ idsOf c2Users) := by
  intro h
  have h1 : ∃ c ∈ findCommunities c2Users c2Friendships, "x" ∈ c.users := by
    decide
  have h2 : "x" ∈ idsOf c2Users := (h "x").mp h1
  exact absurd h2 (by decide)

/-- **C2.** On every valid graph both community methods return a partition of
the node set: member sets cover exactly the node ids, are pairwise disjoint
and duplicate-free, and each isolated node forms its own singleton
community. -/
theorem communities_partition (users : List User)
    (friendships : List Friendship) (hv : ValidGraph users friendships) :
    ((∀ x, (∃ c ∈ findCommunities users friendships, x ∈ c.users) ↔
        x ∈ idsOf users) ∧
      List.Pairwise (fun c d => ∀ x ∈ c.users, x ∉ d.users)
        (findCommunities users friendships) ∧
      (∀ c ∈ findCommunities users friendships, c.users.Nodup) ∧
      (∀ u ∈ users, (∀ f ∈ friendships,
          f.source ≠ u.id ∧ f.target ≠ u.id) →
        ∃ c ∈ findCommunities users friendships, c.users = [u.id])) ∧
    ((∀ x, (∃ c ∈ findCommunitiesUnionFind users friendships, x ∈ c.users) ↔
        x ∈ idsOf users) ∧
      List.Pairwise (fun c d => ∀ x ∈ c.users, x ∉ d.users)
        (findCommunitiesUnionFind users friendships) ∧
      (∀ c ∈ findCommunitiesUnionFind users friendships, c.users.Nodup) ∧
      (∀ u ∈ users, (∀ f ∈ friendships,
          f.source ≠ u.id ∧ f.target ≠ u.id) →
        ∃ c ∈ findCommunitiesUnionFind users friendships,
          c.users = [u.id])) := by
  have hinv := findCommunities_inv users friendships hv.src_mem hv.tgt_mem
  obtain ⟨hcover, hpw, hnd, hsame⟩ := ufc_facts users friendships hv
  refine ⟨⟨?_, ?_, ?_, ?_⟩, hcover, hpw, hnd, ?_⟩
  · exact findCommunities_cover users friendships hv.src_mem hv.tgt_mem
  · exact hinv.comm_disj
  · intro c hc
    exact (hinv.comm_char c hc).1
  · intro u hu hiso
    exact dfs_isolated users friendships hv u hu hiso
  · intro u hu hiso
    exact ufc_isolated users friendships hv u hu hiso

/-- Witness for C2 at the §8 six-user scenario. -/
theorem communities_partition_witness :
    ValidGraph exUsers exFriendships ∧
      ((∀ x, (∃ c ∈ findCommunities exUsers exFriendships, x ∈ c.users) ↔
          x ∈ idsOf exUsers) ∧
        List.Pairwise (fun c d => ∀ x ∈ c.users, x ∉ d.users)
          (findCommunities exUsers exFriendships) ∧
        (∀ c ∈ findCommunities exUsers exFriendships, c.users.Nodup) ∧
        (∀ u ∈ exUsers, (∀ f ∈ exFriendships,
            f.source ≠ u.id ∧ f.target ≠ u.id) →
          ∃ c ∈ findCommunities exUsers exFriendships, c.users = [u.id])) ∧
      ((∀ x, (∃ c ∈ findCommunitiesUnionFind exUsers exFriendships,
            x ∈ c.users) ↔ x ∈ idsOf exUsers) ∧
        List.Pairwise (fun c d => ∀ x ∈ c.users, x ∉ d.users)
          (findCommunitiesUnionFind exUsers exFriendships) ∧
        (∀ c ∈ findCommunitiesUnionFind exUsers exFriendships,
          c.users.Nodup) ∧
        (∀ u ∈ exUsers, (∀ f ∈ exFriendships,
            f.source ≠ u.id ∧ f.target ≠ u.id) →
          ∃ c ∈ findCommunitiesUnionFind exUsers exFriendships,
            c.users = [u.id])) :=
  ⟨by decide, communities_partition exUsers exFriendships (by decide)⟩

/-- A two-node graph joined only through the absent id `"x"`. -/
def c3Users : List User := [⟨"a", "A"⟩, ⟨"b", "B"⟩]

def c3Friendships : List Friendship := [⟨"a", "x"⟩, ⟨"x", "b"⟩]

/-- **C3, counterexample.** With nodes `{a, b}` and the dangling chain
`a–x`, `x–b`, the union-find method merges `a` and `b` into one community
(the unions route through `x`), while the traversal method keeps `b` separate
(it reaches only the absent `x` from `a`): the two methods group the present
nodes differently, refuting the claim's "for every input graph". -/
theorem communities_methods_disagree :
    ¬ (∀ x y, sameCommunity (findCommunities c3Users c3Friendships) x y ↔
        sameCommunity (findCommunitiesUnionFind c3Users c3Friendships) x y) := by
  intro h
  have h1 : sameCommunity (findCommunitiesUnionFind c3Users c3Friendships)
      "a" "b" := by decide
  have h2 := (h "a" "b").mpr h1
  exact absurd h2 (by decide)

/-- **C3.** On every valid graph the traversal method and the union-find
method group ids into communities identically. -/
theorem communities_methods_agree (users : List User)
    (friendships : List Friendship) (hv : ValidGraph users friendships) :
    ∀ x y, sameCommunity (findCommunities users friendships) x y ↔
      sameCommunity (findCommunitiesUnionFind users friendships) x y := by
  intro x y
  rw [sameCommunity_findCommunities users friendships hv.src_mem hv.tgt_mem
    x y]
  rw [(ufc_facts users friendships hv).2.2.2 x y]
  exact and_congr_right
    (fun _ => reach_iff_edgeConn hv.src_mem hv.tgt_mem x y)

/-- Witness for C3 at the §8 six-user scenario. -/
theorem communities_methods_agree_witness :
    ValidGraph exUsers exFriendships ∧
      (∀ x y, sameCommunity (findCommunities exUsers exFriendships) x y ↔
        sameCommunity (findCommunitiesUnionFind exUsers exFriendships) x y) :=
  ⟨by decide, communities_methods_agree exUsers exFriendships (by decide)⟩


theorem nbrs_mono_append (users : List User) (friendships : List Friendship)
    (e : Friendship) (x w : NodeId)
    (h : w ∈ nbrs (buildAdjacencyList users friendships) x) :
    w ∈ nbrs (buildAdjacencyList users (friendships ++ [e])) x := by
  rw [mem_nbrs_build] at h ⊢
  obtain ⟨f, hf, hc⟩ := h
  exact ⟨f, List.mem_append_left _ hf, hc⟩

theorem reach_mono_append (users : List User) (friendships : List Friendship)
    (e : Friendship) {x y : NodeId}
    (h : Reach (buildAdjacencyList users friendships) x y) :
    Reach (buildAdjacencyList users (friendships ++ [e])) x y := by
  obtain ⟨n, hn⟩ := h
  refine ⟨n, ?_⟩
  induction hn with
  | refl => exact ReachN.refl
  | step hprev hstep ih =>
      exact ReachN.step ih (nbrs_mono_append users friendships e _ _ hstep)

theorem commStep_length (users : List User) (friendships : List Friendship)
    (hsrc : ∀ f ∈ friendships, f.source ∈ idsOf users)
    (htgt : ∀ f ∈ friendships, f.target ∈ idsOf users)
    (cs : List Community) (visited : List NodeId) (u : User)
    (hu : u.id ∈ idsOf users)
    (hvsub : ∀ v ∈ visited, v ∈ idsOf users) (hvnd : visited.Nodup)
    (hclosed : ∀ v ∈ visited,
      ∀ w ∈ nbrs (buildAdjacencyList users friendships) v, w ∈ visited) :
    (commStep users friendships (cs, visited) u).1.length =
      if u.id ∈ visited then cs.length else cs.length + 1 := by
  unfold commStep
  by_cases hvis : u.id ∈ visited
  · rw [if_pos hvis, if_pos hvis]
  · rw [if_neg hvis, if_neg hvis]
    obtain ⟨added, heq, hchar, _, _, _⟩ := dfsVisit_call users friendships
      hsrc htgt u.id visited hu hvis hvsub hvnd hclosed
    have hmem : u.id ∈ added := (hchar u.id).mpr ⟨0, ReachN.refl⟩
    have hpos : 0 < added.length := List.length_pos_of_mem hmem
    rw [heq]
    rw [if_pos hpos]
    simp

theorem comm_count_fold (users : List User) (friendships : List Friendship)
    (e : Friendship)
    (hsrc : ∀ f ∈ friendships, f.source ∈ idsOf users)
    (htgt : ∀ f ∈ friendships, f.target ∈ idsOf users)
    (hsrc2 : ∀ f ∈ friendships ++ [e], f.source ∈ idsOf users)
    (htgt2 : ∀ f ∈ friendships ++ [e], f.target ∈ idsOf users) :
    ∀ (rest processed : List User) (csG : List Community) (visG : List NodeId)
      (csH : List Community) (visH : List NodeId),
      (∀ u ∈ rest, u ∈ users) →
      CommFoldInv users friendships processed csG visG →
      CommFoldInv users (friendships ++ [e]) processed csH visH →
      csH.length ≤ csG.length →
      (rest.foldl (commStep users (friendships ++ [e])) (csH, visH)).1.length ≤
        (rest.foldl (commStep users friendships) (csG, visG)).1.length := by
  intro rest
  induction rest with
  | nil =>
      intro processed csG visG csH visH _ _ _ hlen
      simpa using hlen
  | cons u rest ih =>
      intro processed csG visG csH visH hrest hinvG hinvH hlen
      have hu : u ∈ users := hrest u (List.mem_cons_self _ _)
      have huid : u.id ∈ idsOf users := List.mem_map.mpr ⟨u, hu, rfl⟩
      have hsub : u.id ∈ visG → u.id ∈ visH := by
        intro h
        obtain ⟨v, hv, hr⟩ := (hinvG.vis_char u.id).mp h
        exact (hinvH.vis_char u.id).mpr
          ⟨v, hv, reach_mono_append users friendships e hr⟩
      have hstepG : CommFoldInv users friendships (processed ++ [u])
          (commStep users friendships (csG, visG) u).1
          (commStep users friendships (csG, visG) u).2 := by
        have h := findCommunities_fold users friendships hsrc htgt [u]
          processed csG visG
          (fun v hv => (List.mem_singleton.mp hv) ▸ hu) hinvG
        simpa using h
      have hstepH : CommFoldInv users (friendships ++ [e]) (processed ++ [u])
          (commStep users (friendships ++ [e]) (csH, visH) u).1
          (commStep users (friendships ++ [e]) (csH, visH) u).2 := by
        have h := findCommunities_fold users (friendships ++ [e]) hsrc2 htgt2
          [u] processed csH visH
          (fun v hv => (List.mem_singleton.mp hv) ▸ hu) hinvH
        simpa using h
      have hstep_len : (commStep users (friendships ++ [e]) (csH, visH) u).1.length ≤
          (commStep users friendships (csG, visG) u).1.length := by
        rw [commStep_length users friendships hsrc htgt csG visG u huid
          hinvG.vis_sub hinvG.vis_nodup hinvG.vis_closed]
        rw [commStep_length users (friendships ++ [e]) hsrc2 htgt2 csH visH u
          huid hinvH.vis_sub hinvH.vis_nodup hinvH.vis_closed]
        by_cases hH : u.id ∈ visH
        · rw [if_pos hH]
          by_cases hG : u.id ∈ visG
          · rw [if_pos hG]
            exact hlen
          · rw [if_neg hG]
            omega
        · rw [if_neg hH, if_neg (fun h => hH (hsub h))]
          omega
      rw [List.foldl_cons, List.foldl_cons]
      exact ih (processed ++ [u]) _ _ _ _
        (fun v hv => hrest v (List.mem_cons_of_mem _ hv)) hstepG hstepH
        hstep_len

theorem communities_count_mono (users : List User)
    (friendships : List Friendship) (e : Friendship)
    (hsrc : ∀ f ∈ friendships, f.source ∈ idsOf users)
    (htgt : ∀ f ∈ friendships, f.target ∈ idsOf users)
    (hes : e.source ∈ idsOf users) (het : e.target ∈ idsOf users) :
    (findCommunities users (friendships ++ [e])).length ≤
      (findCommunities users friendships).length := by
  have hsrc2 : ∀ f ∈ friendships ++ [e], f.source ∈ idsOf users := by
    intro f hf
    rcases List.mem_append.mp hf with h | h
    · exact hsrc f h
    · rw [List.mem_singleton.mp h]
      exact hes
  have htgt2 : ∀ f ∈ friendships ++ [e], f.target ∈ idsOf users := by
    intro f hf
    rcases List.mem_append.mp hf with h | h
    · exact htgt f h
    · rw [List.mem_singleton.mp h]
      exact het
  have hinit : ∀ (fr : List Friendship), CommFoldInv users fr [] [] [] := by
    intro fr
    refine ⟨?_, ?_, ?_, ?_, ?_, ?_, ?_⟩ <;> simp
  exact comm_count_fold users friendships e hsrc htgt hsrc2 htgt2 users []
    [] [] [] [] (fun u hu => hu) (hinit friendships)
    (hinit (friendships ++ [e])) (le_refl 0)

theorem edgeConn_mem_ids {users : List User} {friendships : List Friendship}
    (hsrc : ∀ f ∈ friendships, f.source ∈ idsOf users)
    (htgt : ∀ f ∈ friendships, f.target ∈ idsOf users)
    {a b : NodeId} (h : EdgeConn friendships a b) (hne : a ≠ b) :
    a ∈ idsOf users ∧ b ∈ idsOf users := by
  have hmem : ∀ {x y : NodeId}, EdgeConn friendships x y → x ≠ y →
      y ∈ idsOf users := by
    intro x y hxy hxyne
    rcases Relation.ReflTransGen.cases_tail hxy with heq | ⟨c, _, hstep⟩
    · exact absurd heq.symm hxyne
    · obtain ⟨f, hf, hc⟩ := hstep
      rcases hc with ⟨_, ht⟩ | ⟨hs, _⟩
      · rw [← ht]
        exact htgt f hf
      · rw [← hs]
        exact hsrc f hf
  exact ⟨hmem (edgeConn_symm h) (fun hh => hne hh.symm), hmem h hne⟩


/-- A valid graph whose middle node has the empty string as id, connecting
`"a"` and `"b"`. -/
def c10Users : List User := [⟨"a", "A"⟩, ⟨"", "E"⟩, ⟨"b", "B"⟩]

def c10Friendships : List Friendship := [⟨"a", ""⟩, ⟨"", "b"⟩]

/-- **C10, counterexample.** Adding the edge `a–b` to the valid graph
`a–""–b` RAISES the returned shortest-path distance from 0 to 1: on the
original graph the reconstruction loop `while (node)` stops at the falsy id
`""`, returning `{ path: ["b"], distance: 0 }`, while on the extended graph
the direct edge yields `{ path: ["a","b"], distance: 1 }`.  The claim's
distance-monotonicity therefore fails for a valid graph and a new edge
between present distinct nodes. -/
theorem add_edge_monotone_fails :
    ValidGraph c10Users c10Friendships ∧
    ValidGraph c10Users (c10Friendships ++ [⟨"a", "b"⟩]) ∧
    EdgeConn c10Friendships "a" "b" ∧
    ¬ (∀ r r' : PathResult,
        findShortestPath c10Users c10Friendships "a" "b" = some r →
        findShortestPath c10Users (c10Friendships ++ [⟨"a", "b"⟩]) "a" "b"
          = some r' →
        r'.distance ≤ r.distance) := by
  refine ⟨by decide, by decide, ?_, ?_⟩
  · have e1 : EdgeBetween c10Friendships "a" "" := by decide
    have e2 : EdgeBetween c10Friendships "" "b" := by decide
    exact Relation.ReflTransGen.tail (Relation.ReflTransGen.single e1) e2
  · intro h
    have h1 : findShortestPath c10Users c10Friendships "a" "b" =
        some ⟨["b"], 0⟩ := by decide
    have h2 : findShortestPath c10Users (c10Friendships ++ [⟨"a", "b"⟩])
        "a" "b" = some ⟨["a", "b"], 1⟩ := by decide
    have h3 := h ⟨["b"], 0⟩ ⟨["a", "b"], 1⟩ h1 h2
    exact absurd h3 (by decide)

/-- **C10.** On a valid graph, adding one edge between present distinct
nodes never increases the number of communities (unconditionally); and, on
the further assumption that all node ids are non-empty, it never increases a
returned shortest-path distance between already-connected nodes. -/
theorem add_edge_monotone (users : List User) (friendships : List Friendship)
    (e : Friendship) (hv : ValidGraph users friendships)
    (hes : e.source ∈ idsOf users) (het : e.target ∈ idsOf users)
    (hene : e.source ≠ e.target) :
    (findCommunities users (friendships ++ [e])).length ≤
      (findCommunities users friendships).length ∧
    ((∀ u ∈ users, u.id ≠ "") →
      ∀ (a b : NodeId) (r r' : PathResult), EdgeConn friendships a b →
      findShortestPath users friendships a b = some r →
      findShortestPath users (friendships ++ [e]) a b = some r' →
      r'.distance ≤ r.distance) := by
  have hv' : ValidGraph users (friendships ++ [e]) := by
    refine ⟨hv.ids_nodup, ?_, ?_, ?_⟩ <;> intro f hf <;>
      rcases List.mem_append.mp hf with h | h
    · exact hv.src_mem f h
    · rw [List.mem_singleton.mp h]
      exact hes
    · exact hv.tgt_mem f h
    · rw [List.mem_singleton.mp h]
      exact het
    · exact hv.src_ne_tgt f h
    · rw [List.mem_singleton.mp h]
      exact hene
  constructor
  · exact communities_count_mono users friendships e hv.src_mem hv.tgt_mem
      hes het
  · intro hids_ne a b r r' hconn hr hr'
    by_cases hab : a = b
    · subst hab
      unfold findShortestPath at hr hr'
      rw [if_pos rfl] at hr hr'
      obtain rfl := Option.some_inj.mp hr
      obtain rfl := Option.some_inj.mp hr'
      exact le_refl _
    · obtain ⟨ha, hb⟩ := edgeConn_mem_ids hv.src_mem hv.tgt_mem hconn hab
      obtain ⟨r0, heq0, hh0, hl0, hc0, hd0, hmin0⟩ :=
        findShortestPath_correct users friendships a b hv hids_ne ha hb hab
          hconn
      obtain ⟨r1, heq1, hh1, hl1, hc1, hd1, hmin1⟩ :=
        findShortestPath_correct users (friendships ++ [e]) a b hv' hids_ne
          ha hb hab (edgeConn_mono friendships e hconn)
      rw [heq0] at hr
      obtain rfl := Option.some_inj.mp hr
      rw [heq1] at hr'
      obtain rfl := Option.some_inj.mp hr'
      have hchain : List.Chain' (EdgeBetween (friendships ++ [e])) r0.path := by
        refine List.Chain'.imp ?_ hc0
        intro x y hxy
        exact (edgeBetween_append_single friendships e x y).mpr (Or.inl hxy)
      have hle : r1.path.length ≤ r0.path.length := hmin1 r0.path hh0 hl0
        hchain
      omega

/-- Witness for C10 at the §8 scenario with the new edge Bob–Eve. -/
theorem add_edge_monotone_witness :
    ValidGraph exUsers exFriendships ∧
      ((findCommunities exUsers (exFriendships ++ [⟨"bob", "eve"⟩])).length ≤
        (findCommunities exUsers exFriendships).length ∧
      ((∀ u ∈ exUsers, u.id ≠ "") →
        ∀ (a b : NodeId) (r r' : PathResult), EdgeConn exFriendships a b →
        findShortestPath exUsers exFriendships a b = some r →
        findShortestPath exUsers (exFriendships ++ [⟨"bob", "eve"⟩]) a b
          = some r' →
        r'.distance ≤ r.distance)) :=
  ⟨by decide, add_edge_monotone exUsers exFriendships ⟨"bob", "eve"⟩
    (by decide) (by decide) (by decide) (by decide)⟩

end SNGA
